import Mathlib

/-!
Verification of dragonegg's constant conversion engine (src/Constants.cpp).

The development shallowly embeds the bit-level reinterpretation machinery of
the file: the `BitSlice` algebra (ExtendRange / ReduceRange / Merge / getBits),
the type-directed bridge `ViewAsBits` / `InterpretAsType`, the field-interval
machinery (`FieldContents`, interval layout) and the aggregate initializer
builders (`ConvertArrayCONSTRUCTOR`, `ConvertRecordCONSTRUCTOR`,
`ConvertCONSTRUCTOR`, `ConvertInitializer`).

Machine integers are modelled as `Nat` together with an explicit width; all
arithmetic wraps with `% 2 ^ w` exactly where LLVM's constant folder wraps.
Endianness (`BYTES_BIG_ENDIAN`) is threaded as an explicit `be : Bool`
parameter.

Pieces of the repository that are referenced by Constants.cpp but whose
sources are not part of src/ (dragonegg/ADT/Range.h, dragonegg/ADT/
IntervalList.h, `ConvertType`, `getDefaultValue`, `GetUnitType`) are modelled
from the specification; each such definition carries a doc comment saying so.
External LLVM services (TargetData, the constant folder) are modelled from
their documented semantics.

Types with list-shaped children are written as mutual inductives so that all
functions are plain structural recursions; the two type-directed recursions of
the bridge take an explicit fuel argument (any fuel at least the size of the
type computes the real value), keeping every definition executable.
-/

set_option maxHeartbeats 1600000

namespace Dragonegg

/-- BITS_PER_UNIT of the modelled target: 8 bits per addressable unit. -/
def bitsPerUnit : Nat := 8

/-! ### Range -/

/-- Modelled from the spec: `Range` (dragonegg/ADT/Range.h, which is not under
src/): a half-open integer interval `[first, last)`; `last ≤ first` denotes an
empty range.  `SignedRange` in Constants.cpp is `Range<int>`. -/
structure SRange where
  first : Int
  last : Int
deriving DecidableEq

/-- Whether the range is empty. -/
def SRange.empty (r : SRange) : Bool := decide (r.last ≤ r.first)

/-- Number of bits in the range. -/
def SRange.getWidth (r : SRange) : Nat := (r.last - r.first).toNat

/-- Slide the range by an offset. -/
def SRange.Displace (r : SRange) (o : Int) : SRange := ⟨r.first + o, r.last + o⟩

/-- Intersection of two ranges. -/
def SRange.Meet (r s : SRange) : SRange := ⟨max r.first s.first, min r.last s.last⟩

/-- Convex hull of two ranges. -/
def SRange.Join (r s : SRange) : SRange := ⟨min r.first s.first, max r.last s.last⟩

/-- Containment; an empty range is contained in every range. -/
def SRange.contains (r s : SRange) : Bool :=
  s.empty || (decide (r.first ≤ s.first) && decide (s.last ≤ r.last))

/-- Whether two ranges intersect. -/
def SRange.intersects (r s : SRange) : Bool := !(r.Meet s).empty

/-- Range equality as used by the code's `operator==`: all empty ranges are
equal to each other. -/
def SRange.req (r s : SRange) : Bool :=
  (r.empty && s.empty) || (decide (r.first = s.first) && decide (r.last = s.last))

/-! ### LLVM types and the TargetData layout oracle -/

/-- The floating point (and X86_MMX) type kinds handled by Constants.cpp. -/
inductive FloatKind where
  | flt | dbl | fp128 | ppcFp128 | x86Fp80 | x86Mmx
deriving DecidableEq

/-- Primitive bit width of a float kind (`getPrimitiveSizeInBits`). -/
def FloatKind.bitWidth : FloatKind → Nat
  | .flt => 32 | .dbl => 64 | .fp128 => 128
  | .ppcFp128 => 128 | .x86Fp80 => 80 | .x86Mmx => 64

/-- ABI alignment in bytes of a float kind, for the modelled x86-64 data
layout. -/
def FloatKind.alignBytes : FloatKind → Nat
  | .flt => 4 | .dbl => 8 | .fp128 => 16
  | .ppcFp128 => 16 | .x86Fp80 => 16 | .x86Mmx => 8

mutual
/-- The LLVM types supported by `ViewAsBits` / `InterpretAsType`: exactly the
kinds of the switch statements (integer, pointer, the float kinds, array,
struct, vector).  Pointers are 64 bit in the modelled data layout. -/
inductive LLVMType where
  | integer (w : Nat)
  | pointer (elt : LLVMType)
  | floating (k : FloatKind)
  | array (n : Nat) (elt : LLVMType)
  | strukt (packed : Bool) (elts : LLVMTypeList)
  | vector (n : Nat) (elt : LLVMType)
deriving DecidableEq

/-- A list of LLVM types (struct member types). -/
inductive LLVMTypeList where
  | nil
  | cons (t : LLVMType) (ts : LLVMTypeList)
deriving DecidableEq
end

/-- Convert a member-type list to an ordinary list. -/
def LLVMTypeList.toList : LLVMTypeList → List LLVMType
  | .nil => []
  | .cons t ts => t :: ts.toList

/-- Build a member-type list from an ordinary list. -/
def LLVMTypeList.ofList : List LLVMType → LLVMTypeList
  | [] => .nil
  | t :: ts => .cons t (ofList ts)

mutual
/-- Structural size of a type, used as a fuel bound for the type-directed
recursions. -/
def LLVMType.tsize : LLVMType → Nat
  | .integer _ => 1
  | .pointer e => 1 + e.tsize
  | .floating _ => 1
  | .array _ e => 1 + e.tsize
  | .strukt _ elts => 1 + elts.tsizeL
  | .vector _ e => 1 + e.tsize

/-- Structural size of a type list. -/
def LLVMTypeList.tsizeL : LLVMTypeList → Nat
  | .nil => 0
  | .cons t ts => t.tsize + ts.tsizeL
end

/-- Round `n` up to the next multiple of `a`. -/
def roundUp (n a : Nat) : Nat := (n + a - 1) / a * a

/-- Smallest power of two that is at least `n` (used for vector alignment). -/
def nextPow2 (n : Nat) : Nat := 2 ^ Nat.clog 2 n

/-- ABI alignment in bytes of an integer type, for the modelled x86-64 data
layout. -/
def intAlignBytes (w : Nat) : Nat :=
  if w ≤ 8 then 1 else if w ≤ 16 then 2 else if w ≤ 32 then 4 else 8

/-- Size and alignment data computed by the TargetData layout oracle for one
type; store and alloc sizes are derived from it. -/
structure TypeInfo where
  sizeBits : Nat
  alignBytes : Nat
deriving DecidableEq

/-- Store size in bytes derived from a `TypeInfo` (`getTypeStoreSize`). -/
def TypeInfo.storeBytes (i : TypeInfo) : Nat := (i.sizeBits + 7) / 8

/-- Alloc size in bytes derived from a `TypeInfo` (`getTypeAllocSize`). -/
def TypeInfo.allocBytes (i : TypeInfo) : Nat := roundUp i.storeBytes i.alignBytes

/-- Byte offsets assigned to struct members by LLVM's `StructLayout`: each
member is placed at the current offset rounded up to its ABI alignment (no
rounding for packed structs), and the running offset then advances by the
member's alloc size.  Returns the member offsets and the end offset. -/
def structPlace (packed : Bool) : List TypeInfo → Nat → List Nat × Nat
  | [], off => ([], off)
  | i :: is, off =>
    let o := if packed then off else roundUp off i.alignBytes
    let (os, e) := structPlace packed is (o + i.allocBytes)
    (o :: os, e)

/-- ABI alignment in bytes of a struct: 1 if packed, otherwise the maximum of
the members' alignments. -/
def structAlignBytes (packed : Bool) (infos : List TypeInfo) : Nat :=
  if packed then 1 else infos.foldl (fun a i => max a i.alignBytes) 1

mutual
/-- The TargetData layout computation for one type. -/
def typeInfo : LLVMType → TypeInfo
  | .integer w => ⟨w, intAlignBytes w⟩
  | .pointer _ => ⟨64, 8⟩
  | .floating k => ⟨k.bitWidth, k.alignBytes⟩
  | .array n elt =>
    let i := typeInfo elt
    ⟨n * (8 * i.allocBytes), i.alignBytes⟩
  | .vector n elt =>
    let i := typeInfo elt
    let sz := n * i.sizeBits
    ⟨sz, nextPow2 ((sz + 7) / 8)⟩
  | .strukt packed elts =>
    let infos := typeInfoL elts
    let e := (structPlace packed infos 0).2
    let al := structAlignBytes packed infos
    ⟨8 * roundUp e al, al⟩

/-- The TargetData layout data of each type of a member list. -/
def typeInfoL : LLVMTypeList → List TypeInfo
  | .nil => []
  | .cons t ts => typeInfo t :: typeInfoL ts
end

/-- `getTypeSizeInBits`. -/
def sizeInBits (t : LLVMType) : Nat := (typeInfo t).sizeBits

/-- `getTypeStoreSizeInBits`. -/
def storeSizeInBits (t : LLVMType) : Nat := 8 * (typeInfo t).storeBytes

/-- `getTypeAllocSizeInBits`. -/
def allocSizeInBits (t : LLVMType) : Nat := 8 * (typeInfo t).allocBytes

/-- `getABITypeAlignment` (in bytes). -/
def abiAlignBytes (t : LLVMType) : Nat := (typeInfo t).alignBytes

/-- Byte offsets of the members of a struct type (`StructLayout`). -/
def structOffsetsBytes (packed : Bool) (elts : LLVMTypeList) : List Nat :=
  (structPlace packed (typeInfoL elts) 0).1

/-- Index of the struct member containing the given byte offset
(`StructLayout::getElementContainingOffset`): the last member whose offset is
at most the given offset. -/
def elementContainingOffset (offs : List Nat) (x : Nat) : Nat :=
  (offs.filter (fun o => o ≤ x)).length - 1

/-! ### LLVM constants and the constant folder -/

mutual
/-- The LLVM constants the engine manipulates: integer constants (a width and
a value, kept `< 2 ^ width`), pointer constants (a 64-bit address), float
constants (their raw bits), whole-value `undef`, and aggregates. -/
inductive ConstVal where
  | intC (w : Nat) (v : Nat)
  | ptrC (elt : LLVMType) (a : Nat)
  | fltC (k : FloatKind) (bits : Nat)
  | undef (ty : LLVMType)
  | arrC (elt : LLVMType) (elts : ConstValList)
  | structC (packed : Bool) (elts : ConstValList)
  | vecC (elts : ConstValList)
deriving DecidableEq

/-- A list of LLVM constants (aggregate members). -/
inductive ConstValList where
  | nil
  | cons (c : ConstVal) (cs : ConstValList)
deriving DecidableEq
end

/-- Convert a constant list to an ordinary list. -/
def ConstValList.toList : ConstValList → List ConstVal
  | .nil => []
  | .cons c cs => c :: cs.toList

/-- Build a constant list from an ordinary list. -/
def ConstValList.ofList : List ConstVal → ConstValList
  | [] => .nil
  | c :: cs => .cons c (ofList cs)

/-- Length of a constant list. -/
def ConstValList.clen : ConstValList → Nat
  | .nil => 0
  | .cons _ cs => 1 + cs.clen

/-- Indexing with default into a constant list. -/
def ConstValList.getD : ConstValList → Nat → ConstVal → ConstVal
  | .nil, _, d => d
  | .cons c _, 0, _ => c
  | .cons _ cs, i+1, d => cs.getD i d

mutual
/-- The LLVM type of a constant (`Constant::getType`). -/
def ConstVal.typeOf : ConstVal → LLVMType
  | .intC w _ => .integer w
  | .ptrC elt _ => .pointer elt
  | .fltC k _ => .floating k
  | .undef ty => ty
  | .arrC elt elts => .array elts.clen elt
  | .structC packed elts => .strukt packed (typeOfL elts)
  | .vecC elts =>
    .vector elts.clen (match elts with
      | .nil => .integer 0
      | .cons c _ => c.typeOf)

/-- The types of a list of constants. -/
def typeOfL : ConstValList → LLVMTypeList
  | .nil => .nil
  | .cons c cs => .cons c.typeOf (typeOfL cs)
end

/-- Folded `CreateZExtOrBitCast` to an integer type of width `w`, following
LLVM's constant folder: a genuine zext of an integer constant extends its
value, and `zext(undef)` folds to zero (the high bits of a zext are known
zero). -/
def createZExtOrBitCast (c : ConstVal) (w : Nat) : ConstVal :=
  match c with
  | .intC w0 v => if w = w0 then c else .intC w v
  | .undef (.integer w0) => if w = w0 then c else .intC w 0
  | _ => c

/-- Folded `CreateTruncOrBitCast` to an integer type of width `w`:
truncation wraps the value, `trunc(undef)` is `undef`. -/
def createTruncOrBitCast (c : ConstVal) (w : Nat) : ConstVal :=
  match c with
  | .intC w0 v => if w = w0 then c else .intC w (v % 2 ^ w)
  | .undef (.integer w0) => if w = w0 then c else .undef (.integer w)
  | _ => c

/-- Folded `CreateShl` by a constant amount: shifts wrap at the width, and
`undef << x` folds to zero. -/
def createShl (c : ConstVal) (amt : Nat) : ConstVal :=
  match c with
  | .intC w v => .intC w (v <<< amt % 2 ^ w)
  | .undef (.integer w) => .intC w 0
  | _ => c

/-- Folded `CreateLShr` by a constant amount: `undef >> x` folds to zero. -/
def createLShr (c : ConstVal) (amt : Nat) : ConstVal :=
  match c with
  | .intC w v => .intC w (v >>> amt)
  | .undef (.integer w) => .intC w 0
  | _ => c

/-- Folded `CreateAnd`: `undef & x` folds to zero (`undef & undef` stays
undef). -/
def createAnd (c1 c2 : ConstVal) : ConstVal :=
  match c1, c2 with
  | .intC w v, .intC _ u => .intC w (v &&& u)
  | .undef (.integer _), .undef (.integer _) => c1
  | .undef (.integer w), .intC _ _ => .intC w 0
  | .intC w _, .undef (.integer _) => .intC w 0
  | _, _ => c1

/-- Folded `CreateOr`: `undef | x` folds to all-ones (`undef | undef` stays
undef). -/
def createOr (c1 c2 : ConstVal) : ConstVal :=
  match c1, c2 with
  | .intC w v, .intC _ u => .intC w (v ||| u)
  | .undef (.integer _), .undef (.integer _) => c1
  | .undef (.integer w), .intC _ _ => .intC w (2 ^ w - 1)
  | .intC w _, .undef (.integer _) => .intC w (2 ^ w - 1)
  | _, _ => c1

/-- Folded `CreatePtrToInt` to the 64-bit int-pointer type. -/
def createPtrToInt (c : ConstVal) : ConstVal :=
  match c with
  | .ptrC _ a => .intC 64 a
  | .undef (.pointer _) => .undef (.integer 64)
  | _ => c

/-- Folded `CreateIntToPtr` to a pointer type with the given pointee. -/
def createIntToPtr (c : ConstVal) (elt : LLVMType) : ConstVal :=
  match c with
  | .intC _ v => .ptrC elt (v % 2 ^ 64)
  | .undef _ => .undef (.pointer elt)
  | _ => c

/-- Folded `CreateBitCast` between same-width scalar types (as used between
int and float types by the bridge).  `bitcast undef` is `undef`. -/
def createBitCast (c : ConstVal) (t : LLVMType) : ConstVal :=
  match c, t with
  | .intC w v, .floating k => if k.bitWidth = w then .fltC k v else c
  | .fltC k b, .integer w => if k.bitWidth = w then .intC w b else c
  | .undef _, _ => .undef t
  | .ptrC _ a, .pointer e => .ptrC e a
  | _, _ => c

/-- Folded `CreateExtractValue` on array and struct constants; extraction
from `undef` gives `undef` of the member type. -/
def extractValue (c : ConstVal) (i : Nat) : ConstVal :=
  match c with
  | .arrC elt elts => elts.getD i (.undef elt)
  | .structC _ elts => elts.getD i (.undef (.integer 0))
  | .undef (.array _ elt) => .undef elt
  | .undef (.strukt _ tys) => .undef (tys.toList.getD i (.integer 0))
  | _ => c

/-- Folded `CreateExtractElement` on vector constants. -/
def extractElement (c : ConstVal) (i : Nat) : ConstVal :=
  match c with
  | .vecC elts => elts.getD i (.undef (.integer 0))
  | .undef (.vector _ elt) => .undef elt
  | _ => c

/-- APInt::getBitsSet: the integer with bits `[lo, hi)` set. -/
def getBitsSet (lo hi : Nat) : Nat := ((1 <<< (hi - lo)) - 1) <<< lo

/-- Complement of a mask inside width `w` (APInt `operator~`). -/
def complementW (w m : Nat) : Nat := (2 ^ w - 1) ^^^ m

/-! ### BitSlice -/

/-- BitSlice: a contiguous range of bits held in memory.  `contents` is null
exactly when the range is empty; otherwise it is an integer-typed constant
whose width is the width of the range.  On little-endian machines the least
significant bit of the contents is the first bit of the range, on big-endian
machines it is the last. -/
structure BitSlice where
  R : SRange
  contents : Option ConstVal
deriving DecidableEq

/-- The default (empty) BitSlice. -/
def BitSlice.emptySlice : BitSlice := ⟨⟨0, 0⟩, none⟩

/-- Whether the bit range is empty. -/
def BitSlice.isEmpty (s : BitSlice) : Bool := s.R.empty

/-- Number of bits in the slice's range. -/
def BitSlice.getBitWidth (s : BitSlice) : Nat := s.R.getWidth

/-- Slide all bits of the slice by the given offset. -/
def BitSlice.Displace (s : BitSlice) (o : Int) : BitSlice := ⟨s.R.Displace o, s.contents⟩

/-- The `contentsValid` invariant of the class: null contents iff the range
is empty, and otherwise an integer-typed constant of exactly the range's
width (an integer-typed `undef` also qualifies); values are normalized. -/
def BitSlice.wfB (s : BitSlice) : Bool :=
  match s.contents with
  | none => s.R.empty
  | some (.intC w v) => !s.R.empty && w == s.R.getWidth && decide (v < 2 ^ w)
  | some (.undef (.integer w)) => !s.R.empty && w == s.R.getWidth
  | some _ => false

/-- `BitSlice::ExtendRange`: extend the slice to a wider range; the added
bits are undefined.  Precondition of the code: `r.contains R`. -/
def BitSlice.ExtendRange (be : Bool) (s : BitSlice) (r : SRange) : BitSlice :=
  if s.R.req r then s
  else if s.R.empty then ⟨r, some (.undef (.integer r.getWidth))⟩
  else
    match s.contents with
    | none => ⟨r, none⟩
    | some c =>
      let c0 := createZExtOrBitCast c r.getWidth
      let deltaFirst := (s.R.first - r.first).toNat
      let deltaLast := (r.last - s.R.last).toNat
      let c1 :=
        if be = true ∧ deltaLast ≠ 0 then createShl c0 deltaLast
        else if be = false ∧ deltaFirst ≠ 0 then createShl c0 deltaFirst
        else c0
      ⟨r, some c1⟩

/-- `BitSlice::ReduceRange`: reduce the slice to a smaller range, discarding
bits outside it.  Precondition of the code: `R.contains r`. -/
def BitSlice.ReduceRange (be : Bool) (s : BitSlice) (r : SRange) : BitSlice :=
  if s.R.req r then s
  else if r.empty then BitSlice.emptySlice
  else
    match s.contents with
    | none => ⟨r, none⟩
    | some c =>
      let deltaFirst := (r.first - s.R.first).toNat
      let deltaLast := (s.R.last - r.last).toNat
      let c1 :=
        if be = true ∧ deltaLast ≠ 0 then createLShr c deltaLast
        else if be = false ∧ deltaFirst ≠ 0 then createLShr c deltaFirst
        else c
      ⟨r, some (createTruncOrBitCast c1 r.getWidth)⟩

/-- `BitSlice::getBits`: the bits of the slice over the given (non-empty)
range, as an integer-typed constant; bits outside the slice are undefined. -/
def BitSlice.getBits (be : Bool) (s : BitSlice) (r : SRange) : ConstVal :=
  if s.R.req r then s.contents.getD (.undef (.integer r.getWidth))
  else if s.R.empty then .undef (.integer r.getWidth)
  else
    (((s.ExtendRange be (s.R.Join r)).ReduceRange be r).contents).getD
      (.undef (.integer r.getWidth))

/-- `BitSlice::Merge`: join the slice with a disjoint slice, forming the
convex hull of the two ranges; each slice's bits win inside its own range,
other bits are undefined.  Written functionally (the C++ mutates `this`). -/
def BitSlice.Merge (be : Bool) (a b : BitSlice) : BitSlice :=
  if b.R.empty then a
  else if a.R.empty then b
  else
    let hull := a.R.Join b.R
    let extA := a.ExtendRange be hull
    let extB := b.ExtendRange be hull
    let w := hull.getWidth
    let thisBits :=
      if be then getBitsSet (hull.last - a.R.last).toNat (hull.last - a.R.first).toNat
      else getBitsSet (a.R.first - hull.first).toNat (a.R.last - hull.first).toNat
    let otherBits :=
      if be then getBitsSet (hull.last - b.R.last).toNat (hull.last - b.R.first).toNat
      else getBitsSet (b.R.first - hull.first).toNat (b.R.last - hull.first).toNat
    let clearThis := ConstVal.intC w (complementW w thisBits)
    let clearOther := ConstVal.intC w (complementW w otherBits)
    let thisPart := createAnd (extA.contents.getD (.undef (.integer w))) clearOther
    let otherPart := createAnd (extB.contents.getD (.undef (.integer w))) clearThis
    ⟨hull, some (createOr thisPart otherPart)⟩

/-! ### The bit/type bridge: ViewAsBits and InterpretAsType -/

/-- `ViewAsBits`, with fuel: view a constant of the given type as a bunch of
bits.  Only bits in the requested range are needed; the function may return a
slice covering more (or fewer, when bits are undefined) positions. -/
def viewAsBitsF (be : Bool) : Nat → LLVMType → ConstVal → SRange → BitSlice
  | 0, _, _, _ => BitSlice.emptySlice
  | fuel+1, ty, c, rin =>
    if rin.empty then BitSlice.emptySlice
    else
      let storeSize : Int := storeSizeInBits ty
      let r := rin.Meet ⟨0, storeSize⟩
      if r.empty then BitSlice.emptySlice
      else
        match ty with
        | .pointer _ => ⟨⟨0, storeSize⟩, some (createPtrToInt c)⟩
        | .integer w =>
          let cc := createBitCast c (.integer w)
          if be then ⟨⟨storeSize - w, storeSize⟩, some cc⟩
          else ⟨⟨0, (w : Int)⟩, some cc⟩
        | .floating k =>
          let w := k.bitWidth
          let cc := createBitCast c (.integer w)
          if be then ⟨⟨storeSize - w, storeSize⟩, some cc⟩
          else ⟨⟨0, (w : Int)⟩, some cc⟩
        | .array _ elt =>
          let stride : Nat := allocSizeInBits elt
          let firstElt := r.first.toNat / stride
          let lastElt := (r.last.toNat + stride - 1) / stride
          let strideRange : SRange := ⟨0, (stride : Int)⟩
          (List.range' firstElt (lastElt - firstElt)).foldl
            (fun bits i =>
              let eltC := extractValue c i
              let eltBits := viewAsBitsF be fuel elt eltC strideRange
              bits.Merge be (eltBits.Displace (i * stride)))
            BitSlice.emptySlice
        | .strukt packed elts =>
          let offs := structOffsetsBytes packed elts
          let firstIdx := elementContainingOffset offs ((r.first + 7).toNat / 8)
          let lastIdx := 1 + elementContainingOffset offs ((r.last + 6).toNat / 8)
          (List.range' firstIdx (lastIdx - firstIdx)).foldl
            (fun bits i =>
              let field := extractValue c i
              let fieldTy := field.typeOf
              let fieldStoreSize : Int := storeSizeInBits fieldTy
              let fieldBits := viewAsBitsF be fuel fieldTy field ⟨0, fieldStoreSize⟩
              bits.Merge be (fieldBits.Displace (8 * (offs.getD i 0))))
            BitSlice.emptySlice
        | .vector _ elt =>
          let stride : Nat := allocSizeInBits elt
          let firstElt := r.first.toNat / stride
          let lastElt := (r.last.toNat + stride - 1) / stride
          let strideRange : SRange := ⟨0, (stride : Int)⟩
          (List.range' firstElt (lastElt - firstElt)).foldl
            (fun bits i =>
              let eltC := extractElement c i
              let eltBits := viewAsBitsF be fuel elt eltC strideRange
              bits.Merge be (eltBits.Displace (i * stride)))
            BitSlice.emptySlice

/-- `ViewAsBits` on a constant (the type is read off the constant, as in the
code; the fuel `tsize` of the type is enough for every well-typed constant). -/
def viewAsBits (be : Bool) (c : ConstVal) (r : SRange) : BitSlice :=
  viewAsBitsF be c.typeOf.tsize c.typeOf c r

/-- The integer case of `InterpretAsType` (non-recursive): view `storeSize`
bits starting at `sb` and extract the low (little-endian) or high (big-endian)
`w` bits. -/
def interpretAsInt (be : Bool) (c : ConstVal) (w : Nat) (sb : Int) : ConstVal :=
  let storeSize : Int := storeSizeInBits (.integer w)
  let bits := viewAsBits be c ⟨sb, sb + storeSize⟩
  let bits2 := bits.Displace (-sb)
  if be then bits2.getBits be ⟨storeSize - w, storeSize⟩
  else bits2.getBits be ⟨0, (w : Int)⟩

/-- `InterpretAsType`, with fuel: the constant you would get by storing the
bits of `c` to memory and loading a value of type `ty` from bit offset `sb`.
The recursive calls of the pointer and float cases (which target an integer
type and so immediately take either the identity fast path or the integer
case) are inlined accordingly. -/
def interpretAsTypeF (be : Bool) : Nat → LLVMType → ConstVal → Int → ConstVal
  | 0, _, c, _ => c
  | fuel+1, ty, c, sb =>
    if c.typeOf = ty then c
    else
      match ty with
      | .integer w => interpretAsInt be c w sb
      | .pointer elt =>
        let ic := if c.typeOf = LLVMType.integer 64 then c else interpretAsInt be c 64 sb
        createIntToPtr ic elt
      | .floating k =>
        let w := k.bitWidth
        let ic := if c.typeOf = LLVMType.integer w then c else interpretAsInt be c w sb
        createBitCast ic (.floating k)
      | .array n elt =>
        let stride : Nat := allocSizeInBits elt
        .arrC elt (ConstValList.ofList ((List.range n).map
          (fun i => interpretAsTypeF be fuel elt c (sb + i * stride))))
      | .strukt packed elts =>
        let offs := structOffsetsBytes packed elts
        .structC packed (ConstValList.ofList
          ((elts.toList.zip offs).map
            (fun p => interpretAsTypeF be fuel p.1 c (sb + 8 * p.2))))
      | .vector n elt =>
        let stride : Nat := allocSizeInBits elt
        .vecC (ConstValList.ofList ((List.range n).map
          (fun i => interpretAsTypeF be fuel elt c (sb + i * stride))))

/-- `InterpretAsType` (the fuel `tsize ty` is always enough, as the recursion
structurally descends into the type). -/
def interpretAsType (be : Bool) (c : ConstVal) (ty : LLVMType) (sb : Int) : ConstVal :=
  interpretAsTypeF be ty.tsize ty c sb

/-- Modelled from the spec's TypedConstant interface: `GetUnitType` from
dragonegg's Internals.h (not under src/) — the type `[n x i8]` of `n`
addressable units. -/
def unitType (n : Nat) : LLVMType := .array n (.integer 8)


/-- The bit position displacement of a subrange inside a hull: the last-side
delta on big-endian targets, the first-side delta on little-endian targets
(the shared placement policy of the engine). -/
def dOf (be : Bool) (r hull : SRange) : Nat :=
  if be then (hull.last - r.last).toNat else (r.first - hull.first).toNat

/-- The numeric value held by a slice's contents (zero for undef or empty). -/
def sliceVal (s : BitSlice) : Nat :=
  match s.contents with
  | some (.intC _ v) => v
  | _ => 0

/-! ### FieldContents -/

/-- `FieldContents`: a constant restricted to a range of bits.  The first bit
of the constant is logically positioned at `Starts`; bits of the range outside
the constant's extent are undefined.  `C` is null only when the range is
empty. -/
structure FieldContents where
  R : SRange
  C : Option ConstVal
  Starts : Int
deriving DecidableEq

/-- `FieldContents::get`: fill the range `[first, last)` with a constant. -/
def FieldContents.get (first last : Int) (c : ConstVal) : FieldContents :=
  ⟨⟨first, last⟩, some c, first⟩

/-- `FieldContents::ChangeRangeTo`. -/
def FieldContents.changeRangeTo (f : FieldContents) (r : SRange) : FieldContents :=
  ⟨r, f.C, f.Starts⟩

/-- `FieldContents::getAsBits`: the bits in the range as an integer constant
(null if the range is empty). -/
def FieldContents.getAsBits (be : Bool) (f : FieldContents) : Option ConstVal :=
  if f.R.empty then none
  else
    match f.C with
    | none => none
    | some c => some (interpretAsType be c (.integer f.R.getWidth) (f.R.first - f.Starts))

/-- `FieldContents::isSafeToReturnContentsDirectly`: the constant as stored
already represents the bits of the range (it starts at the range's start and
its alloc size does not exceed the range's width). -/
def FieldContents.isSafe (f : FieldContents) : Bool :=
  match f.C with
  | none => false
  | some c =>
    if !f.R.empty && decide (f.R.first ≠ f.Starts) then false
    else decide (allocSizeInBits c.typeOf ≤ f.R.getWidth)

/-- `FieldContents::extractContents`: the contained bits as a constant holding
every defined bit of the range, with alloc size at most the range's width
(requires the width to be a multiple of an address unit). -/
def FieldContents.extractContents (be : Bool) (f : FieldContents) : ConstVal :=
  if f.isSafe then f.C.getD (.undef (.integer 0))
  else if f.R.empty then .undef (unitType 0)
  else
    let units := f.R.getWidth / bitsPerUnit
    let c := (f.getAsBits be).getD (.undef (.integer 0))
    let f2 : FieldContents := ⟨f.R, some c, f.R.first⟩
    if f2.isSafe then c
    else interpretAsType be c (unitType units) 0

/-- `FieldContents::JoinWith`: merge with a disjoint field, the range becoming
the convex hull of the two ranges. -/
def FieldContents.joinWith (be : Bool) (f s : FieldContents) : FieldContents :=
  let bits := BitSlice.Merge be ⟨f.R, f.getAsBits be⟩ ⟨s.R, s.getAsBits be⟩
  ⟨bits.R,
   if bits.R.empty then bits.contents else some (bits.getBits be bits.R),
   if bits.R.empty then 0 else bits.R.first⟩

/-! ### The interval layout (modelled from the spec) -/

/-- Modelled from the spec: the parts of an existing interval outside a newly
inserted range (each operand's own bits take precedence within its own range,
so the overlapped part of the existing interval is discarded). -/
def trimOutside (f : FieldContents) (r : SRange) : List FieldContents :=
  let lo : SRange := ⟨f.R.first, min f.R.last r.first⟩
  let hi : SRange := ⟨max f.R.first r.last, f.R.last⟩
  (if lo.empty then [] else [f.changeRangeTo lo]) ++
    (if hi.empty then [] else [f.changeRangeTo hi])

/-- Worker of `AddInterval`: walk the sorted list; intervals entirely before
the inserted one stay, at the first interval entirely after it the inserted
interval is placed, and an overlapping interval is trimmed to its parts
outside the inserted range and folded into the inserted interval with
`JoinWith` (the inserted interval keeps growing while it overlaps). -/
def addIntervalGo (be : Bool) : List FieldContents → FieldContents → List FieldContents
  | [], s => [s]
  | f :: fs, s =>
    if f.R.last ≤ s.R.first then f :: addIntervalGo be fs s
    else if s.R.last ≤ f.R.first then s :: f :: fs
    else addIntervalGo be fs
      ((trimOutside f s.R).foldl (fun acc p => acc.joinWith be p) s)

/-- Modelled from the spec: `IntervalList::AddInterval` (dragonegg/ADT/
IntervalList.h is not under src/).  The list is kept sorted by range start
with pairwise disjoint non-empty ranges; inserting an interval that overlaps
existing ones trims the overlapped parts away from the existing intervals (the
inserted interval's bits take precedence) and folds everything into one new
interval spanning the union, using the caller-supplied merge `JoinWith`. -/
def addInterval (be : Bool) (l : List FieldContents) (s : FieldContents) : List FieldContents :=
  if s.R.empty then l else addIntervalGo be l s

/-- Snap a range outward to multiples of `al` (begin rounded down, end rounded
up); ranges in the layout are non-negative. -/
def snapRange (al : Nat) (r : SRange) : SRange :=
  ⟨(r.first.toNat / al * al : Nat), (roundUp r.last.toNat al : Nat)⟩

/-- Join a group of pairwise disjoint intervals with `JoinWith` and give the
result the (snapped) hull range. -/
def alignGroupFinish (be : Bool) (g : List FieldContents) (hull : SRange) : FieldContents :=
  match g with
  | [] => ⟨⟨0, 0⟩, none, 0⟩
  | c :: cs => (cs.foldl (fun acc p => acc.joinWith be p) c).changeRangeTo hull

/-- Worker of `alignBoundaries`: walk the sorted intervals, grouping
consecutive intervals whose snapped ranges collide. -/
def alignGo (be : Bool) (al : Nat) (g : List FieldContents) (hull : SRange) :
    List FieldContents → List FieldContents
  | [] => [alignGroupFinish be g hull]
  | f :: fs =>
    let s := snapRange al f.R
    if hull.intersects s then alignGo be al (g ++ [f]) (hull.Join s) fs
    else alignGroupFinish be g hull :: alignGo be al [f] s fs

/-- Modelled from the spec: `IntervalList::AlignBoundaries` (dragonegg/ADT/
IntervalList.h is not under src/): force every interval to begin and end on a
multiple of `al`, coalescing (via `JoinWith`) adjacent sub-unit pieces whose
snapped ranges collide. -/
def alignBoundaries (be : Bool) (al : Nat) : List FieldContents → List FieldContents
  | [] => []
  | f :: fs => alignGo be al [f] (snapRange al f.R) fs

/-! ### The GCC source-expression fragment -/

/-- Aggregate record kinds (`RECORD_TYPE`, `UNION_TYPE`, `QUAL_UNION_TYPE`). -/
inductive RecKind where
  | record | uni | qualUni
deriving DecidableEq

mutual
/-- The GCC types of the embedded fragment: integer types (with precision,
`TYPE_SIZE`, `TYPE_ALIGN` and signedness), array and vector types, and
record/union types with a field list. -/
inductive GccType where
  | intTy (precision sizeBits alignBits : Nat) (unsigned : Bool)
  | arrTy (elt : GccType) (n : Nat) (alignBits : Nat)
  | vecTy (elt : GccType) (n : Nat) (alignBits : Nat)
  | recTy (kind : RecKind) (fields : GccFieldList) (sizeBits alignBits : Nat)
deriving DecidableEq

/-- A GCC `FIELD_DECL`: bit offset in the record, `DECL_SIZE` in bits, and the
field's type.  The fragment only contains fields with LLVM-compatible, known
constant offsets and sizes. -/
inductive GccField where
  | mk (offset : Nat) (declSize : Nat) (fty : GccType)
deriving DecidableEq

/-- A list of fields (`TYPE_FIELDS`). -/
inductive GccFieldList where
  | nil
  | cons (f : GccField) (fs : GccFieldList)
deriving DecidableEq
end

/-- Bit offset of a field (`getFieldOffsetInBits`). -/
def GccField.offset : GccField → Nat
  | .mk o _ _ => o

/-- `DECL_SIZE` of a field, in bits. -/
def GccField.declSize : GccField → Nat
  | .mk _ s _ => s

/-- The type of a field. -/
def GccField.fty : GccField → GccType
  | .mk _ _ t => t

/-- Convert a field list to an ordinary list. -/
def GccFieldList.toList : GccFieldList → List GccField
  | .nil => []
  | .cons f fs => f :: fs.toList

/-- The constructor-element index (`FOR_EACH_CONSTRUCTOR_ELT` purpose): none
(next slot), a single zero-based index, an inclusive index range, or a field
declaration. -/
inductive CtorIdx where
  | next
  | single (i : Nat)
  | rangeIdx (lo hi : Nat)
  | fld (f : GccField)
deriving DecidableEq

mutual
/-- The source expressions of the embedded fragment: integer literals and
constructors. -/
inductive GccExpr where
  | intCst (ty : GccType) (v : Nat)
  | ctor (ty : GccType) (elts : CtorElts)
deriving DecidableEq

/-- The element list of a constructor. -/
inductive CtorElts where
  | nil
  | cons (idx : CtorIdx) (value : GccExpr) (rest : CtorElts)
deriving DecidableEq
end

/-- `TREE_TYPE` of an expression. -/
def gccTypeOf : GccExpr → GccType
  | .intCst ty _ => ty
  | .ctor ty _ => ty

/-- `TYPE_ALIGN` in bits. -/
def GccType.align : GccType → Nat
  | .intTy _ _ a _ => a
  | .arrTy _ _ a => a
  | .vecTy _ _ a => a
  | .recTy _ _ _ a => a

/-- `TYPE_SIZE` in bits. -/
def GccType.gccSize : GccType → Nat
  | .intTy _ s _ _ => s
  | .arrTy elt n _ => n * elt.gccSize
  | .vecTy elt n _ => n * elt.gccSize
  | .recTy _ _ s _ => s

/-- `TYPE_PRECISION` of an integer type. -/
def GccType.precision : GccType → Nat
  | .intTy p _ _ _ => p
  | _ => 0

/-- `TYPE_UNSIGNED`. -/
def GccType.isUnsigned : GccType → Bool
  | .intTy _ _ _ u => u
  | _ => false

/-- Whether the type is an integer type. -/
def GccType.isIntTy : GccType → Bool
  | .intTy .. => true
  | _ => false

/-- `AGGREGATE_TYPE_P`: arrays and record/union kinds (vectors are not
aggregates in GCC). -/
def GccType.isAggregate : GccType → Bool
  | .arrTy .. => true
  | .recTy .. => true
  | _ => false

/-- Whether the type is a vector type (`TREE_CODE == VECTOR_TYPE`). -/
def GccType.isVec : GccType → Bool
  | .vecTy .. => true
  | _ => false

/-- Element type of an array or vector type (`TREE_TYPE`). -/
def GccType.eltType : GccType → GccType
  | .arrTy e _ _ => e
  | .vecTy e _ _ => e
  | t => t

/-- Element count of an array or vector type (`ArrayLengthOf` /
`TYPE_VECTOR_SUBPARTS`). -/
def GccType.count : GccType → Nat
  | .arrTy _ n _ => n
  | .vecTy _ n _ => n
  | _ => 0

/-- Fields of a record type. -/
def GccType.fieldsOf : GccType → List GccField
  | .recTy _ fields _ _ => fields.toList
  | _ => []

/-- Modelled from the spec: `ConvertType`, the front-end-type to LLVM-type
conversion (Types.cpp, not under src/).  Per the spec's layout-oracle
contract the converted type's alloc size equals the GCC type's size and its
alignment does not exceed the GCC alignment; integer types convert to an
integer type of their precision, arrays and vectors convert elementwise, and
records convert to a memory type of the record's size (modelled as a byte
array). -/
def convertType : GccType → LLVMType
  | .intTy p _ _ _ => .integer p
  | .arrTy elt n _ => .array n (convertType elt)
  | .vecTy elt n _ => .vector n (convertType elt)
  | .recTy _ _ size _ => .array (size / 8) (.integer 8)

mutual
/-- `Constant::getNullValue`: the all-zero value of a type. -/
def getNullValue : LLVMType → ConstVal
  | .integer w => .intC w 0
  | .pointer e => .ptrC e 0
  | .floating k => .fltC k 0
  | .array n elt => .arrC elt (ConstValList.ofList (List.replicate n (getNullValue elt)))
  | .strukt packed elts => .structC packed (getNullValueL elts)
  | .vector n elt => .vecC (ConstValList.ofList (List.replicate n (getNullValue elt)))

/-- All-zero values of a list of types. -/
def getNullValueL : LLVMTypeList → ConstValList
  | .nil => .nil
  | .cons t ts => .cons (getNullValue t) (getNullValueL ts)
end

/-- Modelled from the spec: `getDefaultValue` (Internals.h, not under src/):
the default value for a component with no explicit initializer; the spec says
missing elements are back-filled with a per-element-type default, all-zero. -/
def getDefaultValue (t : LLVMType) : ConstVal := getNullValue t

/-- Modelled from the spec: `native_encode_expr` for an integer literal — the
value encoded target-endian byte-for-byte into `TYPE_SIZE / 8` bytes. -/
def encodeBytesLE : Nat → Nat → List Nat
  | 0, _ => []
  | n+1, v => v % 256 :: encodeBytesLE n (v / 256)

/-- `ConvertCST` for an `INTEGER_CST`: the constant as an array of bytes in
target byte order. -/
def convertCST (be : Bool) (ty : GccType) (v : Nat) : ConstVal :=
  let szChars := (ty.gccSize + 7) / 8
  let bytes := if be then (encodeBytesLE szChars v).reverse else encodeBytesLE szChars v
  .arrC (.integer 8) (ConstValList.ofList (bytes.map (fun b => .intC 8 b)))

/-- `CastInst::getCastOpcode` composed with the folder's `CreateCast`, for an
integer-to-integer cast: bitcast when the widths agree, truncation to a
narrower type, and a zero or sign extension (by the source's signedness) to a
wider type.  `sext(undef)` folds to zero like `zext(undef)`. -/
def castIntToInt (srcSigned : Bool) (srcW dstW : Nat) (c : ConstVal) : ConstVal :=
  if dstW = srcW then c
  else if dstW < srcW then createTruncOrBitCast c dstW
  else if srcSigned then
    match c with
    | .intC w v => .intC dstW (if v < 2 ^ (w - 1) then v else v + (2 ^ dstW - 2 ^ w))
    | .undef _ => .intC dstW 0
    | _ => c
  else createZExtOrBitCast c dstW

/-- The cast step of `ConvertInitializerWithCast`, applied to the already
converted initializer: no cast if the GCC types agree or either is an
aggregate, or if the LLVM types agree; otherwise make the initializer's type
explicit with `InterpretAsType` at its own converted type and apply a
value-extending cast. -/
def withCastPost (be : Bool) (expTy destTy : GccType) (c : ConstVal) : ConstVal :=
  if expTy = destTy || expTy.isAggregate || destTy.isAggregate then c
  else
    let srcTy := convertType expTy
    let dstTy := convertType destTy
    if srcTy = dstTy then c
    else
      let c1 := interpretAsType be c srcTy 0
      match srcTy, dstTy with
      | .integer sw, .integer dw => castIntToInt (!expTy.isUnsigned) sw dw c1
      | _, _ => c1

/-! ### The aggregate builders -/

/-- Fill positions `[lo, hi]` of the element vector. -/
def fillRange (l : List (Option ConstVal)) (lo hi : Nat) (v : Option ConstVal) :
    List (Option ConstVal) :=
  l.mapIdx (fun i x => if lo ≤ i ∧ i ≤ hi then v else x)

/-- One iteration of the element loop of `ConvertArrayCONSTRUCTOR`: pad the
value with undefined filler if it is smaller than the element alloc size,
compute the inclusive index range addressed by the entry, grow the element
vector if needed and fill the range; the next implicit index follows the
range. -/
def arrStep (eltSizeBits : Nat) (st : List (Option ConstVal) × Nat)
    (entry : CtorIdx × ConstVal) : List (Option ConstVal) × Nat :=
  let elts0 := st.1
  let nextIndex := st.2
  let val0 := entry.2
  let valSize := allocSizeInBits val0.typeOf
  let val := if valSize < eltSizeBits then
      ConstVal.structC false
        (ConstValList.ofList [val0, .undef (unitType ((eltSizeBits - valSize) / bitsPerUnit))])
    else val0
  let fl :=
    match entry.1 with
    | .next => (nextIndex, nextIndex)
    | .single i => (i, i)
    | .rangeIdx lo hi => (lo, hi)
    | .fld _ => (nextIndex, nextIndex)
  let elts1 := if elts0.length ≤ fl.2 then
      elts0 ++ List.replicate (fl.2 + 1 - elts0.length) none
    else elts0
  (fillRange elts1 fl.1 fl.2 (some val), fl.2 + 1)

/-- `ConvertArrayCONSTRUCTOR`, acting on the already converted entry values:
fill a zero-based element vector (sized by the type's element count), default
initialize missing elements, then emit a vector, array or (possibly packed)
struct according to the homogeneity and alignment of the collected elements,
appending undefined padding so the result is at least as big as the type. -/
def convertArrayCONSTRUCTOR (ity : GccType)
    (entries : List (CtorIdx × ConstVal)) : ConstVal :=
  let initTy := convertType ity
  let eltTy := convertType ity.eltType
  let eltSize := allocSizeInBits eltTy
  let st0 : List (Option ConstVal) × Nat := (List.replicate ity.count none, 0)
  let elts0 := (entries.foldl (arrStep eltSize) st0).1
  let numElts := elts0.length
  if numElts = 0 then getDefaultValue initTy
  else
    let defaultElt := getDefaultValue eltTy
    let elts1 := elts0.map (fun o => o.getD defaultElt)
    let actualEltTy := (elts1.headD defaultElt).typeOf
    let maxAlign := elts1.foldl
      (fun m e => if e.typeOf ≠ actualEltTy then max (abiAlignBytes e.typeOf) m else m)
      (abiAlignBytes actualEltTy)
    let useStruct := elts1.any (fun e => e.typeOf ≠ actualEltTy)
    let pack := decide (ity.align < maxAlign * 8)
    let typeSize := allocSizeInBits initTy
    let padded := decide (numElts * eltSize < typeSize)
    let elts2 := if padded then
        elts1 ++ [.undef (unitType ((typeSize - numElts * eltSize) / bitsPerUnit))]
      else elts1
    if useStruct || padded || pack then .structC pack (ConstValList.ofList elts2)
    else if actualEltTy = eltTy ∧ ity.isVec then .vecC (ConstValList.ofList elts2)
    else .arrC actualEltTy (ConstValList.ofList elts2)

/-- One iteration of the element-emission loop of `ConvertRecordCONSTRUCTOR`:
close a gap before the interval with undefined padding unless (in the
non-packed case) the value's own alignment already places it correctly, then
append the extracted value. -/
def emitStep (be pack : Bool) (st : List ConstVal × Nat) (f : FieldContents) :
    List ConstVal × Nat :=
  let elts := st.1
  let endPrev := st.2
  let first := f.R.first.toNat
  let val := f.extractContents be
  let elts1 :=
    if endPrev < first then
      let alignment := abiAlignBytes val.typeOf * 8
      let needPadding :=
        if pack then true else decide (first ≠ roundUp endPrev alignment)
      if needPadding then
        elts ++ [.undef (unitType ((first - endPrev) / bitsPerUnit))]
      else elts
    else elts
  (elts1 ++ [val], first + allocSizeInBits val.typeOf)

/-- `ConvertRecordCONSTRUCTOR`, acting on the already converted `(field,
value)` pairs: optionally seed a zero interval for every field, overlay one
interval per initialized field, snap all interval boundaries to bytes, decide
packedness from the extracted values' alignments, and emit the values in
offset order with undefined padding for the gaps and the tail. -/
def convertRecordCONSTRUCTOR (be flag : Bool) (rty : GccType)
    (inits : List (GccField × ConstVal)) : ConstVal :=
  let typeSize := allocSizeInBits (convertType rty)
  let layout0 : List FieldContents :=
    if flag then
      rty.fieldsOf.foldl (fun l f =>
        addInterval be l
          (FieldContents.get f.offset (f.offset + f.declSize)
            (getNullValue (convertType f.fty)))) []
    else []
  let layout1 := inits.foldl (fun l fi =>
      addInterval be l
        (FieldContents.get fi.1.offset (fi.1.offset + fi.1.declSize) fi.2)) layout0
  let layout := alignBoundaries be bitsPerUnit layout1
  let maxAlign := rty.align
  let pack := layout.any (fun f =>
      let alignment := abiAlignBytes (f.extractContents be).typeOf * 8
      decide (maxAlign < alignment) || decide (f.R.first.toNat % alignment ≠ 0))
  let emitted := layout.foldl (emitStep be pack) ([], 0)
  let elts := emitted.1
  let endPrev := emitted.2
  let elts1 := if endPrev < typeSize then
      elts ++ [.undef (unitType ((typeSize - endPrev) / bitsPerUnit))]
    else elts
  .structC pack (ConstValList.ofList elts1)

mutual
/-- `ConvertInitializer` over the embedded fragment: integer literals are
encoded to bytes and reinterpreted at the converted type; constructors are
dispatched by type kind after the empty-constructor default-initialization
fast path of `ConvertCONSTRUCTOR`. -/
def convertInitializer (be flag : Bool) : GccExpr → ConstVal
  | .intCst ty v => interpretAsType be (convertCST be ty v) (convertType ty) 0
  | .ctor ty elts =>
    match elts with
    | .nil => getDefaultValue (convertType ty)
    | .cons i v rest =>
      match ty with
      | .arrTy e _ _ =>
        convertArrayCONSTRUCTOR ty (convertCtorValsArr be flag e (.cons i v rest))
      | .vecTy e _ _ =>
        convertArrayCONSTRUCTOR ty (convertCtorValsArr be flag e (.cons i v rest))
      | .recTy .. =>
        convertRecordCONSTRUCTOR be flag ty (convertCtorValsRec be flag (.cons i v rest))
      | _ => .undef (convertType ty)

/-- The per-entry conversion of an array/vector constructor's values:
`ConvertInitializerWithCast` against the element type. -/
def convertCtorValsArr (be flag : Bool) (eltTy : GccType) :
    CtorElts → List (CtorIdx × ConstVal)
  | .nil => []
  | .cons idx value rest =>
    (idx, withCastPost be (gccTypeOf value) eltTy (convertInitializer be flag value)) ::
      convertCtorValsArr be flag eltTy rest

/-- The per-entry conversion of a record constructor's values:
`ConvertInitializerWithCast` against each named field's type. -/
def convertCtorValsRec (be flag : Bool) : CtorElts → List (GccField × ConstVal)
  | .nil => []
  | .cons idx value rest =>
    match idx with
    | .fld f =>
      (f, withCastPost be (gccTypeOf value) f.fty (convertInitializer be flag value)) ::
        convertCtorValsRec be flag rest
    | _ => convertCtorValsRec be flag rest
end

mutual
/-- Value well-formedness of a constant: integer, pointer and float payloads
are within their width, array members have the array's element type, vector
members share the first member's type. -/
def ConstVal.cwfB : ConstVal → Bool
  | .intC w v => decide (v < 2 ^ w)
  | .ptrC _ a => decide (a < 2 ^ 64)
  | .fltC k b => decide (b < 2 ^ k.bitWidth)
  | .undef _ => true
  | .arrC elt elts => cwfTyped elt elts
  | .structC _ elts => cwfAny elts
  | .vecC .nil => true
  | .vecC (.cons c cs) => cwfTyped c.typeOf (.cons c cs)

/-- All constants of the list are well formed and have the given type. -/
def cwfTyped : LLVMType → ConstValList → Bool
  | _, .nil => true
  | elt, .cons c cs => c.cwfB && (c.typeOf == elt) && cwfTyped elt cs

/-- All constants of the list are well formed. -/
def cwfAny : ConstValList → Bool
  | .nil => true
  | .cons c cs => c.cwfB && cwfAny cs
end

mutual
/-- Structural type validity: vector types have a nonzero element count. -/
def LLVMType.okT : LLVMType → Bool
  | .integer _ => true
  | .pointer e => e.okT
  | .floating _ => true
  | .array _ e => e.okT
  | .strukt _ elts => okTL elts
  | .vector n e => decide (n ≠ 0) && e.okT

/-- Structural type validity of a list of types. -/
def okTL : LLVMTypeList → Bool
  | .nil => true
  | .cons t ts => t.okT && okTL ts
end

/-- Fuel-driven power-of-two test (executable, structurally recursive). -/
def isPow2F : Nat → Nat → Bool
  | 0, _ => false
  | _+1, 1 => true
  | f+1, n => n % 2 == 0 && n ≠ 0 && isPow2F f (n / 2)

/-- Whether `n` is a power of two. -/
def isPow2 (n : Nat) : Bool := isPow2F n n

/-- The FieldContents invariant: null contents only for an empty range, and
any contents value-normalized. -/
def FieldContents.fwfB (f : FieldContents) : Bool :=
  match f.C with
  | none => f.R.empty
  | some c => c.cwfB

/-- Sortedness/bounds invariant of the interval list: intervals are non-empty,
in increasing position order starting at `lo`, and end by `size`. -/
def chainOK (size : Int) : Int → List FieldContents → Prop
  | _, [] => True
  | lo, f :: fs => lo ≤ f.R.first ∧ f.R.first < f.R.last ∧ f.R.last ≤ size ∧
      chainOK size f.R.last fs

/-- The invariant of the aligned layout: a sorted chain of non-empty intervals
whose boundaries are multiples of 8 bits. -/
def bChain (size : Int) : Int → List FieldContents → Prop
  | _, [] => True
  | lo, f :: fs => lo ≤ f.R.first ∧ f.R.first < f.R.last ∧ f.R.last ≤ size ∧
      (8 : Int) ∣ f.R.first ∧ (8 : Int) ∣ f.R.last ∧ f.fwfB = true ∧
      bChain size f.R.last fs

/-- The `(first, last)` pair of element indexes addressed by a constructor
element index, given the running implicit index. -/
def resolveIdx (idx : CtorIdx) (nxt : Nat) : Nat × Nat :=
  match idx with
  | .next => (nxt, nxt)
  | .single i => (i, i)
  | .rangeIdx lo hi => (lo, hi)
  | .fld _ => (nxt, nxt)

/-- All indexes of the entry list stay below `count`, threading the implicit
index. -/
def entsIdxOK (count : Nat) : Nat → List (CtorIdx × ConstVal) → Prop
  | _, [] => True
  | nxt, e :: es => (resolveIdx e.1 nxt).1 ≤ (resolveIdx e.1 nxt).2 ∧
      (resolveIdx e.1 nxt).2 < count ∧ entsIdxOK count ((resolveIdx e.1 nxt).2 + 1) es

/-- The core layout-oracle contract between a GCC type and its converted LLVM
type: power-of-two byte-multiple declared alignment dividing the converted
allocation size, converted ABI alignment within the declared alignment, and a
structurally valid converted type. -/
def wfTcore (t : GccType) : Bool :=
  isPow2 t.align && decide (8 ∣ t.align) &&
  decide (t.align ∣ allocSizeInBits (convertType t)) &&
  decide (8 * abiAlignBytes (convertType t) ≤ t.align) &&
  (convertType t).okT

/-- Per-field layout conditions of a record type: every field lies within the
record and has a structurally valid converted type. -/
def wfFieldsB (ub : Nat) : GccFieldList → Bool
  | .nil => true
  | .cons f rest => decide (f.offset + f.declSize ≤ ub) &&
      (convertType f.fty).okT && wfFieldsB ub rest

/-- Recursive well-formedness of a GCC type: the core contract at every level,
element alignment within the aggregate alignment, element sizes fitting the
aggregate, integer vector elements, and in-bounds record fields. -/
def GccType.wfT : GccType → Bool
  | .intTy p s a u => wfTcore (.intTy p s a u)
  | .arrTy e n a => wfTcore (.arrTy e n a) && e.wfT && decide (e.align ≤ a) &&
      decide (n * allocSizeInBits (convertType e)
        ≤ allocSizeInBits (convertType (.arrTy e n a)))
  | .vecTy e n a => wfTcore (.vecTy e n a) && e.wfT && e.isIntTy &&
      decide (e.align ≤ a) &&
      decide (n * allocSizeInBits (convertType e)
        ≤ allocSizeInBits (convertType (.vecTy e n a)))
  | .recTy k fs s a => wfTcore (.recTy k fs s a) &&
      wfFieldsB (allocSizeInBits (convertType (.recTy k fs s a))) fs

mutual
/-- Well-formedness of a source expression: its type is well formed and every
constructor element addresses an in-bounds slot with a value of exactly the
element's (or named field's) GCC type. -/
def wfE : GccExpr → Bool
  | .intCst ty _ => ty.wfT
  | .ctor ty elts => ty.wfT &&
      (match ty with
       | .arrTy e n _ => wfArrElts e n 0 elts
       | .vecTy e n _ => wfArrElts e n 0 elts
       | .recTy k fs s a =>
           wfRecElts (allocSizeInBits (convertType (.recTy k fs s a))) elts
       | .intTy .. => true)

/-- Array/vector constructor elements: indexes stay in bounds while threading
the implicit position, and each value has the element type and is well formed. -/
def wfArrElts (eltTy : GccType) (count : Nat) : Nat → CtorElts → Bool
  | _, .nil => true
  | nxt, .cons idx value rest =>
      decide ((resolveIdx idx nxt).1 ≤ (resolveIdx idx nxt).2) &&
      decide ((resolveIdx idx nxt).2 < count) &&
      decide (gccTypeOf value = eltTy) && wfE value &&
      wfArrElts eltTy count ((resolveIdx idx nxt).2 + 1) rest

/-- Record constructor elements: field-addressed entries lie within the record
size and carry a value of the field's type; other entries are ignored. -/
def wfRecElts (ub : Nat) : CtorElts → Bool
  | .nil => true
  | .cons idx value rest =>
      (match idx with
       | .fld f => decide (f.offset + f.declSize ≤ ub) &&
           decide (gccTypeOf value = f.fty) && wfE value
       | _ => true) && wfRecElts ub rest
end

/-- The 3-bit unsigned bitfield type of the C7 scenario. -/
def bf3 : GccType := .intTy 3 8 8 true

/-- The 5-bit unsigned bitfield type of the C7 scenario. -/
def bf5 : GccType := .intTy 5 8 8 true

/-- The field at bit offset 0, 3 bits wide. -/
def fldA : GccField := .mk 0 3 bf3

/-- The field at bit offset 3, 5 bits wide. -/
def fldB : GccField := .mk 3 5 bf5

/-- The one-byte record holding both bitfields. -/
def recT : GccType := .recTy .record (.cons fldA (.cons fldB .nil)) 8 8

/-- The record constructor `{ a = 5, b = 17 }` of the C7 scenario. -/
def c7expr : GccExpr := .ctor recT
  (.cons (.fld fldA) (.intCst bf3 5) (.cons (.fld fldB) (.intCst bf5 17) .nil))

/-- A 24-bit field holding the low bits of a 32-bit constant (alloc size 32
exceeds the width, so `extractContents` must convert). -/
def c10F : FieldContents := ⟨⟨0, 24⟩, some (.intC 32 1193046), 0⟩

/-- A 24-bit field whose contents are wholly undefined. -/
def c10U : FieldContents := ⟨⟨0, 24⟩, some (.undef (.integer 32)), 0⟩

/-! ### Theorems -/

theorem SRange.empty_true_iff {r : SRange} : r.empty = true ↔ r.last ≤ r.first := by
  simp [SRange.empty]

theorem SRange.empty_false_iff {r : SRange} : r.empty = false ↔ r.first < r.last := by
  simp [SRange.empty]

theorem SRange.req_true_iff {r s : SRange} :
    r.req s = true ↔ ((r.last ≤ r.first ∧ s.last ≤ s.first) ∨ (r.first = s.first ∧ r.last = s.last)) := by
  simp [SRange.req, SRange.empty]

theorem SRange.req_refl (r : SRange) : r.req r = true := by
  simp [SRange.req]

theorem SRange.contains_true_iff {r s : SRange} :
    r.contains s = true ↔ (s.last ≤ s.first ∨ (r.first ≤ s.first ∧ s.last ≤ r.last)) := by
  simp [SRange.contains, SRange.empty]

theorem SRange.getWidth_eq (r : SRange) : r.getWidth = (r.last - r.first).toNat := rfl

/-- A non-empty range contained in a range of the same width equals it. -/
theorem SRange.eq_of_contains_same_width {r s : SRange} (h : r.contains s = true)
    (hs : s.empty = false) (hw : r.getWidth = s.getWidth) : r = s := by
  rw [SRange.contains_true_iff] at h
  rw [SRange.empty_false_iff] at hs
  simp only [SRange.getWidth_eq] at hw
  obtain ⟨a, b⟩ := r
  obtain ⟨c, d⟩ := s
  simp_all
  omega

/-- `ExtendRange` of a non-empty slice with integer contents to a containing
range: the contents are zero-extended to the new width and shifted left by the
last-side (big-endian) or first-side (little-endian) delta. -/
theorem extendRange_int (be : Bool) (r1 r2 : SRange) (v : Nat)
    (hne : r1.empty = false) (hc : r2.contains r1 = true) (hv : v < 2 ^ r1.getWidth) :
    BitSlice.ExtendRange be ⟨r1, some (.intC r1.getWidth v)⟩ r2 =
      ⟨r2, some (.intC r2.getWidth
        ((v <<< (if be then (r2.last - r1.last).toNat else (r1.first - r2.first).toNat)) %
          2 ^ r2.getWidth))⟩ := by
  have hcc := hc
  rw [SRange.contains_true_iff] at hcc
  rw [SRange.empty_false_iff] at hne
  have hr2 : r2.first ≤ r1.first ∧ r1.last ≤ r2.last := by omega
  by_cases hreq : r1.req r2 = true
  · rw [SRange.req_true_iff] at hreq
    have heq : r1 = r2 := by
      obtain ⟨a, b⟩ := r1; obtain ⟨c, d⟩ := r2
      simp_all; omega
    subst heq
    simp only [BitSlice.ExtendRange]
    rw [if_pos (by rw [SRange.req_true_iff]; omega)]
    have hd : (r1.last - r1.last).toNat = 0 := by omega
    have hd2 : (r1.first - r1.first).toNat = 0 := by omega
    rw [hd, hd2]
    simp [Nat.shiftLeft_zero, Nat.mod_eq_of_lt hv]
  · have hwlt : r1.getWidth < r2.getWidth ∨ r1.getWidth = r2.getWidth := by
      simp only [SRange.getWidth_eq]; omega
    have hwne : r2.getWidth ≠ r1.getWidth := by
      intro hw
      exact hreq (by
        have := SRange.eq_of_contains_same_width hc (by rw [SRange.empty_false_iff]; omega) hw
        rw [this, SRange.req_true_iff]; omega)
    simp only [BitSlice.ExtendRange]
    rw [if_neg (by simp [hreq])]
    rw [if_neg (by simp [SRange.empty_true_iff]; omega)]
    simp only [createZExtOrBitCast, if_neg hwne]
    have hwle : r1.getWidth ≤ r2.getWidth := by simp only [SRange.getWidth_eq]; omega
    have hvW : v < 2 ^ r2.getWidth := lt_of_lt_of_le hv (Nat.pow_le_pow_right (by norm_num) hwle)
    cases be with
    | true =>
      simp only [if_true]
      by_cases hdl : (r2.last - r1.last).toNat = 0
      · rw [if_neg (by simp [hdl])]
        rw [if_neg (by simp)]
        rw [hdl]
        simp [Nat.shiftLeft_zero, Nat.mod_eq_of_lt hvW]
      · rw [if_pos (by simp [hdl])]
        simp [createShl]
    | false =>
      simp only [if_false]
      by_cases hdf : (r1.first - r2.first).toNat = 0
      · rw [if_neg (by simp)]
        rw [if_neg (by simp [hdf])]
        rw [hdf]
        simp [Nat.shiftLeft_zero, Nat.mod_eq_of_lt hvW]
      · rw [if_neg (by simp)]
        rw [if_pos (by simp [hdf])]
        simp [createShl]

/-- `ExtendRange` of an empty slice to a non-empty range yields an
all-undefined slice over that range. -/
theorem extendRange_empty (be : Bool) (s : BitSlice) (r : SRange)
    (hs : s.R.empty = true) (hr : r.empty = false) :
    s.ExtendRange be r = ⟨r, some (.undef (.integer r.getWidth))⟩ := by
  rw [SRange.empty_true_iff] at hs
  rw [SRange.empty_false_iff] at hr
  simp only [BitSlice.ExtendRange]
  rw [if_neg (by rw [SRange.req_true_iff]; simp [SRange.empty_true_iff]; omega)]
  rw [if_pos (by rw [SRange.empty_true_iff]; omega)]

/-- `ExtendRange` of a non-empty slice with undefined contents to a strictly
larger range: `zext(undef)` folds to zero, so the result is the zero
constant. -/
theorem extendRange_undef (be : Bool) (r1 r2 : SRange)
    (hne : r1.empty = false) (hc : r2.contains r1 = true) (hreq : r1.req r2 = false) :
    BitSlice.ExtendRange be ⟨r1, some (.undef (.integer r1.getWidth))⟩ r2 =
      ⟨r2, some (.intC r2.getWidth 0)⟩ := by
  have hcc := hc
  rw [SRange.contains_true_iff] at hcc
  rw [SRange.empty_false_iff] at hne
  have hwne : r2.getWidth ≠ r1.getWidth := by
    intro hw
    rw [SRange.eq_of_contains_same_width hc (by rw [SRange.empty_false_iff]; omega) hw] at hreq
    rw [SRange.req_refl] at hreq
    exact Bool.noConfusion hreq
  simp only [BitSlice.ExtendRange]
  rw [if_neg (by simp [hreq])]
  rw [if_neg (by simp [SRange.empty_true_iff]; omega)]
  simp only [createZExtOrBitCast, if_neg hwne]
  cases be with
  | true =>
    by_cases hdl : (r2.last - r1.last).toNat = 0
    · simp [hdl]
    · rw [if_pos (by simp [hdl])]
      simp [createShl]
  | false =>
    by_cases hdf : (r1.first - r2.first).toNat = 0
    · simp [hdf]
    · rw [if_neg (by simp)]
      rw [if_pos (by simp [hdf])]
      simp [createShl]

/-- `ReduceRange` of a non-empty slice with integer contents to a strictly
smaller non-empty range: shift right by the endianness-side delta then
truncate. -/
theorem reduceRange_int (be : Bool) (r1 r2 : SRange) (v : Nat)
    (hne2 : r2.empty = false) (hc : r1.contains r2 = true) (hreq : r1.req r2 = false) :
    BitSlice.ReduceRange be ⟨r1, some (.intC r1.getWidth v)⟩ r2 =
      ⟨r2, some (.intC r2.getWidth
        ((v >>> (if be then (r1.last - r2.last).toNat else (r2.first - r1.first).toNat)) %
          2 ^ r2.getWidth))⟩ := by
  have hcc := hc
  rw [SRange.contains_true_iff] at hcc
  rw [SRange.empty_false_iff] at hne2
  have hr : r1.first ≤ r2.first ∧ r2.last ≤ r1.last := by omega
  have hwne : r2.getWidth ≠ r1.getWidth := by
    intro hw
    rw [SRange.eq_of_contains_same_width hc (by rw [SRange.empty_false_iff]; omega) hw.symm] at hreq
    rw [SRange.req_refl] at hreq
    exact Bool.noConfusion hreq
  simp only [BitSlice.ReduceRange]
  rw [if_neg (by simp [hreq])]
  rw [if_neg (by simp [SRange.empty_true_iff]; omega)]
  cases be with
  | true =>
    by_cases hdl : (r1.last - r2.last).toNat = 0
    · rw [if_neg (by simp [hdl])]
      rw [if_neg (by simp)]
      rw [hdl]
      simp [createTruncOrBitCast, hwne, Nat.shiftRight_zero]
    · rw [if_pos (by simp [hdl])]
      simp [createLShr, createTruncOrBitCast, hwne]
  | false =>
    by_cases hdf : (r2.first - r1.first).toNat = 0
    · rw [if_neg (by simp)]
      rw [if_neg (by simp [hdf])]
      rw [hdf]
      simp [createTruncOrBitCast, hwne, Nat.shiftRight_zero]
    · rw [if_neg (by simp)]
      rw [if_pos (by simp [hdf])]
      simp [createLShr, createTruncOrBitCast, hwne]

theorem SRange.req_symm {r s : SRange} (h : r.req s = false) : s.req r = false := by
  simp only [SRange.req, SRange.empty] at h ⊢
  simp at h ⊢
  omega

/-- C4: `BitSlice::ExtendRange(r)`, under the precondition that `r` contains
the slice's range: if the slice is empty the result is an all-undefined slice
over `r`; otherwise the contents are zero-extended to `r`'s width and shifted
left by the last-side delta `r.last - R.last` on big-endian targets and by the
first-side delta `R.first - r.first` on little-endian targets (shifting by a
zero delta, which the code skips, is the identity). -/
theorem claim_C4_extendRange (be : Bool) (s : BitSlice) (r : SRange)
    (hwf : s.wfB = true) (hc : r.contains s.R = true) :
    (s.isEmpty = true → r.empty = false →
        s.ExtendRange be r = ⟨r, some (.undef (.integer r.getWidth))⟩) ∧
    (∀ v, s.contents = some (.intC s.R.getWidth v) →
        s.ExtendRange be r =
          ⟨r, some (.intC r.getWidth
            ((v <<< (if be then (r.last - s.R.last).toNat else (s.R.first - r.first).toNat)) %
              2 ^ r.getWidth))⟩) := by
  constructor
  · intro hse hre
    have hnone : s.contents = none := by
      simp only [BitSlice.wfB] at hwf
      simp only [BitSlice.isEmpty] at hse
      match hcon : s.contents with
      | none => rfl
      | some (.intC w v) => rw [hcon] at hwf; simp [hse] at hwf
      | some (.undef (.integer w)) => rw [hcon] at hwf; simp [hse] at hwf
      | some (.undef (.pointer e)) => rw [hcon] at hwf; simp at hwf
      | some (.undef (.floating k)) => rw [hcon] at hwf; simp at hwf
      | some (.undef (.array n e)) => rw [hcon] at hwf; simp at hwf
      | some (.undef (.strukt p l)) => rw [hcon] at hwf; simp at hwf
      | some (.undef (.vector n e)) => rw [hcon] at hwf; simp at hwf
      | some (.ptrC e a) => rw [hcon] at hwf; simp at hwf
      | some (.fltC k b) => rw [hcon] at hwf; simp at hwf
      | some (.arrC e l) => rw [hcon] at hwf; simp at hwf
      | some (.structC p l) => rw [hcon] at hwf; simp at hwf
      | some (.vecC l) => rw [hcon] at hwf; simp at hwf
    exact extendRange_empty be s r hse hre
  · intro v hcon
    have hv : v < 2 ^ s.R.getWidth ∧ s.R.empty = false := by
      simp only [BitSlice.wfB, hcon] at hwf
      simp at hwf
      exact ⟨hwf.2, by simpa using hwf.1⟩
    have hs : s = ⟨s.R, some (.intC s.R.getWidth v)⟩ := by
      obtain ⟨sr, sc⟩ := s
      simp_all
    rw [hs]
    exact extendRange_int be s.R r v hv.2 hc hv.1

/-- C5: for every non-empty range `r1` contained in `r2` and every integer
constant `v` of bit width `r1.getWidth`, the slice
`BitSlice(r1, v).ExtendRange(r2).ReduceRange(r1)` is exactly the original
slice (range `r1`, all defined bits unchanged). -/
theorem claim_C5_extend_reduce_inverse (be : Bool) (r1 r2 : SRange) (v : Nat)
    (hne : r1.empty = false) (hc : r2.contains r1 = true) (hv : v < 2 ^ r1.getWidth) :
    ((⟨r1, some (.intC r1.getWidth v)⟩ : BitSlice).ExtendRange be r2).ReduceRange be r1 =
      ⟨r1, some (.intC r1.getWidth v)⟩ := by
  by_cases hreq : r1.req r2 = true
  · have h1 : (⟨r1, some (.intC r1.getWidth v)⟩ : BitSlice).ExtendRange be r2 =
        ⟨r1, some (.intC r1.getWidth v)⟩ := by
      simp only [BitSlice.ExtendRange]
      rw [if_pos hreq]
    rw [h1]
    simp only [BitSlice.ReduceRange]
    rw [if_pos (SRange.req_refl r1)]
  · rw [extendRange_int be r1 r2 v hne hc hv]
    have hreq2 : r2.req r1 = false := SRange.req_symm (by simp [hreq])
    rw [reduceRange_int be r2 r1 _ hne (by
      rw [SRange.contains_true_iff]
      rw [SRange.contains_true_iff] at hc
      rw [SRange.empty_false_iff] at hne
      omega) hreq2]
    have hcc := hc
    rw [SRange.contains_true_iff] at hcc
    rw [SRange.empty_false_iff] at hne
    have hbnd : r2.first ≤ r1.first ∧ r1.last ≤ r2.last := by omega
    have harith : ∀ d : Nat, d + r1.getWidth ≤ r2.getWidth →
        (((v <<< d) % 2 ^ r2.getWidth) >>> d) % 2 ^ r1.getWidth = v := by
      intro d hd
      have h1 : v <<< d < 2 ^ r2.getWidth := by
        rw [Nat.shiftLeft_eq]
        calc v * 2 ^ d < 2 ^ r1.getWidth * 2 ^ d :=
              mul_lt_mul_of_pos_right hv (by positivity)
          _ = 2 ^ (r1.getWidth + d) := by rw [← Nat.pow_add]
          _ ≤ 2 ^ r2.getWidth := Nat.pow_le_pow_right (by norm_num) (by omega)
      rw [Nat.mod_eq_of_lt h1]
      rw [Nat.shiftLeft_eq, Nat.shiftRight_eq_div_pow]
      rw [Nat.mul_div_cancel v (Nat.pos_pow_of_pos d (by norm_num))]
      exact Nat.mod_eq_of_lt hv
    cases be with
    | true =>
      rw [if_pos rfl,
        harith ((r2.last - r1.last).toNat) (by simp only [SRange.getWidth_eq]; omega)]
    | false =>
      rw [if_neg (by simp),
        harith ((r1.first - r2.first).toNat) (by simp only [SRange.getWidth_eq]; omega)]

theorem SRange.contains_Join_left (r s : SRange) : (r.Join s).contains r = true := by
  rw [SRange.contains_true_iff]
  simp only [SRange.Join]
  omega

theorem SRange.contains_Join_right (r s : SRange) : (r.Join s).contains s = true := by
  rw [SRange.contains_true_iff]
  simp only [SRange.Join]
  omega

theorem SRange.Join_comm (r s : SRange) : r.Join s = s.Join r := by
  simp only [SRange.Join, SRange.mk.injEq]
  refine ⟨?_, ?_⟩ <;> omega

theorem SRange.Join_assoc (r s t : SRange) : (r.Join s).Join t = r.Join (s.Join t) := by
  simp only [SRange.Join, SRange.mk.injEq]
  refine ⟨?_, ?_⟩ <;> omega

theorem Nat.shiftLeft_lor_distrib (x y d : Nat) : (x ||| y) <<< d = (x <<< d) ||| (y <<< d) := by
  apply Nat.eq_of_testBit_eq
  intro i
  simp only [Nat.testBit_shiftLeft, Nat.testBit_or]
  cases decide (d ≤ i) <;> simp

theorem Nat.shiftLeft_add_comp (x d1 d2 : Nat) : (x <<< d1) <<< d2 = x <<< (d1 + d2) := by
  simp only [Nat.shiftLeft_eq, Nat.pow_add]
  ring

theorem testBit_getBitsSet (lo hi i : Nat) :
    (getBitsSet lo hi).testBit i = (decide (lo ≤ i) && decide (i < hi)) := by
  simp only [getBitsSet, Nat.one_shiftLeft, Nat.testBit_shiftLeft, Nat.testBit_two_pow_sub_one]
  by_cases h1 : lo ≤ i
  · simp [h1]
    omega
  · simp [h1]

theorem testBit_complementW (w m i : Nat) :
    (complementW w m).testBit i = ((decide (i < w)) != m.testBit i) := by
  simp only [complementW, Nat.testBit_xor, Nat.testBit_two_pow_sub_one]

theorem getBitsSet_lt (lo hi w : Nat) (h : hi ≤ w) : getBitsSet lo hi < 2 ^ w := by
  have : ∀ i, w ≤ i → (getBitsSet lo hi).testBit i = false := by
    intro i hi2
    rw [testBit_getBitsSet]
    simp
    omega
  exact Nat.lt_pow_two_of_testBit _ (fun i hi2 => this i hi2)

/-- The key mask computation of `Merge`: with the two embedded values living
in disjoint bit intervals inside the hull, clearing each extension's foreign
bits and or-ing them together is a plain or of the embedded values. -/
theorem maskMergeVal (W w1 w2 d1 d2 v1 v2 : Nat)
    (h1 : d1 + w1 ≤ W) (h2 : d2 + w2 ≤ W) (hv1 : v1 < 2 ^ w1) (hv2 : v2 < 2 ^ w2)
    (hdisj : d1 + w1 ≤ d2 ∨ d2 + w2 ≤ d1) :
    ((v1 <<< d1) % 2 ^ W &&& complementW W (getBitsSet d2 (d2 + w2))) |||
      ((v2 <<< d2) % 2 ^ W &&& complementW W (getBitsSet d1 (d1 + w1))) =
      (v1 <<< d1) ||| (v2 <<< d2) := by
  have hx1 : v1 <<< d1 < 2 ^ W := by
    rw [Nat.shiftLeft_eq]
    calc v1 * 2 ^ d1 < 2 ^ w1 * 2 ^ d1 := mul_lt_mul_of_pos_right hv1 (by positivity)
      _ = 2 ^ (w1 + d1) := by rw [← Nat.pow_add]
      _ ≤ 2 ^ W := Nat.pow_le_pow_right (by norm_num) (by omega)
  have hx2 : v2 <<< d2 < 2 ^ W := by
    rw [Nat.shiftLeft_eq]
    calc v2 * 2 ^ d2 < 2 ^ w2 * 2 ^ d2 := mul_lt_mul_of_pos_right hv2 (by positivity)
      _ = 2 ^ (w2 + d2) := by rw [← Nat.pow_add]
      _ ≤ 2 ^ W := Nat.pow_le_pow_right (by norm_num) (by omega)
  rw [Nat.mod_eq_of_lt hx1, Nat.mod_eq_of_lt hx2]
  apply Nat.eq_of_testBit_eq
  intro i
  have hb1 : ∀ j, w1 ≤ j → v1.testBit j = false := by
    intro j hj
    exact Nat.testBit_lt_two_pow (lt_of_lt_of_le hv1 (Nat.pow_le_pow_right (by norm_num) hj))
  have hb2 : ∀ j, w2 ≤ j → v2.testBit j = false := by
    intro j hj
    exact Nat.testBit_lt_two_pow (lt_of_lt_of_le hv2 (Nat.pow_le_pow_right (by norm_num) hj))
  simp only [Nat.testBit_or, Nat.testBit_and, Nat.testBit_shiftLeft, testBit_complementW,
    testBit_getBitsSet]
  have e1 : ((decide (i ≥ d1) && v1.testBit (i - d1)) &&
      (decide (i < W) != (decide (d2 ≤ i) && decide (i < d2 + w2)))) =
      (decide (i ≥ d1) && v1.testBit (i - d1)) := by
    cases hab : (decide (i ≥ d1) && v1.testBit (i - d1)) with
    | false => simp
    | true =>
      simp only [Bool.true_and]
      simp only [Bool.and_eq_true, decide_eq_true_eq] at hab
      have hup : i < d1 + w1 := by
        by_contra hcon
        have := hb1 (i - d1) (by omega)
        rw [this] at hab
        exact Bool.noConfusion hab.2
      have hm2 : (decide (d2 ≤ i) && decide (i < d2 + w2)) = false := by
        simp only [Bool.and_eq_false_iff, decide_eq_false_iff_not]
        omega
      have hiW : (decide (i < W)) = true := by simp; omega
      rw [hm2, hiW]
      rfl
  have e2 : ((decide (i ≥ d2) && v2.testBit (i - d2)) &&
      (decide (i < W) != (decide (d1 ≤ i) && decide (i < d1 + w1)))) =
      (decide (i ≥ d2) && v2.testBit (i - d2)) := by
    cases hab : (decide (i ≥ d2) && v2.testBit (i - d2)) with
    | false => simp
    | true =>
      simp only [Bool.true_and]
      simp only [Bool.and_eq_true, decide_eq_true_eq] at hab
      have hup : i < d2 + w2 := by
        by_contra hcon
        have := hb2 (i - d2) (by omega)
        rw [this] at hab
        exact Bool.noConfusion hab.2
      have hm1 : (decide (d1 ≤ i) && decide (i < d1 + w1)) = false := by
        simp only [Bool.and_eq_false_iff, decide_eq_false_iff_not]
        omega
      have hiW : (decide (i < W)) = true := by simp; omega
      rw [hm1, hiW]
      rfl
  rw [Bool.and_assoc] at e1 e2 ⊢
  rw [e1]
  conv_lhs => rw [Bool.and_assoc]
  rw [e2]

theorem SRange.intersects_false_iff {r s : SRange} :
    r.intersects s = false ↔ min r.last s.last ≤ max r.first s.first := by
  simp [SRange.intersects, SRange.Meet, SRange.empty]
  omega

/-- Characterization of `Merge` on two non-empty disjoint well-formed slices:
the result spans the convex hull and holds the or of the two values shifted to
their endianness-determined positions (undefined contents act as zero). -/
theorem merge_char (be : Bool) (r1 r2 : SRange) (c1 c2 : ConstVal) (v1 v2 : Nat)
    (hne1 : r1.empty = false) (hne2 : r2.empty = false)
    (hd : r1.intersects r2 = false)
    (hc1 : c1 = .intC r1.getWidth v1 ∨ (c1 = .undef (.integer r1.getWidth) ∧ v1 = 0))
    (hc2 : c2 = .intC r2.getWidth v2 ∨ (c2 = .undef (.integer r2.getWidth) ∧ v2 = 0))
    (hv1 : v1 < 2 ^ r1.getWidth) (hv2 : v2 < 2 ^ r2.getWidth) :
    BitSlice.Merge be ⟨r1, some c1⟩ ⟨r2, some c2⟩ =
      ⟨r1.Join r2, some (.intC (r1.Join r2).getWidth
        ((v1 <<< (if be then ((r1.Join r2).last - r1.last).toNat
                  else (r1.first - (r1.Join r2).first).toNat)) |||
         (v2 <<< (if be then ((r1.Join r2).last - r2.last).toNat
                  else (r2.first - (r1.Join r2).first).toNat))))⟩ := by
  have hne1i := SRange.empty_false_iff.1 hne1
  have hne2i := SRange.empty_false_iff.1 hne2
  have hdi := SRange.intersects_false_iff.1 hd
  have hjf : (r1.Join r2).first = min r1.first r2.first := rfl
  have hjl : (r1.Join r2).last = max r1.last r2.last := rfl
  have hW : ∀ r : SRange, r.getWidth = (r.last - r.first).toNat := fun r => rfl
  have hwsum : r1.getWidth + r2.getWidth ≤ (r1.Join r2).getWidth := by
    rw [hW, hW, hW, hjf, hjl]; omega
  have hw1pos : 0 < r1.getWidth := by rw [hW]; omega
  have hw2pos : 0 < r2.getWidth := by rw [hW]; omega
  have hreq1 : r1.req (r1.Join r2) = false := by
    rw [SRange.req]
    simp only [SRange.empty, hjf, hjl, Bool.or_eq_false_iff, Bool.and_eq_false_iff]
    constructor
    · left; simp; omega
    · by_cases h : r1.first = min r1.first r2.first
      · right; simp; omega
      · left; simp; omega
  have hreq2 : r2.req (r1.Join r2) = false := by
    rw [SRange.req]
    simp only [SRange.empty, hjf, hjl, Bool.or_eq_false_iff, Bool.and_eq_false_iff]
    constructor
    · left; simp; omega
    · by_cases h : r2.first = min r1.first r2.first
      · right; simp; omega
      · left; simp; omega
  have hext1 : BitSlice.ExtendRange be ⟨r1, some c1⟩ (r1.Join r2) =
      ⟨r1.Join r2, some (.intC (r1.Join r2).getWidth
        ((v1 <<< (if be then ((r1.Join r2).last - r1.last).toNat
                  else (r1.first - (r1.Join r2).first).toNat)) % 2 ^ (r1.Join r2).getWidth))⟩ := by
    rcases hc1 with h | ⟨h, hv0⟩
    · rw [h]; exact extendRange_int be r1 _ v1 hne1 (SRange.contains_Join_left r1 r2) hv1
    · rw [h, hv0]
      rw [extendRange_undef be r1 _ hne1 (SRange.contains_Join_left r1 r2) hreq1]
      simp [Nat.shiftLeft_eq]
  have hext2 : BitSlice.ExtendRange be ⟨r2, some c2⟩ (r1.Join r2) =
      ⟨r1.Join r2, some (.intC (r1.Join r2).getWidth
        ((v2 <<< (if be then ((r1.Join r2).last - r2.last).toNat
                  else (r2.first - (r1.Join r2).first).toNat)) % 2 ^ (r1.Join r2).getWidth))⟩ := by
    rcases hc2 with h | ⟨h, hv0⟩
    · rw [h]; exact extendRange_int be r2 _ v2 hne2 (SRange.contains_Join_right r1 r2) hv2
    · rw [h, hv0]
      rw [extendRange_undef be r2 _ hne2 (SRange.contains_Join_right r1 r2) hreq2]
      simp [Nat.shiftLeft_eq]
  simp only [BitSlice.Merge]
  rw [if_neg (by simp [hne2]), if_neg (by simp [hne1])]
  rw [hext1, hext2]
  simp only [Option.getD_some, createAnd, createOr, BitSlice.mk.injEq, Option.some.injEq,
    ConstVal.intC.injEq]
  cases be with
  | true =>
    simp only [reduceIte]
    have hm1 : ((r1.Join r2).last - r1.first).toNat =
        ((r1.Join r2).last - r1.last).toNat + r1.getWidth := by
      rw [hW, hjl]; omega
    have hm2 : ((r1.Join r2).last - r2.first).toNat =
        ((r1.Join r2).last - r2.last).toNat + r2.getWidth := by
      rw [hW, hjl]; omega
    rw [hm1, hm2]
    rw [maskMergeVal ((r1.Join r2).getWidth) r1.getWidth r2.getWidth _ _ v1 v2
      (by rw [hW, hW, hjl, hjf]; omega) (by rw [hW, hW, hjl, hjf]; omega) hv1 hv2
      (by rw [hW, hW, hjl]; omega)]
    simp
  | false =>
    simp only [Bool.false_eq_true, if_false]
    have hm1 : ((r1.last - (r1.Join r2).first)).toNat =
        (r1.first - (r1.Join r2).first).toNat + r1.getWidth := by
      rw [hW, hjf]; omega
    have hm2 : ((r2.last - (r1.Join r2).first)).toNat =
        (r2.first - (r1.Join r2).first).toNat + r2.getWidth := by
      rw [hW, hjf]; omega
    rw [hm1, hm2]
    rw [maskMergeVal ((r1.Join r2).getWidth) r1.getWidth r2.getWidth _ _ v1 v2
      (by rw [hW, hW, hjf, hjl]; omega) (by rw [hW, hW, hjf, hjl]; omega) hv1 hv2
      (by rw [hW, hW, hjf]; omega)]
    simp

theorem wfB_empty_contents {s : BitSlice} (hw : s.wfB = true) (he : s.R.empty = true) :
    s.contents = none := by
  match hcon : s.contents with
  | none => rfl
  | some (.intC w v) => rw [BitSlice.wfB, hcon] at hw; simp [he] at hw
  | some (.undef (.integer w)) => rw [BitSlice.wfB, hcon] at hw; simp [he] at hw
  | some (.undef (.pointer e)) => rw [BitSlice.wfB, hcon] at hw; simp at hw
  | some (.undef (.floating k)) => rw [BitSlice.wfB, hcon] at hw; simp at hw
  | some (.undef (.array n e)) => rw [BitSlice.wfB, hcon] at hw; simp at hw
  | some (.undef (.strukt p l)) => rw [BitSlice.wfB, hcon] at hw; simp at hw
  | some (.undef (.vector n e)) => rw [BitSlice.wfB, hcon] at hw; simp at hw
  | some (.ptrC e a) => rw [BitSlice.wfB, hcon] at hw; simp at hw
  | some (.fltC k b) => rw [BitSlice.wfB, hcon] at hw; simp at hw
  | some (.arrC e l) => rw [BitSlice.wfB, hcon] at hw; simp at hw
  | some (.structC p l) => rw [BitSlice.wfB, hcon] at hw; simp at hw
  | some (.vecC l) => rw [BitSlice.wfB, hcon] at hw; simp at hw

theorem wfB_sliceVal_lt {s : BitSlice} (hw : s.wfB = true) :
    sliceVal s < 2 ^ s.R.getWidth := by
  match hcon : s.contents with
  | none => simp only [sliceVal, hcon]; positivity
  | some (.intC w v) =>
    rw [BitSlice.wfB, hcon] at hw
    simp at hw
    obtain ⟨⟨hemp, hww⟩, hv⟩ := hw
    simp only [sliceVal, hcon]
    rw [← hww]
    exact hv
  | some (.undef (.integer w)) => simp only [sliceVal, hcon]; positivity
  | some (.undef (.pointer e)) => rw [BitSlice.wfB, hcon] at hw; simp at hw
  | some (.undef (.floating k)) => rw [BitSlice.wfB, hcon] at hw; simp at hw
  | some (.undef (.array n e)) => rw [BitSlice.wfB, hcon] at hw; simp at hw
  | some (.undef (.strukt p l)) => rw [BitSlice.wfB, hcon] at hw; simp at hw
  | some (.undef (.vector n e)) => rw [BitSlice.wfB, hcon] at hw; simp at hw
  | some (.ptrC e a) => rw [BitSlice.wfB, hcon] at hw; simp at hw
  | some (.fltC k b) => rw [BitSlice.wfB, hcon] at hw; simp at hw
  | some (.arrC e l) => rw [BitSlice.wfB, hcon] at hw; simp at hw
  | some (.structC p l) => rw [BitSlice.wfB, hcon] at hw; simp at hw
  | some (.vecC l) => rw [BitSlice.wfB, hcon] at hw; simp at hw

theorem wfB_contents_cases {s : BitSlice} (hw : s.wfB = true) (hne : s.R.empty = false) :
    s.contents = some (.intC s.R.getWidth (sliceVal s)) ∨
      (s.contents = some (.undef (.integer s.R.getWidth)) ∧ sliceVal s = 0) := by
  match hcon : s.contents with
  | none =>
    rw [BitSlice.wfB, hcon] at hw
    simp at hw
    rw [hw] at hne
    exact Bool.noConfusion hne
  | some (.intC w v) =>
    rw [BitSlice.wfB, hcon] at hw
    simp at hw
    obtain ⟨⟨hemp, hww⟩, hv⟩ := hw
    left
    subst hww
    simp [sliceVal, hcon]
  | some (.undef (.integer w)) =>
    rw [BitSlice.wfB, hcon] at hw
    simp at hw
    obtain ⟨hemp, hww⟩ := hw
    right
    subst hww
    simp [sliceVal, hcon]
  | some (.undef (.pointer e)) => rw [BitSlice.wfB, hcon] at hw; simp at hw
  | some (.undef (.floating k)) => rw [BitSlice.wfB, hcon] at hw; simp at hw
  | some (.undef (.array n e)) => rw [BitSlice.wfB, hcon] at hw; simp at hw
  | some (.undef (.strukt p l)) => rw [BitSlice.wfB, hcon] at hw; simp at hw
  | some (.undef (.vector n e)) => rw [BitSlice.wfB, hcon] at hw; simp at hw
  | some (.ptrC e a) => rw [BitSlice.wfB, hcon] at hw; simp at hw
  | some (.fltC k b) => rw [BitSlice.wfB, hcon] at hw; simp at hw
  | some (.arrC e l) => rw [BitSlice.wfB, hcon] at hw; simp at hw
  | some (.structC p l) => rw [BitSlice.wfB, hcon] at hw; simp at hw
  | some (.vecC l) => rw [BitSlice.wfB, hcon] at hw; simp at hw

/-- `Merge` of two non-empty disjoint well-formed slices, in terms of
`sliceVal`. -/
theorem merge_slices (be : Bool) (a b : BitSlice) (hwa : a.wfB = true) (hwb : b.wfB = true)
    (ha : a.R.empty = false) (hb : b.R.empty = false) (hd : a.R.intersects b.R = false) :
    BitSlice.Merge be a b = ⟨a.R.Join b.R, some (.intC (a.R.Join b.R).getWidth
      ((sliceVal a <<< dOf be a.R (a.R.Join b.R)) |||
       (sliceVal b <<< dOf be b.R (a.R.Join b.R))))⟩ := by
  simp only [dOf]
  obtain ⟨ra, ca⟩ := a
  obtain ⟨rb, cb⟩ := b
  simp only at hwa hwb ha hb hd ⊢
  set va := sliceVal ⟨ra, ca⟩ with hva_def
  set vb := sliceVal ⟨rb, cb⟩ with hvb_def
  have hca := wfB_contents_cases hwa ha
  have hcb := wfB_contents_cases hwb hb
  have hva := wfB_sliceVal_lt hwa
  have hvb := wfB_sliceVal_lt hwb
  simp only at hca hcb hva hvb
  rcases hca with hca | ⟨hca, hva0⟩ <;> rcases hcb with hcb | ⟨hcb, hvb0⟩ <;>
    rw [hca, hcb]
  · exact merge_char be ra rb _ _ va vb ha hb hd (Or.inl rfl) (Or.inl rfl) hva hvb
  · exact merge_char be ra rb _ _ va vb ha hb hd (Or.inl rfl) (Or.inr ⟨rfl, hvb0⟩) hva hvb
  · exact merge_char be ra rb _ _ va vb ha hb hd (Or.inr ⟨rfl, hva0⟩) (Or.inl rfl) hva hvb
  · exact merge_char be ra rb _ _ va vb ha hb hd (Or.inr ⟨rfl, hva0⟩) (Or.inr ⟨rfl, hvb0⟩) hva hvb

theorem shiftLeft_lt_pow {v w d W : Nat} (hv : v < 2 ^ w) (h : d + w ≤ W) :
    v <<< d < 2 ^ W := by
  rw [Nat.shiftLeft_eq]
  calc v * 2 ^ d < 2 ^ w * 2 ^ d := mul_lt_mul_of_pos_right hv (by positivity)
    _ = 2 ^ (w + d) := by rw [← Nat.pow_add]
    _ ≤ 2 ^ W := Nat.pow_le_pow_right (by norm_num) (by omega)

theorem SRange.Join_empty_false_left {r s : SRange} (h : r.empty = false) :
    (r.Join s).empty = false := by
  simp only [SRange.empty, SRange.Join] at *
  simp at h ⊢
  omega

theorem dOf_add_width_le (be : Bool) (r hull : SRange) (hc : hull.contains r = true)
    (hne : r.empty = false) : dOf be r hull + r.getWidth ≤ hull.getWidth := by
  rw [SRange.contains_true_iff] at hc
  rw [SRange.empty_false_iff] at hne
  simp only [dOf, SRange.getWidth_eq]
  cases be <;> simp <;> omega

/-- Value bound for the merged contents. -/
theorem mergeVal_lt (be : Bool) (a b : BitSlice) (hwa : a.wfB = true) (hwb : b.wfB = true)
    (hea : a.R.empty = false) (heb : b.R.empty = false) :
    (sliceVal a <<< dOf be a.R (a.R.Join b.R)) |||
      (sliceVal b <<< dOf be b.R (a.R.Join b.R)) < 2 ^ (a.R.Join b.R).getWidth :=
  Nat.or_lt_two_pow
    (shiftLeft_lt_pow (wfB_sliceVal_lt hwa)
      (dOf_add_width_le be a.R _ (SRange.contains_Join_left a.R b.R) hea))
    (shiftLeft_lt_pow (wfB_sliceVal_lt hwb)
      (dOf_add_width_le be b.R _ (SRange.contains_Join_right a.R b.R) heb))

/-- `Merge` with a literal integer slice on the left. -/
theorem merge_slices_litL (be : Bool) (rx : SRange) (vx : Nat) (c : BitSlice)
    (hvx : vx < 2 ^ rx.getWidth) (hrx : rx.empty = false)
    (hwc : c.wfB = true) (hec : c.R.empty = false)
    (hd : rx.intersects c.R = false) :
    BitSlice.Merge be ⟨rx, some (.intC rx.getWidth vx)⟩ c =
      ⟨rx.Join c.R, some (.intC (rx.Join c.R).getWidth
        ((vx <<< dOf be rx (rx.Join c.R)) ||| (sliceVal c <<< dOf be c.R (rx.Join c.R))))⟩ := by
  have hw : BitSlice.wfB ⟨rx, some (.intC rx.getWidth vx)⟩ = true := by
    simp [BitSlice.wfB, hrx, hvx]
  have := merge_slices be ⟨rx, some (.intC rx.getWidth vx)⟩ c hw hwc hrx hec hd
  simpa [sliceVal] using this

/-- `Merge` with a literal integer slice on the right. -/
theorem merge_slices_litR (be : Bool) (a : BitSlice) (ry : SRange) (vy : Nat)
    (hvy : vy < 2 ^ ry.getWidth) (hry : ry.empty = false)
    (hwa : a.wfB = true) (hea : a.R.empty = false)
    (hd : a.R.intersects ry = false) :
    BitSlice.Merge be a ⟨ry, some (.intC ry.getWidth vy)⟩ =
      ⟨a.R.Join ry, some (.intC (a.R.Join ry).getWidth
        ((sliceVal a <<< dOf be a.R (a.R.Join ry)) ||| (vy <<< dOf be ry (a.R.Join ry))))⟩ := by
  have hw : BitSlice.wfB ⟨ry, some (.intC ry.getWidth vy)⟩ = true := by
    simp [BitSlice.wfB, hry, hvy]
  have := merge_slices be a ⟨ry, some (.intC ry.getWidth vy)⟩ hwa hw hea hry hd
  simpa [sliceVal] using this

theorem dOf_trans (be : Bool) (r J H : SRange) (h1 : J.contains r = true)
    (h2 : H.contains J = true) (hr : r.empty = false) :
    dOf be r J + dOf be J H = dOf be r H := by
  rw [SRange.contains_true_iff] at h1 h2
  rw [SRange.empty_false_iff] at hr
  simp only [dOf]
  cases be
  · simp only [Bool.false_eq_true, if_false]
    omega
  · simp only [reduceIte]
    omega

/-- Merging with pairing `(a·b)·c` under the disjointness preconditions of
both merges. -/
theorem merge3_left (be : Bool) (a b c : BitSlice)
    (hwa : a.wfB = true) (hwb : b.wfB = true) (hwc : c.wfB = true)
    (hea : a.R.empty = false) (heb : b.R.empty = false) (hec : c.R.empty = false)
    (hab : a.R.intersects b.R = false)
    (h1 : (a.R.Join b.R).intersects c.R = false) :
    BitSlice.Merge be (BitSlice.Merge be a b) c =
      ⟨(a.R.Join b.R).Join c.R, some (.intC ((a.R.Join b.R).Join c.R).getWidth
        (((sliceVal a <<< dOf be a.R ((a.R.Join b.R).Join c.R)) |||
          (sliceVal b <<< dOf be b.R ((a.R.Join b.R).Join c.R))) |||
         (sliceVal c <<< dOf be c.R ((a.R.Join b.R).Join c.R))))⟩ := by
  rw [merge_slices be a b hwa hwb hea heb hab]
  rw [merge_slices_litL be (a.R.Join b.R) _ c (mergeVal_lt be a b hwa hwb hea heb)
    (SRange.Join_empty_false_left hea) hwc hec h1]
  rw [Nat.shiftLeft_lor_distrib, Nat.shiftLeft_add_comp, Nat.shiftLeft_add_comp]
  rw [dOf_trans be a.R (a.R.Join b.R) ((a.R.Join b.R).Join c.R)
    (SRange.contains_Join_left a.R b.R) (SRange.contains_Join_left (a.R.Join b.R) c.R) hea]
  rw [dOf_trans be b.R (a.R.Join b.R) ((a.R.Join b.R).Join c.R)
    (SRange.contains_Join_right a.R b.R) (SRange.contains_Join_left (a.R.Join b.R) c.R) heb]

/-- Merging with pairing `a·(b·c)` under the disjointness preconditions of
both merges. -/
theorem merge3_right (be : Bool) (a b c : BitSlice)
    (hwa : a.wfB = true) (hwb : b.wfB = true) (hwc : c.wfB = true)
    (hea : a.R.empty = false) (heb : b.R.empty = false) (hec : c.R.empty = false)
    (hbc : b.R.intersects c.R = false)
    (h2 : a.R.intersects (b.R.Join c.R) = false) :
    BitSlice.Merge be a (BitSlice.Merge be b c) =
      ⟨a.R.Join (b.R.Join c.R), some (.intC (a.R.Join (b.R.Join c.R)).getWidth
        ((sliceVal a <<< dOf be a.R (a.R.Join (b.R.Join c.R))) |||
         ((sliceVal b <<< dOf be b.R (a.R.Join (b.R.Join c.R))) |||
          (sliceVal c <<< dOf be c.R (a.R.Join (b.R.Join c.R))))))⟩ := by
  rw [merge_slices be b c hwb hwc heb hec hbc]
  rw [merge_slices_litR be a (b.R.Join c.R) _ (mergeVal_lt be b c hwb hwc heb hec)
    (SRange.Join_empty_false_left heb) hwa hea h2]
  rw [Nat.shiftLeft_lor_distrib, Nat.shiftLeft_add_comp, Nat.shiftLeft_add_comp]
  rw [dOf_trans be b.R (b.R.Join c.R) (a.R.Join (b.R.Join c.R))
    (SRange.contains_Join_left b.R c.R) (SRange.contains_Join_right a.R (b.R.Join c.R)) heb]
  rw [dOf_trans be c.R (b.R.Join c.R) (a.R.Join (b.R.Join c.R))
    (SRange.contains_Join_right b.R c.R) (SRange.contains_Join_right a.R (b.R.Join c.R)) hec]

theorem merge_emptyR (be : Bool) (x y : BitSlice) (h : y.R.empty = true) :
    BitSlice.Merge be x y = x := by
  simp [BitSlice.Merge, h]

theorem merge_emptyL (be : Bool) (x y : BitSlice) (hy : y.R.empty = false)
    (hx : x.R.empty = true) : BitSlice.Merge be x y = y := by
  simp [BitSlice.Merge, hy, hx]

theorem SRange.req_of_empty {r s : SRange} (h1 : r.empty = true) (h2 : s.empty = true) :
    r.req s = true := by
  simp [SRange.req, h1, h2]

theorem SRange.intersects_false_symm {r s : SRange} (h : r.intersects s = false) :
    s.intersects r = false := by
  rw [SRange.intersects_false_iff] at *
  omega

theorem merge_nonempty_R (be : Bool) (a b : BitSlice) (hwa : a.wfB = true) (hwb : b.wfB = true)
    (hea : a.R.empty = false) (heb : b.R.empty = false) (hd : a.R.intersects b.R = false) :
    (BitSlice.Merge be a b).R.empty = false := by
  rw [merge_slices be a b hwa hwb hea heb hd]
  exact SRange.Join_empty_false_left hea

/-- C6 (amended): merging three pairwise disjoint slices yields the same
range and the same contents regardless of pairing order, PROVIDED each
intermediate merge also satisfies `Merge`'s documented disjointness
precondition: the convex hull of the pair merged first must not intersect the
remaining slice.  The orders `(a·b)·c`, `a·(b·c)`, `(b·a)·c` and `a·(c·b)`
then agree in range (under the code's range equality, which identifies empty
ranges) and contents.  Without the hull conditions the claim is false, see the
counterexample. -/
theorem claim_C6_merge_pairing_amended (be : Bool) (a b c : BitSlice)
    (hwa : a.wfB = true) (hwb : b.wfB = true) (hwc : c.wfB = true)
    (hab : a.R.intersects b.R = false) (hbc : b.R.intersects c.R = false)
    (h1 : (a.R.Join b.R).intersects c.R = false)
    (h2 : a.R.intersects (b.R.Join c.R) = false) :
    ((BitSlice.Merge be (BitSlice.Merge be a b) c).R.req
        (BitSlice.Merge be a (BitSlice.Merge be b c)).R = true ∧
      (BitSlice.Merge be (BitSlice.Merge be a b) c).contents =
        (BitSlice.Merge be a (BitSlice.Merge be b c)).contents) ∧
    ((BitSlice.Merge be (BitSlice.Merge be a b) c).R.req
        (BitSlice.Merge be (BitSlice.Merge be b a) c).R = true ∧
      (BitSlice.Merge be (BitSlice.Merge be a b) c).contents =
        (BitSlice.Merge be (BitSlice.Merge be b a) c).contents) ∧
    ((BitSlice.Merge be (BitSlice.Merge be a b) c).R.req
        (BitSlice.Merge be a (BitSlice.Merge be c b)).R = true ∧
      (BitSlice.Merge be (BitSlice.Merge be a b) c).contents =
        (BitSlice.Merge be a (BitSlice.Merge be c b)).contents) := by
  have hba : b.R.intersects a.R = false := SRange.intersects_false_symm hab
  have hcb : c.R.intersects b.R = false := SRange.intersects_false_symm hbc
  have h1a : (b.R.Join a.R).intersects c.R = false := by
    rw [SRange.Join_comm]; exact h1
  have h2a : a.R.intersects (c.R.Join b.R) = false := by
    rw [SRange.Join_comm]; exact h2
  by_cases hea : a.R.empty = true
  · by_cases heb : b.R.empty = true
    · by_cases hec : c.R.empty = true
      · -- all three empty
        rw [merge_emptyR be b a hea, merge_emptyR be a b heb, merge_emptyR be c b heb,
          merge_emptyR be b c hec, merge_emptyR be a b heb, merge_emptyR be a c hec]
        refine ⟨⟨SRange.req_refl _, rfl⟩, ⟨SRange.req_of_empty hea heb, ?_⟩,
          ⟨SRange.req_refl _, rfl⟩⟩
        rw [wfB_empty_contents hwa hea, wfB_empty_contents hwb heb]
      · -- a and b empty, c not
        simp only [Bool.not_eq_true] at hec
        rw [merge_emptyR be a b heb, merge_emptyR be b a hea, merge_emptyR be c b heb,
          merge_emptyL be b c hec heb, merge_emptyL be a c hec hea]
        exact ⟨⟨SRange.req_refl _, rfl⟩, ⟨SRange.req_refl _, rfl⟩, SRange.req_refl _, rfl⟩
    · simp only [Bool.not_eq_true] at heb
      by_cases hec : c.R.empty = true
      · -- a and c empty, b not
        rw [merge_emptyL be a b heb hea, merge_emptyR be b a hea,
          merge_emptyL be c b heb hec, merge_emptyR be b c hec,
          merge_emptyL be a b heb hea]
        exact ⟨⟨SRange.req_refl _, rfl⟩, ⟨SRange.req_refl _, rfl⟩, SRange.req_refl _, rfl⟩
      · -- only a empty
        simp only [Bool.not_eq_true] at hec
        have hYne : (BitSlice.Merge be b c).R.empty = false :=
          merge_nonempty_R be b c hwb hwc heb hec hbc
        have hY2ne : (BitSlice.Merge be c b).R.empty = false :=
          merge_nonempty_R be c b hwc hwb hec heb hcb
        rw [merge_emptyL be a b heb hea,
          merge_emptyL be a (BitSlice.Merge be b c) hYne hea,
          merge_emptyR be b a hea,
          merge_emptyL be a (BitSlice.Merge be c b) hY2ne hea]
        rw [merge_slices be b c hwb hwc heb hec hbc,
          merge_slices be c b hwc hwb hec heb hcb]
        rw [SRange.Join_comm c.R b.R]
        exact ⟨⟨SRange.req_refl _, rfl⟩, ⟨SRange.req_refl _, rfl⟩,
          SRange.req_refl _, by rw [Nat.lor_comm]⟩
  · simp only [Bool.not_eq_true] at hea
    by_cases heb : b.R.empty = true
    · by_cases hec : c.R.empty = true
      · -- b and c empty, a not
        rw [merge_emptyL be b a hea heb, merge_emptyR be c b heb,
          merge_emptyR be b c hec, merge_emptyR be a b heb, merge_emptyR be a c hec]
        exact ⟨⟨SRange.req_refl _, rfl⟩, ⟨SRange.req_refl _, rfl⟩, SRange.req_refl _, rfl⟩
      · -- only b empty
        simp only [Bool.not_eq_true] at hec
        rw [merge_emptyR be a b heb, merge_emptyL be b c hec heb,
          merge_emptyL be b a hea heb, merge_emptyR be c b heb]
        exact ⟨⟨SRange.req_refl _, rfl⟩, ⟨SRange.req_refl _, rfl⟩, SRange.req_refl _, rfl⟩
    · simp only [Bool.not_eq_true] at heb
      by_cases hec : c.R.empty = true
      · -- only c empty
        rw [merge_emptyR be (BitSlice.Merge be a b) c hec,
          merge_emptyR be b c hec,
          merge_emptyR be (BitSlice.Merge be b a) c hec,
          merge_emptyL be c b heb hec]
        rw [merge_slices be a b hwa hwb hea heb hab,
          merge_slices be b a hwb hwa heb hea hba]
        rw [SRange.Join_comm b.R a.R]
        exact ⟨⟨SRange.req_refl _, rfl⟩, ⟨SRange.req_refl _, by rw [Nat.lor_comm]⟩,
          SRange.req_refl _, rfl⟩
      · -- all three nonempty
        simp only [Bool.not_eq_true] at hec
        rw [merge3_left be a b c hwa hwb hwc hea heb hec hab h1,
          merge3_right be a b c hwa hwb hwc hea heb hec hbc h2,
          merge3_left be b a c hwb hwa hwc heb hea hec hba h1a,
          merge3_right be a c b hwa hwc hwb hea hec heb hcb h2a]
        rw [SRange.Join_comm b.R a.R, SRange.Join_comm c.R b.R, SRange.Join_assoc a.R b.R c.R]
        refine ⟨⟨SRange.req_refl _, by rw [Nat.lor_assoc]⟩,
          ⟨SRange.req_refl _, ?_⟩, ⟨SRange.req_refl _, ?_⟩⟩
        · rw [Nat.lor_comm (sliceVal a <<< dOf be a.R (a.R.Join (b.R.Join c.R)))
            (sliceVal b <<< dOf be b.R (a.R.Join (b.R.Join c.R)))]
        · rw [Nat.lor_assoc,
            Nat.lor_comm (sliceVal b <<< dOf be b.R (a.R.Join (b.R.Join c.R)))
            (sliceVal c <<< dOf be c.R (a.R.Join (b.R.Join c.R)))]

/-- C6 counterexample: the three singleton slices over `[0,1)`, `[1,2)` and
`[2,3)` holding bit 1 are pairwise disjoint and well formed, yet the pairing
`(a·c)·b` (whose first merge produces a hull that overlaps `b`) differs from
the pairing `(a·b)·c`: the former loses `b`'s defined bit. -/
theorem claim_C6_counterexample :
    (BitSlice.wfB ⟨⟨0, 1⟩, some (.intC 1 1)⟩ = true ∧
     BitSlice.wfB ⟨⟨1, 2⟩, some (.intC 1 1)⟩ = true ∧
     BitSlice.wfB ⟨⟨2, 3⟩, some (.intC 1 1)⟩ = true ∧
     SRange.intersects ⟨0, 1⟩ ⟨1, 2⟩ = false ∧
     SRange.intersects ⟨0, 1⟩ ⟨2, 3⟩ = false ∧
     SRange.intersects ⟨1, 2⟩ ⟨2, 3⟩ = false) ∧
    BitSlice.Merge false
        (BitSlice.Merge false ⟨⟨0, 1⟩, some (.intC 1 1)⟩ ⟨⟨2, 3⟩, some (.intC 1 1)⟩)
        ⟨⟨1, 2⟩, some (.intC 1 1)⟩ ≠
      BitSlice.Merge false
        (BitSlice.Merge false ⟨⟨0, 1⟩, some (.intC 1 1)⟩ ⟨⟨1, 2⟩, some (.intC 1 1)⟩)
        ⟨⟨2, 3⟩, some (.intC 1 1)⟩ := by
  decide

theorem one_le_tsize (t : LLVMType) : 1 ≤ t.tsize := by
  cases t <;> simp [LLVMType.tsize]

/-- C1: for every constant `v` (all of whose types are of the supported
kinds), `InterpretAsType(v, v.getType, 0)` returns `v` itself, by the identity
fast path at the top of the function. -/
theorem claim_C1_interpretAsType_roundtrip (be : Bool) (c : ConstVal) :
    interpretAsType be c c.typeOf 0 = c := by
  unfold interpretAsType
  obtain ⟨f, hf⟩ : ∃ f, (ConstVal.typeOf c).tsize = f + 1 :=
    ⟨(ConstVal.typeOf c).tsize - 1, by have := one_le_tsize c.typeOf; omega⟩
  rw [hf]
  simp [interpretAsTypeF]

/-- C8: reinterpreting the 32-bit constant 0x01020304 as a 16-bit integer at
bit offsets 0 and 16 yields 0x0304 and 0x0102 on a little-endian target and
the swapped pair on a big-endian target. -/
theorem claim_C8_reinterpret_scenario :
    interpretAsType false (.intC 32 0x01020304) (.integer 16) 0 = .intC 16 0x0304 ∧
    interpretAsType false (.intC 32 0x01020304) (.integer 16) 16 = .intC 16 0x0102 ∧
    interpretAsType true (.intC 32 0x01020304) (.integer 16) 0 = .intC 16 0x0102 ∧
    interpretAsType true (.intC 32 0x01020304) (.integer 16) 16 = .intC 16 0x0304 := by
  refine ⟨by decide, by decide, by decide, by decide⟩

/-- Witness for C4 at a concrete slice and range. -/
theorem claim_C4_witness :
    BitSlice.ExtendRange false ⟨⟨2, 4⟩, some (.intC 2 3)⟩ ⟨0, 8⟩ =
      ⟨⟨0, 8⟩, some (.intC (SRange.getWidth ⟨0, 8⟩)
        ((3 <<< (if false then ((8 : Int) - 4).toNat else ((2 : Int) - 0).toNat)) %
          2 ^ SRange.getWidth ⟨0, 8⟩))⟩ :=
  (claim_C4_extendRange false ⟨⟨2, 4⟩, some (.intC 2 3)⟩ ⟨0, 8⟩ (by decide) (by decide)).2 3 rfl

/-- Witness for C5 at a concrete slice and range pair. -/
theorem claim_C5_witness :
    ((⟨⟨2, 4⟩, some (.intC (SRange.getWidth ⟨2, 4⟩) 3)⟩ : BitSlice).ExtendRange false
        ⟨0, 8⟩).ReduceRange false ⟨2, 4⟩ =
      ⟨⟨2, 4⟩, some (.intC (SRange.getWidth ⟨2, 4⟩) 3)⟩ :=
  claim_C5_extend_reduce_inverse false ⟨2, 4⟩ ⟨0, 8⟩ 3 (by decide) (by decide) (by decide)

/-- Witness for C6 (amended) at three concrete slices on a big-endian
target. -/
theorem claim_C6_witness :
    ((BitSlice.Merge true (BitSlice.Merge true ⟨⟨0, 1⟩, some (.intC 1 1)⟩
          ⟨⟨1, 2⟩, some (.intC 1 1)⟩) ⟨⟨2, 3⟩, some (.intC 1 1)⟩).R.req
        (BitSlice.Merge true ⟨⟨0, 1⟩, some (.intC 1 1)⟩
          (BitSlice.Merge true ⟨⟨1, 2⟩, some (.intC 1 1)⟩ ⟨⟨2, 3⟩, some (.intC 1 1)⟩)).R =
      true ∧
      (BitSlice.Merge true (BitSlice.Merge true ⟨⟨0, 1⟩, some (.intC 1 1)⟩
          ⟨⟨1, 2⟩, some (.intC 1 1)⟩) ⟨⟨2, 3⟩, some (.intC 1 1)⟩).contents =
        (BitSlice.Merge true ⟨⟨0, 1⟩, some (.intC 1 1)⟩
          (BitSlice.Merge true ⟨⟨1, 2⟩, some (.intC 1 1)⟩ ⟨⟨2, 3⟩, some (.intC 1 1)⟩)).contents) :=
  (claim_C6_merge_pairing_amended true ⟨⟨0, 1⟩, some (.intC 1 1)⟩ ⟨⟨1, 2⟩, some (.intC 1 1)⟩
    ⟨⟨2, 3⟩, some (.intC 1 1)⟩ (by decide) (by decide) (by decide) (by decide) (by decide)
    (by decide) (by decide)).1

theorem clen_ofList (l : List ConstVal) : (ConstValList.ofList l).clen = l.length := by
  induction l with
  | nil => rfl
  | cons c cs ih => simp [ConstValList.ofList, ConstValList.clen, ih]; omega

theorem toList_ofListT (l : List LLVMType) : (LLVMTypeList.ofList l).toList = l := by
  induction l with
  | nil => rfl
  | cons t ts ih => simp [LLVMTypeList.ofList, LLVMTypeList.toList, ih]

theorem ofListT_toList : ∀ (l : LLVMTypeList), LLVMTypeList.ofList l.toList = l
  | .nil => rfl
  | .cons t ts => by simp [LLVMTypeList.ofList, LLVMTypeList.toList, ofListT_toList ts]

theorem typeOfL_ofList (l : List ConstVal) :
    typeOfL (ConstValList.ofList l) = LLVMTypeList.ofList (l.map ConstVal.typeOf) := by
  induction l with
  | nil => rfl
  | cons c cs ih => simp [ConstValList.ofList, typeOfL, LLVMTypeList.ofList, ih]

theorem foldl_pres {α β : Type} (P : α → Prop) (g : α → β → α) (l : List β) (a : α)
    (h0 : P a) (hstep : ∀ acc x, P acc → x ∈ l → P (g acc x)) : P (l.foldl g a) := by
  induction l generalizing a with
  | nil => exact h0
  | cons x xs ih =>
    exact ih (g a x) (hstep a x h0 (by simp)) (fun acc y hy hmem => hstep acc y hy (by simp [hmem]))

theorem SRange.contains_getWidth_le {r s : SRange} (h : r.contains s = true) :
    s.getWidth ≤ r.getWidth := by
  simp only [SRange.contains, Bool.or_eq_true, Bool.and_eq_true, decide_eq_true_eq,
    SRange.empty_true_iff] at h
  simp only [SRange.getWidth]
  rcases h with h | ⟨h1, h2⟩ <;> omega

theorem roundUp_ge {n a : Nat} (ha : 0 < a) : n ≤ roundUp n a := by
  simp only [roundUp]
  have h1 := Nat.lt_div_mul_add (a := n + a - 1) ha
  omega

theorem roundUp_dvd (n a : Nat) : a ∣ roundUp n a :=
  ⟨(n + a - 1) / a, by rw [roundUp, Nat.mul_comm]⟩

theorem roundUp_eq_of_dvd {n a : Nat} (ha : 0 < a) (h : a ∣ n) : roundUp n a = n := by
  rcases h with ⟨k, rfl⟩
  simp only [roundUp]
  have h1 : a * k + a - 1 = (a - 1) + a * k := by omega
  rw [h1, Nat.add_mul_div_left _ _ ha, Nat.div_eq_of_lt (by omega), Nat.zero_add]
  exact Nat.mul_comm k a

theorem roundUp_le {n m a : Nat} (ha : 0 < a) (h : n ≤ m) (hd : a ∣ m) :
    roundUp n a ≤ m := by
  rcases hd with ⟨k, rfl⟩
  have h2 : (n + a - 1) / a < k + 1 := by
    rw [Nat.div_lt_iff_lt_mul ha]
    calc n + a - 1 < a * k + a := by omega
      _ = (k + 1) * a := by ring
  simp only [roundUp]
  calc (n + a - 1) / a * a ≤ k * a := Nat.mul_le_mul_right a (by omega)
    _ = a * k := Nat.mul_comm _ _

theorem roundUp_mul8 (x a : Nat) : roundUp (8 * x) (8 * a) = 8 * roundUp x a := by
  rcases Nat.eq_zero_or_pos a with rfl | ha
  · simp [roundUp]
  · simp only [roundUp]
    have h1 : 8 * x + 8 * a - 1 = 8 * (x + a - 1) + 7 := by omega
    have h2 : (8 * (x + a - 1) + 7) / (8 * a) = (x + a - 1) / a := by
      rw [← Nat.div_div_eq_div_mul, Nat.mul_add_div (by norm_num)]
      norm_num
    rw [h1, h2]; ring

theorem isPow2F_spec : ∀ f n, n ≤ f → (isPow2F f n = true ↔ ∃ k, n = 2 ^ k) := by
  intro f
  induction f with
  | zero =>
    intro n h
    interval_cases n
    simp only [isPow2F, Bool.false_eq_true, false_iff, not_exists]
    intro k hk
    exact absurd hk.symm (by positivity : (0:Nat) < 2 ^ k).ne'
  | succ f ih =>
    intro n hn
    match n with
    | 0 =>
      have h0 : isPow2F (f+1) 0 = false := rfl
      rw [h0]
      simp only [Bool.false_eq_true, false_iff, not_exists]
      intro k hk
      exact absurd hk.symm (by positivity : (0:Nat) < 2 ^ k).ne'
    | 1 =>
      have h1 : isPow2F (f+1) 1 = true := rfl
      rw [h1]
      exact ⟨fun _ => ⟨0, rfl⟩, fun _ => rfl⟩
    | (m+2) =>
      rw [show isPow2F (f+1) (m+2) =
        ((m+2) % 2 == 0 && (m+2) ≠ 0 && isPow2F f ((m+2) / 2)) from rfl]
      have hle : (m + 2) / 2 ≤ f := by omega
      rw [Bool.and_eq_true, Bool.and_eq_true, ih _ hle]
      constructor
      · rintro ⟨⟨hmod, _⟩, k, hk⟩
        refine ⟨k + 1, ?_⟩
        simp only [beq_iff_eq] at hmod
        omega
      · rintro ⟨k, hk⟩
        match k with
        | 0 => omega
        | k+1 =>
          refine ⟨⟨?_, by simp⟩, k, ?_⟩
          · simp only [beq_iff_eq]
            rw [Nat.pow_succ] at hk
            omega
          · rw [Nat.pow_succ] at hk
            omega

theorem isPow2_spec (n : Nat) : isPow2 n = true ↔ ∃ k, n = 2 ^ k :=
  isPow2F_spec n n le_rfl

theorem pow2_dvd {a b : Nat} (ha : ∃ i, a = 2 ^ i) (hb : ∃ j, b = 2 ^ j) (h : a ≤ b) :
    a ∣ b := by
  obtain ⟨i, rfl⟩ := ha
  obtain ⟨j, rfl⟩ := hb
  exact pow_dvd_pow 2 ((Nat.pow_le_pow_iff_right (by norm_num)).mp h)

theorem pow2_max {a b : Nat} (ha : ∃ i, a = 2 ^ i) (hb : ∃ j, b = 2 ^ j) :
    ∃ k, max a b = 2 ^ k := by
  obtain ⟨i, rfl⟩ := ha
  obtain ⟨j, rfl⟩ := hb
  rcases le_total i j with h | h
  · refine ⟨j, ?_⟩
    rw [max_eq_right (Nat.pow_le_pow_right (by norm_num) h)]
  · refine ⟨i, ?_⟩
    rw [max_eq_left (Nat.pow_le_pow_right (by norm_num) h)]

theorem foldl_max_ge {α : Type} (g : α → Nat) (l : List α) (init : Nat) :
    init ≤ l.foldl (fun a i => max a (g i)) init := by
  induction l generalizing init with
  | nil => exact le_rfl
  | cons x xs ih => exact le_trans (Nat.le_max_left _ _) (ih (max init (g x)))

theorem foldl_max_pow2 {α : Type} (g : α → Nat) (l : List α) (init : Nat)
    (h0 : ∃ k, init = 2 ^ k) (h : ∀ x ∈ l, ∃ k, g x = 2 ^ k) :
    ∃ k, l.foldl (fun a i => max a (g i)) init = 2 ^ k := by
  induction l generalizing init with
  | nil => exact h0
  | cons x xs ih =>
    exact ih _ (pow2_max h0 (h x (by simp))) (fun y hy => h y (by simp [hy]))

theorem foldl_max_le {α : Type} (g : α → Nat) (l : List α) (init m : Nat)
    (h0 : init ≤ m) (h : ∀ x ∈ l, g x ≤ m) :
    l.foldl (fun a i => max a (g i)) init ≤ m := by
  induction l generalizing init with
  | nil => exact h0
  | cons x xs ih =>
    exact ih _ (max_le h0 (h x (by simp))) (fun y hy => h y (by simp [hy]))

theorem foldl_max_mem_le {α : Type} (g : α → Nat) (l : List α) (init : Nat)
    {x : α} (hx : x ∈ l) : g x ≤ l.foldl (fun a i => max a (g i)) init := by
  induction l generalizing init with
  | nil => cases hx
  | cons y ys ih =>
    rcases List.mem_cons.mp hx with rfl | hx2
    · exact le_trans (Nat.le_max_right _ _) (foldl_max_ge g ys _)
    · exact ih _ hx2

theorem alignBytes_pos : ∀ t : LLVMType, 0 < (typeInfo t).alignBytes
  | .integer w => by
    simp only [typeInfo, intAlignBytes]
    split <;> [skip; split <;> [skip; split]] <;> norm_num
  | .pointer _ => by norm_num [typeInfo]
  | .floating k => by cases k <;> norm_num [typeInfo, FloatKind.alignBytes]
  | .array n elt => by
    simpa only [typeInfo] using alignBytes_pos elt
  | .strukt packed elts => by
    simp only [typeInfo, structAlignBytes]
    split
    · norm_num
    · exact lt_of_lt_of_le (by norm_num) (foldl_max_ge TypeInfo.alignBytes _ 1)
  | .vector n elt => by
    simp only [typeInfo, nextPow2]
    positivity

theorem abiAlign_pos (t : LLVMType) : 0 < abiAlignBytes t := alignBytes_pos t

mutual
theorem abiAlign_pow2 : ∀ t : LLVMType, ∃ k, (typeInfo t).alignBytes = 2 ^ k
  | .integer w => by
    simp only [typeInfo, intAlignBytes]
    split
    · exact ⟨0, rfl⟩
    · split
      · exact ⟨1, rfl⟩
      · split
        · exact ⟨2, rfl⟩
        · exact ⟨3, rfl⟩
  | .pointer _ => ⟨3, rfl⟩
  | .floating k => by
    cases k <;> simp only [typeInfo, FloatKind.alignBytes]
    exacts [⟨2, rfl⟩, ⟨3, rfl⟩, ⟨4, rfl⟩, ⟨4, rfl⟩, ⟨4, rfl⟩, ⟨3, rfl⟩]
  | .array n elt => by
    simpa only [typeInfo] using abiAlign_pow2 elt
  | .strukt packed elts => by
    simp only [typeInfo, structAlignBytes]
    split
    · exact ⟨0, rfl⟩
    · exact foldl_max_pow2 TypeInfo.alignBytes _ 1 ⟨0, rfl⟩ (abiAlign_pow2L elts)
  | .vector n elt => ⟨Nat.clog 2 (((typeInfo (.vector n elt)).sizeBits + 7) / 8), by
      simp only [typeInfo, nextPow2]⟩

theorem abiAlign_pow2L : ∀ ts : LLVMTypeList, ∀ i ∈ typeInfoL ts, ∃ k, i.alignBytes = 2 ^ k
  | .nil => by simp [typeInfoL]
  | .cons t ts => by
    intro i hi
    rcases List.mem_cons.mp hi with rfl | hi2
    · exact abiAlign_pow2 t
    · exact abiAlign_pow2L ts i hi2
end

theorem storeBytes_le_allocBytes (i : TypeInfo) (h : 0 < i.alignBytes) :
    i.storeBytes ≤ i.allocBytes := roundUp_ge h

theorem align_dvd_allocBytes (i : TypeInfo) : i.alignBytes ∣ i.allocBytes :=
  roundUp_dvd _ _

theorem abiAlign_dvd_allocBits (t : LLVMType) :
    8 * abiAlignBytes t ∣ allocSizeInBits t := by
  simp only [allocSizeInBits, abiAlignBytes]
  exact mul_dvd_mul_left 8 (align_dvd_allocBytes (typeInfo t))

theorem sizeBits_le_store (t : LLVMType) : sizeInBits t ≤ storeSizeInBits t := by
  simp only [sizeInBits, storeSizeInBits, TypeInfo.storeBytes]
  omega

theorem store_le_allocBits (t : LLVMType) : storeSizeInBits t ≤ allocSizeInBits t := by
  simp only [storeSizeInBits, allocSizeInBits]
  exact Nat.mul_le_mul_left 8 (storeBytes_le_allocBytes _ (alignBytes_pos t))

theorem Displace_wfB {s : BitSlice} (o : Int) (hw : s.wfB = true) :
    (s.Displace o).wfB = true := by
  have hweq : (s.R.Displace o).getWidth = s.R.getWidth := by
    simp only [SRange.Displace, SRange.getWidth]
    congr 1
    ring
  have hemp : (s.R.Displace o).empty = s.R.empty := by
    simp only [SRange.Displace, SRange.empty]
    exact decide_eq_decide.mpr (by omega)
  obtain ⟨R, C⟩ := s
  simp only [BitSlice.Displace, BitSlice.wfB] at *
  match C with
  | none => exact hemp ▸ hw
  | some (.intC w v) => rw [hemp, hweq]; exact hw
  | some (.undef (.integer w)) => rw [hemp, hweq]; exact hw
  | some (.undef (.pointer e)) => exact hw
  | some (.undef (.floating k)) => exact hw
  | some (.undef (.array n e)) => exact hw
  | some (.undef (.strukt p l)) => exact hw
  | some (.undef (.vector n e)) => exact hw
  | some (.ptrC e a) => exact hw
  | some (.fltC k b) => exact hw
  | some (.arrC e l) => exact hw
  | some (.structC p l) => exact hw
  | some (.vecC l) => exact hw

theorem req_ranges_eq {r s : SRange} (h : r.req s = true) (hne : r.empty = false) :
    r = s := by
  simp only [SRange.req, Bool.or_eq_true, Bool.and_eq_true, decide_eq_true_eq] at h
  rcases h with ⟨h1, _⟩ | ⟨h1, h2⟩
  · rw [h1] at hne; exact Bool.noConfusion hne
  · obtain ⟨f, l⟩ := r; obtain ⟨f2, l2⟩ := s; simp only at h1 h2; rw [h1, h2]

theorem contains_empty_false {r s : SRange} (hc : r.contains s = true)
    (hs : s.empty = false) : r.empty = false := by
  simp only [SRange.contains, Bool.or_eq_true, Bool.and_eq_true, decide_eq_true_eq] at hc
  rcases hc with h | ⟨h1, h2⟩
  · rw [h] at hs; exact Bool.noConfusion hs
  · rw [SRange.empty_false_iff] at hs ⊢
    omega

theorem wfB_mk_int {r : SRange} {w v : Nat} (hne : r.empty = false)
    (hw : w = r.getWidth) (hv : v < 2 ^ w) :
    (BitSlice.mk r (some (.intC w v))).wfB = true := by
  subst hw
  simp [BitSlice.wfB, hne, hv]

theorem wfB_mk_undef {r : SRange} {w : Nat} (hne : r.empty = false)
    (hw : w = r.getWidth) :
    (BitSlice.mk r (some (.undef (.integer w)))).wfB = true := by
  subst hw
  simp [BitSlice.wfB, hne]

theorem ExtendRange_wfB (be : Bool) {s : BitSlice} {r : SRange}
    (hw : s.wfB = true) (hc : r.contains s.R = true) :
    (s.ExtendRange be r).wfB = true := by
  rw [BitSlice.ExtendRange]
  by_cases hreq : s.R.req r = true
  · rw [if_pos hreq]; exact hw
  · rw [if_neg hreq]
    have hrne : r.empty = false := by
      by_cases hse : s.R.empty = true
      · by_cases hre : r.empty = true
        · exact absurd (by simp [SRange.req, hse, hre] : s.R.req r = true) hreq
        · simpa using hre
      · exact contains_empty_false hc (by simpa using hse)
    by_cases hse : s.R.empty = true
    · rw [if_pos hse]
      simp [BitSlice.wfB, hrne]
    · rw [if_neg hse]
      have hsne : s.R.empty = false := by simpa using hse
      have hwle : s.R.getWidth ≤ r.getWidth := SRange.contains_getWidth_le hc
      rcases wfB_contents_cases hw hsne with hcon | ⟨hcon, _⟩ <;> rw [hcon] <;>
        simp only [createZExtOrBitCast]
      · have hv := wfB_sliceVal_lt hw
        by_cases hwq : r.getWidth = s.R.getWidth
        · rw [if_pos hwq]
          split
          · simp only [createShl]
            exact wfB_mk_int hrne hwq.symm (Nat.mod_lt _ (by positivity))
          · split
            · simp only [createShl]
              exact wfB_mk_int hrne hwq.symm (Nat.mod_lt _ (by positivity))
            · exact wfB_mk_int hrne hwq.symm hv
        · rw [if_neg hwq]
          split
          · simp only [createShl]
            exact wfB_mk_int hrne rfl (Nat.mod_lt _ (by positivity))
          · split
            · simp only [createShl]
              exact wfB_mk_int hrne rfl (Nat.mod_lt _ (by positivity))
            · exact wfB_mk_int hrne rfl
                (lt_of_lt_of_le hv (Nat.pow_le_pow_right (by norm_num) hwle))
      · by_cases hwq : r.getWidth = s.R.getWidth
        · rw [if_pos hwq]
          split
          · simp only [createShl]
            exact wfB_mk_int hrne hwq.symm (by positivity)
          · split
            · simp only [createShl]
              exact wfB_mk_int hrne hwq.symm (by positivity)
            · exact wfB_mk_undef hrne hwq.symm
        · rw [if_neg hwq]
          split
          · simp only [createShl]
            exact wfB_mk_int hrne rfl (Nat.mod_lt _ (by positivity))
          · split
            · simp only [createShl]
              exact wfB_mk_int hrne rfl (Nat.mod_lt _ (by positivity))
            · exact wfB_mk_int hrne rfl (by positivity)

theorem ExtendRange_R (be : Bool) (s : BitSlice) (r : SRange) :
    (s.ExtendRange be r).R = if s.R.req r = true then s.R else r := by
  rw [BitSlice.ExtendRange]
  by_cases hreq : s.R.req r = true
  · rw [if_pos hreq, if_pos hreq]
  · rw [if_neg hreq, if_neg hreq]
    split
    · rfl
    · match s.contents with
      | none => rfl
      | some c => rfl

theorem Merge_wfB (be : Bool) {a b : BitSlice} (hwa : a.wfB = true) (hwb : b.wfB = true) :
    (a.Merge be b).wfB = true := by
  rw [BitSlice.Merge]
  by_cases hbe : b.R.empty = true
  · rw [if_pos hbe]; exact hwa
  · rw [if_neg hbe]
    by_cases hae : a.R.empty = true
    · rw [if_pos hae]; exact hwb
    · rw [if_neg hae]
      have hane : a.R.empty = false := by simpa using hae
      have hbne : b.R.empty = false := by simpa using hbe
      have hhne : (a.R.Join b.R).empty = false := SRange.Join_empty_false_left hane
      have hwea := ExtendRange_wfB be hwa (SRange.contains_Join_left a.R b.R)
      have hweb := ExtendRange_wfB be hwb (SRange.contains_Join_right a.R b.R)
      have hAR : (a.ExtendRange be (a.R.Join b.R)).R = a.R.Join b.R := by
        rw [ExtendRange_R]
        split
        · next h => exact req_ranges_eq h hane
        · rfl
      have hBR : (b.ExtendRange be (a.R.Join b.R)).R = a.R.Join b.R := by
        rw [ExtendRange_R]
        split
        · next h => exact req_ranges_eq h hbne
        · rfl
      have haRne : (a.ExtendRange be (a.R.Join b.R)).R.empty = false := by rw [hAR]; exact hhne
      have hbRne : (b.ExtendRange be (a.R.Join b.R)).R.empty = false := by rw [hBR]; exact hhne
      have hwidA : (a.ExtendRange be (a.R.Join b.R)).R.getWidth = (a.R.Join b.R).getWidth := by
        rw [hAR]
      have hwidB : (b.ExtendRange be (a.R.Join b.R)).R.getWidth = (a.R.Join b.R).getWidth := by
        rw [hBR]
      have hvA := wfB_sliceVal_lt hwea
      have hvB := wfB_sliceVal_lt hweb
      rw [hwidA] at hvA
      rw [hwidB] at hvB
      rcases wfB_contents_cases hwea haRne with hca | ⟨hca, _⟩ <;>
        rcases wfB_contents_cases hweb hbRne with hcb | ⟨hcb, _⟩ <;>
        rw [hwidA] at hca <;> rw [hwidB] at hcb <;>
        simp only [hca, hcb, Option.getD_some, createAnd, createOr] <;>
        refine wfB_mk_int hhne rfl ?_
      · exact Nat.or_lt_two_pow (lt_of_le_of_lt Nat.and_le_left hvA)
          (lt_of_le_of_lt Nat.and_le_left hvB)
      · exact Nat.or_lt_two_pow (lt_of_le_of_lt Nat.and_le_left hvA) (by positivity)
      · exact Nat.or_lt_two_pow (by positivity) (lt_of_le_of_lt Nat.and_le_left hvB)
      · exact Nat.or_lt_two_pow (by positivity) (by positivity)

theorem reduce_getD_wf (be : Bool) (t : BitSlice) (r : SRange) (hw : t.wfB = true) :
    ((t.ReduceRange be r).contents.getD (.undef (.integer r.getWidth))).typeOf
        = .integer r.getWidth ∧
      ((t.ReduceRange be r).contents.getD (.undef (.integer r.getWidth))).cwfB = true := by
  rw [BitSlice.ReduceRange]
  by_cases hreq : t.R.req r = true
  · rw [if_pos hreq]
    by_cases hte : t.R.empty = true
    · rw [wfB_empty_contents hw hte]
      exact ⟨rfl, rfl⟩
    · have htne : t.R.empty = false := by simpa using hte
      have hreq2 := req_ranges_eq hreq htne
      have hv := wfB_sliceVal_lt hw
      rcases wfB_contents_cases hw htne with hcon | ⟨hcon, _⟩ <;> rw [hcon] <;>
        rw [hreq2] at hv ⊢ <;> simp only [Option.getD_some]
      · exact ⟨rfl, by simp [ConstVal.cwfB, hv]⟩
      · exact ⟨rfl, rfl⟩
  · rw [if_neg hreq]
    by_cases hre : r.empty = true
    · rw [if_pos hre]
      exact ⟨rfl, rfl⟩
    · rw [if_neg hre]
      by_cases hte : t.R.empty = true
      · rw [wfB_empty_contents hw hte]
        exact ⟨rfl, rfl⟩
      · have htne : t.R.empty = false := by simpa using hte
        have hv := wfB_sliceVal_lt hw
        rcases wfB_contents_cases hw htne with hcon | ⟨hcon, _⟩ <;> rw [hcon] <;> split
        · next x h => exact absurd h (by simp)
        · next x c heq =>
          injection heq with heq2
          subst heq2
          simp only [Option.getD_some]
          split
          · simp only [createLShr, createTruncOrBitCast]
            split
            · next hwq =>
              refine ⟨by simp [ConstVal.typeOf, hwq], ?_⟩
              simp only [ConstVal.cwfB, decide_eq_true_eq]
              exact lt_of_le_of_lt (Nat.shiftRight_eq_div_pow _ _ ▸ Nat.div_le_self _ _) hv
            · refine ⟨rfl, ?_⟩
              simp only [ConstVal.cwfB, decide_eq_true_eq]
              exact Nat.mod_lt _ (by positivity)
          · split
            · simp only [createLShr, createTruncOrBitCast]
              split
              · next hwq =>
                refine ⟨by simp [ConstVal.typeOf, hwq], ?_⟩
                simp only [ConstVal.cwfB, decide_eq_true_eq]
                exact lt_of_le_of_lt (Nat.shiftRight_eq_div_pow _ _ ▸ Nat.div_le_self _ _) hv
              · refine ⟨rfl, ?_⟩
                simp only [ConstVal.cwfB, decide_eq_true_eq]
                exact Nat.mod_lt _ (by positivity)
            · simp only [createTruncOrBitCast]
              split
              · next hwq =>
                refine ⟨by simp [ConstVal.typeOf, hwq], ?_⟩
                simp only [ConstVal.cwfB, decide_eq_true_eq]
                exact hv
              · refine ⟨rfl, ?_⟩
                simp only [ConstVal.cwfB, decide_eq_true_eq]
                exact Nat.mod_lt _ (by positivity)
        · next x h => exact absurd h (by simp)
        · next x c heq =>
          injection heq with heq2
          subst heq2
          simp only [Option.getD_some]
          split
          · simp only [createLShr, createTruncOrBitCast]
            split
            · next hwq => exact ⟨by simp [ConstVal.typeOf, hwq], by
                simp only [ConstVal.cwfB, decide_eq_true_eq]; positivity⟩
            · refine ⟨rfl, ?_⟩
              simp only [ConstVal.cwfB, decide_eq_true_eq]
              exact Nat.mod_lt _ (by positivity)
          · split
            · simp only [createLShr, createTruncOrBitCast]
              split
              · next hwq => exact ⟨by simp [ConstVal.typeOf, hwq], by
                simp only [ConstVal.cwfB, decide_eq_true_eq]; positivity⟩
              · refine ⟨rfl, ?_⟩
                simp only [ConstVal.cwfB, decide_eq_true_eq]
                exact Nat.mod_lt _ (by positivity)
            · simp only [createTruncOrBitCast]
              split
              · next hwq => exact ⟨by simp [ConstVal.typeOf, hwq], rfl⟩
              · exact ⟨rfl, rfl⟩

theorem getBits_wf (be : Bool) {s : BitSlice} (r : SRange) (hw : s.wfB = true) :
    (s.getBits be r).typeOf = .integer r.getWidth ∧ (s.getBits be r).cwfB = true := by
  rw [BitSlice.getBits]
  by_cases hreq : s.R.req r = true
  · rw [if_pos hreq]
    by_cases hse : s.R.empty = true
    · rw [wfB_empty_contents hw hse]
      exact ⟨rfl, rfl⟩
    · have hsne : s.R.empty = false := by simpa using hse
      have hreq2 := req_ranges_eq hreq hsne
      have hv := wfB_sliceVal_lt hw
      rcases wfB_contents_cases hw hsne with hcon | ⟨hcon, _⟩ <;> rw [hcon] <;>
        rw [hreq2] at hv ⊢ <;> simp only [Option.getD_some]
      · exact ⟨rfl, by simp [ConstVal.cwfB, hv]⟩
      · exact ⟨rfl, rfl⟩
  · rw [if_neg hreq]
    by_cases hse : s.R.empty = true
    · rw [if_pos hse]
      exact ⟨rfl, rfl⟩
    · rw [if_neg hse]
      exact reduce_getD_wf be _ r
        (ExtendRange_wfB be hw (SRange.contains_Join_left s.R r))

theorem emptySlice_wfB : BitSlice.emptySlice.wfB = true := rfl

theorem cwfAny_getD : ∀ (l : ConstValList) (i : Nat) (d : ConstVal),
    cwfAny l = true → d.cwfB = true → (l.getD i d).cwfB = true
  | .nil, _, _, _, hd => hd
  | .cons c cs, 0, d, h, _ => by
    rw [cwfAny] at h
    simp only [Bool.and_eq_true] at h
    exact h.1
  | .cons c cs, i+1, d, h, hd => by
    rw [cwfAny] at h
    simp only [Bool.and_eq_true] at h
    exact cwfAny_getD cs i d h.2 hd

theorem cwfTyped_getD : ∀ (elt : LLVMType) (l : ConstValList) (i : Nat) (d : ConstVal),
    cwfTyped elt l = true → d.cwfB = true → d.typeOf = elt →
    (l.getD i d).cwfB = true ∧ (l.getD i d).typeOf = elt
  | _, .nil, _, _, _, hd, ht => ⟨hd, ht⟩
  | elt, .cons c cs, 0, d, h, _, _ => by
    rw [cwfTyped] at h
    obtain ⟨⟨h1, h2⟩, _⟩ := by
      simpa only [Bool.and_eq_true, beq_iff_eq] using h
    exact ⟨h1, h2⟩
  | elt, .cons c cs, i+1, d, h, hd, ht => by
    rw [cwfTyped] at h
    simp only [Bool.and_eq_true] at h
    exact cwfTyped_getD elt cs i d h.2 hd ht

theorem cwfTyped_getD_lt : ∀ (elt : LLVMType) (l : ConstValList) (i : Nat) (d : ConstVal),
    cwfTyped elt l = true → i < l.clen →
    (l.getD i d).cwfB = true ∧ (l.getD i d).typeOf = elt
  | _, .nil, i, _, _, hi => by rw [ConstValList.clen] at hi; omega
  | elt, .cons c cs, 0, d, h, _ => by
    rw [cwfTyped] at h
    obtain ⟨⟨h1, h2⟩, _⟩ := by
      simpa only [Bool.and_eq_true, beq_iff_eq] using h
    exact ⟨h1, h2⟩
  | elt, .cons c cs, i+1, d, h, hi => by
    rw [cwfTyped] at h
    rw [ConstValList.clen] at hi
    simp only [Bool.and_eq_true] at h
    exact cwfTyped_getD_lt elt cs i d h.2 (by omega)

theorem store_vec_le (n : Nat) (elt : LLVMType) :
    storeSizeInBits (.vector n elt) ≤ n * allocSizeInBits elt := by
  simp only [storeSizeInBits, allocSizeInBits, typeInfo, TypeInfo.storeBytes]
  have h1 : (typeInfo elt).sizeBits ≤ 8 * (typeInfo elt).allocBytes := by
    have := storeBytes_le_allocBytes (typeInfo elt) (alignBytes_pos elt)
    simp only [TypeInfo.storeBytes] at this
    omega
  have h2 : n * (typeInfo elt).sizeBits ≤ 8 * (n * (typeInfo elt).allocBytes) := by
    calc n * (typeInfo elt).sizeBits ≤ n * (8 * (typeInfo elt).allocBytes) :=
          Nat.mul_le_mul_left n h1
      _ = 8 * (n * (typeInfo elt).allocBytes) := by ring
  have h3 : n * (8 * (typeInfo elt).allocBytes) = 8 * (n * (typeInfo elt).allocBytes) := by
    ring
  rw [h3]
  omega

theorem vec_index_bound {rin : SRange} {n st : Nat} (S : Nat)
    (hS : S ≤ n * st) (hstp : 0 < st)
    (hre : (rin.Meet ⟨0, (S : Int)⟩).empty = false)
    {i : Nat} (hmem : i ∈ List.range'
      ((rin.Meet ⟨0, (S : Int)⟩).first.toNat / st)
      (((rin.Meet ⟨0, (S : Int)⟩).last.toNat + st - 1) / st
        - (rin.Meet ⟨0, (S : Int)⟩).first.toNat / st)) :
    i < n := by
  rw [List.mem_range'] at hmem
  obtain ⟨hge, hlt⟩ := hmem
  have hf0 : 0 ≤ (rin.Meet ⟨0, (S : Int)⟩).first := by
    simp [SRange.Meet]
  have hlS : (rin.Meet ⟨0, (S : Int)⟩).last ≤ (S : Int) := by
    simp [SRange.Meet]
  have hne : (rin.Meet ⟨0, (S : Int)⟩).first < (rin.Meet ⟨0, (S : Int)⟩).last := by
    rw [SRange.empty_false_iff] at hre
    exact hre
  have hl : ((rin.Meet ⟨0, (S : Int)⟩).last.toNat + st - 1) / st < n + 1 := by
    rw [Nat.div_lt_iff_lt_mul hstp]
    have hmul : (n + 1) * st = n * st + st := by ring
    omega
  have hfle : (rin.Meet ⟨0, (S : Int)⟩).first.toNat / st
      ≤ ((rin.Meet ⟨0, (S : Int)⟩).last.toNat + st - 1) / st :=
    Nat.div_le_div_right (by omega)
  omega

theorem viewAsBitsF_wfB (be : Bool) :
    ∀ (fuel : Nat) (c : ConstVal) (rin : SRange), c.cwfB = true →
      (viewAsBitsF be fuel c.typeOf c rin).wfB = true := by
  intro fuel
  induction fuel with
  | zero => intro c rin _; exact emptySlice_wfB
  | succ fuel ih =>
    intro c rin hcwf
    match c with
    | .intC w v =>
      simp only [ConstVal.cwfB, decide_eq_true_eq] at hcwf
      simp only [viewAsBitsF, ConstVal.typeOf]
      by_cases hrin : rin.empty = true
      · rw [if_pos hrin]; exact emptySlice_wfB
      · rw [if_neg hrin]
        by_cases hre : (rin.Meet ⟨0, (storeSizeInBits (.integer w) : Int)⟩).empty = true
        · rw [if_pos hre]; exact emptySlice_wfB
        · rw [if_neg hre]
          have hS : storeSizeInBits (.integer w) = 8 * ((w + 7) / 8) := rfl
          have hw1 : 1 ≤ w := by
            simp only [SRange.Meet, SRange.empty, decide_eq_true_eq, not_le] at hre
            rw [hS] at hre
            omega
          have hcc : createBitCast (.intC w v) (.integer w) = .intC w v := rfl
          rw [hcc]
          cases be
          · rw [if_neg (by simp)]
            exact wfB_mk_int (by simp only [SRange.empty, decide_eq_false_iff_not]; omega)
              (by simp only [SRange.getWidth]; omega) hcwf
          · rw [if_pos rfl]
            refine wfB_mk_int (by simp only [SRange.empty, decide_eq_false_iff_not]; omega) ?_ hcwf
            simp only [SRange.getWidth]
            omega
    | .ptrC e a =>
      simp only [ConstVal.cwfB, decide_eq_true_eq] at hcwf
      simp only [viewAsBitsF, ConstVal.typeOf]
      by_cases hrin : rin.empty = true
      · rw [if_pos hrin]; exact emptySlice_wfB
      · rw [if_neg hrin]
        by_cases hre : (rin.Meet ⟨0, (storeSizeInBits (.pointer e) : Int)⟩).empty = true
        · rw [if_pos hre]; exact emptySlice_wfB
        · rw [if_neg hre]
          have hcc : createPtrToInt (.ptrC e a) = .intC 64 a := rfl
          have hS64 : ((storeSizeInBits (.pointer e) : Nat) : Int) = 64 := by
            simp [storeSizeInBits, typeInfo, TypeInfo.storeBytes]
          rw [hcc, hS64]
          exact wfB_mk_int (by decide) (by decide) hcwf
    | .fltC k b =>
      simp only [ConstVal.cwfB, decide_eq_true_eq] at hcwf
      simp only [viewAsBitsF, ConstVal.typeOf]
      by_cases hrin : rin.empty = true
      · rw [if_pos hrin]; exact emptySlice_wfB
      · rw [if_neg hrin]
        by_cases hre : (rin.Meet ⟨0, (storeSizeInBits (.floating k) : Int)⟩).empty = true
        · rw [if_pos hre]; exact emptySlice_wfB
        · rw [if_neg hre]
          have hS : storeSizeInBits (.floating k) = 8 * ((k.bitWidth + 7) / 8) := rfl
          have hw1 : 1 ≤ k.bitWidth := by cases k <;> decide
          have hcc : createBitCast (.fltC k b) (.integer k.bitWidth)
              = .intC k.bitWidth b := by
            simp [createBitCast]
          rw [hcc]
          cases be
          · rw [if_neg (by simp)]
            exact wfB_mk_int (by simp only [SRange.empty, decide_eq_false_iff_not]; omega)
              (by simp only [SRange.getWidth]; omega) hcwf
          · rw [if_pos rfl]
            refine wfB_mk_int (by simp only [SRange.empty, decide_eq_false_iff_not]; omega) ?_ hcwf
            simp only [SRange.getWidth]
            omega
    | .undef ty =>
      match ty with
      | .integer w =>
        simp only [viewAsBitsF, ConstVal.typeOf]
        by_cases hrin : rin.empty = true
        · rw [if_pos hrin]; exact emptySlice_wfB
        · rw [if_neg hrin]
          by_cases hre : (rin.Meet ⟨0, (storeSizeInBits (.integer w) : Int)⟩).empty = true
          · rw [if_pos hre]; exact emptySlice_wfB
          · rw [if_neg hre]
            have hS : storeSizeInBits (.integer w) = 8 * ((w + 7) / 8) := rfl
            have hw1 : 1 ≤ w := by
              simp only [SRange.Meet, SRange.empty, decide_eq_true_eq, not_le] at hre
              rw [hS] at hre
              omega
            have hcc : createBitCast (.undef (.integer w)) (.integer w)
                = .undef (.integer w) := rfl
            rw [hcc]
            cases be
            · rw [if_neg (by simp)]
              exact wfB_mk_undef (by simp only [SRange.empty, decide_eq_false_iff_not]; omega)
                (by simp only [SRange.getWidth]; omega)
            · rw [if_pos rfl]
              refine wfB_mk_undef (by simp only [SRange.empty, decide_eq_false_iff_not]; omega) ?_
              simp only [SRange.getWidth]
              omega
      | .pointer e =>
        simp only [viewAsBitsF, ConstVal.typeOf]
        by_cases hrin : rin.empty = true
        · rw [if_pos hrin]; exact emptySlice_wfB
        · rw [if_neg hrin]
          by_cases hre : (rin.Meet ⟨0, (storeSizeInBits (.pointer e) : Int)⟩).empty = true
          · rw [if_pos hre]; exact emptySlice_wfB
          · rw [if_neg hre]
            have hcc : createPtrToInt (.undef (.pointer e)) = .undef (.integer 64) := rfl
            have hS64 : ((storeSizeInBits (.pointer e) : Nat) : Int) = 64 := by
              simp [storeSizeInBits, typeInfo, TypeInfo.storeBytes]
            rw [hcc, hS64]
            exact wfB_mk_undef (by decide) (by decide)
      | .floating k =>
        simp only [viewAsBitsF, ConstVal.typeOf]
        by_cases hrin : rin.empty = true
        · rw [if_pos hrin]; exact emptySlice_wfB
        · rw [if_neg hrin]
          by_cases hre : (rin.Meet ⟨0, (storeSizeInBits (.floating k) : Int)⟩).empty = true
          · rw [if_pos hre]; exact emptySlice_wfB
          · rw [if_neg hre]
            have hS : storeSizeInBits (.floating k) = 8 * ((k.bitWidth + 7) / 8) := rfl
            have hw1 : 1 ≤ k.bitWidth := by cases k <;> decide
            have hcc : createBitCast (.undef (.floating k)) (.integer k.bitWidth)
                = .undef (.integer k.bitWidth) := rfl
            rw [hcc]
            cases be
            · rw [if_neg (by simp)]
              exact wfB_mk_undef (by simp only [SRange.empty, decide_eq_false_iff_not]; omega)
                (by simp only [SRange.getWidth]; omega)
            · rw [if_pos rfl]
              refine wfB_mk_undef (by simp only [SRange.empty, decide_eq_false_iff_not]; omega) ?_
              simp only [SRange.getWidth]
              omega
      | .array n elt =>
        simp only [viewAsBitsF, ConstVal.typeOf]
        by_cases hrin : rin.empty = true
        · rw [if_pos hrin]; exact emptySlice_wfB
        · rw [if_neg hrin]
          by_cases hre : (rin.Meet ⟨0, (storeSizeInBits (.array n elt) : Int)⟩).empty = true
          · rw [if_pos hre]; exact emptySlice_wfB
          · rw [if_neg hre]
            refine foldl_pres (fun b : BitSlice => b.wfB = true) _ _ _ emptySlice_wfB ?_
            intro acc i hacc _
            refine Merge_wfB be hacc (Displace_wfB _ ?_)
            have hext : extractValue (ConstVal.undef (.array n elt)) i
                = .undef elt := rfl
            rw [hext]
            have := ih (.undef elt) ⟨0, (allocSizeInBits elt : Int)⟩ rfl
            simpa only [ConstVal.typeOf] using this
      | .strukt p tys =>
        simp only [viewAsBitsF, ConstVal.typeOf]
        by_cases hrin : rin.empty = true
        · rw [if_pos hrin]; exact emptySlice_wfB
        · rw [if_neg hrin]
          by_cases hre : (rin.Meet ⟨0, (storeSizeInBits (.strukt p tys) : Int)⟩).empty = true
          · rw [if_pos hre]; exact emptySlice_wfB
          · rw [if_neg hre]
            refine foldl_pres (fun b : BitSlice => b.wfB = true) _ _ _ emptySlice_wfB ?_
            intro acc i hacc _
            refine Merge_wfB be hacc (Displace_wfB _ ?_)
            exact ih (extractValue (ConstVal.undef (.strukt p tys)) i) _ rfl
      | .vector n elt =>
        simp only [viewAsBitsF, ConstVal.typeOf]
        by_cases hrin : rin.empty = true
        · rw [if_pos hrin]; exact emptySlice_wfB
        · rw [if_neg hrin]
          by_cases hre : (rin.Meet ⟨0, (storeSizeInBits (.vector n elt) : Int)⟩).empty = true
          · rw [if_pos hre]; exact emptySlice_wfB
          · rw [if_neg hre]
            refine foldl_pres (fun b : BitSlice => b.wfB = true) _ _ _ emptySlice_wfB ?_
            intro acc i hacc _
            refine Merge_wfB be hacc (Displace_wfB _ ?_)
            have hext : extractElement (ConstVal.undef (.vector n elt)) i
                = .undef elt := rfl
            rw [hext]
            have := ih (.undef elt) ⟨0, (allocSizeInBits elt : Int)⟩ rfl
            simpa only [ConstVal.typeOf] using this
    | .arrC elt elts =>
      simp only [ConstVal.cwfB] at hcwf
      simp only [viewAsBitsF, ConstVal.typeOf]
      by_cases hrin : rin.empty = true
      · rw [if_pos hrin]; exact emptySlice_wfB
      · rw [if_neg hrin]
        by_cases hre : (rin.Meet
            ⟨0, (storeSizeInBits (.array elts.clen elt) : Int)⟩).empty = true
        · rw [if_pos hre]; exact emptySlice_wfB
        · rw [if_neg hre]
          refine foldl_pres (fun b : BitSlice => b.wfB = true) _ _ _ emptySlice_wfB ?_
          intro acc i hacc _
          refine Merge_wfB be hacc (Displace_wfB _ ?_)
          have hext : extractValue (ConstVal.arrC elt elts) i
              = elts.getD i (.undef elt) := rfl
          rw [hext]
          obtain ⟨hcw, hty⟩ := cwfTyped_getD elt elts i (.undef elt) hcwf rfl rfl
          have := ih (elts.getD i (.undef elt)) ⟨0, (allocSizeInBits elt : Int)⟩ hcw
          rw [hty] at this
          exact this
    | .structC p elts =>
      simp only [ConstVal.cwfB] at hcwf
      simp only [viewAsBitsF, ConstVal.typeOf]
      by_cases hrin : rin.empty = true
      · rw [if_pos hrin]; exact emptySlice_wfB
      · rw [if_neg hrin]
        by_cases hre : (rin.Meet
            ⟨0, (storeSizeInBits (.strukt p (typeOfL elts)) : Int)⟩).empty = true
        · rw [if_pos hre]; exact emptySlice_wfB
        · rw [if_neg hre]
          refine foldl_pres (fun b : BitSlice => b.wfB = true) _ _ _ emptySlice_wfB ?_
          intro acc i hacc _
          refine Merge_wfB be hacc (Displace_wfB _ ?_)
          have hext : extractValue (ConstVal.structC p elts) i
              = elts.getD i (.undef (.integer 0)) := rfl
          rw [hext]
          exact ih (elts.getD i (.undef (.integer 0))) _
            (cwfAny_getD elts i (.undef (.integer 0)) hcwf rfl)
    | .vecC .nil =>
      simp only [viewAsBitsF, ConstVal.typeOf]
      by_cases hrin : rin.empty = true
      · rw [if_pos hrin]; exact emptySlice_wfB
      · rw [if_neg hrin]
        rw [if_pos ?emp]
        · exact emptySlice_wfB
        case emp =>
          simp only [SRange.Meet, SRange.empty, decide_eq_true_eq]
          have hS : storeSizeInBits (ConstVal.vecC .nil).typeOf = 0 := rfl
          simp only [ConstVal.typeOf] at hS
          rw [hS]
          omega
    | .vecC (.cons c0 cs) =>
      simp only [ConstVal.cwfB] at hcwf
      simp only [viewAsBitsF, ConstVal.typeOf]
      by_cases hrin : rin.empty = true
      · rw [if_pos hrin]; exact emptySlice_wfB
      · rw [if_neg hrin]
        by_cases hre : (rin.Meet ⟨0, (storeSizeInBits
            (.vector (ConstValList.cons c0 cs).clen c0.typeOf) : Int)⟩).empty = true
        · rw [if_pos hre]; exact emptySlice_wfB
        · rw [if_neg hre]
          refine foldl_pres (fun b : BitSlice => b.wfB = true) _ _ _ emptySlice_wfB ?_
          intro acc i hacc hmem
          refine Merge_wfB be hacc (Displace_wfB _ ?_)
          have hext : extractElement (ConstVal.vecC (.cons c0 cs)) i
              = (ConstValList.cons c0 cs).getD i (.undef (.integer 0)) := rfl
          rw [hext]
          by_cases hst : allocSizeInBits c0.typeOf = 0
          · rw [List.mem_range'] at hmem
            rw [hst] at hmem
            simp at hmem
          · have hstp : 0 < allocSizeInBits c0.typeOf := Nat.pos_of_ne_zero hst
            have hbound : i < (ConstValList.cons c0 cs).clen :=
              vec_index_bound (storeSizeInBits
                  (.vector (ConstValList.cons c0 cs).clen c0.typeOf))
                (store_vec_le _ _) hstp (by simpa using hre) hmem
            obtain ⟨hcw, hty⟩ :=
              cwfTyped_getD_lt c0.typeOf (.cons c0 cs) i (.undef (.integer 0)) hcwf hbound
            have := ih ((ConstValList.cons c0 cs).getD i (.undef (.integer 0)))
              ⟨0, (allocSizeInBits c0.typeOf : Int)⟩ hcw
            rw [hty] at this
            exact this

theorem cwfTyped_ofList (elt : LLVMType) (L : List ConstVal)
    (h : ∀ x ∈ L, x.cwfB = true ∧ x.typeOf = elt) :
    cwfTyped elt (ConstValList.ofList L) = true := by
  induction L with
  | nil => rfl
  | cons a as ih =>
    obtain ⟨h1, h2⟩ := h a (by simp)
    simp only [ConstValList.ofList, cwfTyped, Bool.and_eq_true, beq_iff_eq]
    exact ⟨⟨h1, h2⟩, ih (fun x hx => h x (by simp [hx]))⟩

theorem cwfAny_ofList (L : List ConstVal) (h : ∀ x ∈ L, x.cwfB = true) :
    cwfAny (ConstValList.ofList L) = true := by
  induction L with
  | nil => rfl
  | cons a as ih =>
    simp only [ConstValList.ofList, cwfAny, Bool.and_eq_true]
    exact ⟨h a (by simp), ih (fun x hx => h x (by simp [hx]))⟩

theorem structPlace_length (packed : Bool) :
    ∀ (infos : List TypeInfo) (off : Nat),
      (structPlace packed infos off).1.length = infos.length
  | [], _ => rfl
  | i :: is, off => by
    simp only [structPlace]
    exact congrArg Nat.succ (structPlace_length packed is _)

theorem typeInfoL_length : ∀ ts : LLVMTypeList, (typeInfoL ts).length = ts.toList.length
  | .nil => rfl
  | .cons t ts => by
    simp only [typeInfoL, LLVMTypeList.toList, List.length_cons]
    exact congrArg Nat.succ (typeInfoL_length ts)

theorem okTL_mem : ∀ ts : LLVMTypeList, okTL ts = true → ∀ t ∈ ts.toList, t.okT = true
  | .nil => by intro _ t ht; cases ht
  | .cons a as => by
    intro h t ht
    rw [okTL, Bool.and_eq_true] at h
    rcases List.mem_cons.mp ht with rfl | ht2
    · exact h.1
    · exact okTL_mem as h.2 t ht2

theorem tsizeL_mem_le : ∀ (ts : LLVMTypeList) (t : LLVMType), t ∈ ts.toList →
    t.tsize ≤ ts.tsizeL
  | .nil, t => by intro ht; cases ht
  | .cons a as, t => by
    intro ht
    rw [LLVMTypeList.tsizeL]
    rcases List.mem_cons.mp ht with rfl | ht2
    · omega
    · have := tsizeL_mem_le as t ht2
      omega

theorem int_typed_cases {c : ConstVal} {w : Nat} (ht : c.typeOf = .integer w)
    (hc : c.cwfB = true) :
    (∃ v, c = .intC w v ∧ v < 2 ^ w) ∨ c = .undef (.integer w) := by
  match c with
  | .intC w0 v =>
    simp only [ConstVal.typeOf, LLVMType.integer.injEq] at ht
    subst ht
    simp only [ConstVal.cwfB, decide_eq_true_eq] at hc
    exact Or.inl ⟨v, rfl, hc⟩
  | .undef ty =>
    simp only [ConstVal.typeOf] at ht
    subst ht
    exact Or.inr rfl
  | .ptrC e a => simp [ConstVal.typeOf] at ht
  | .fltC k b => simp [ConstVal.typeOf] at ht
  | .arrC e l => simp [ConstVal.typeOf] at ht
  | .structC p l => simp [ConstVal.typeOf] at ht
  | .vecC l => cases l <;> simp [ConstVal.typeOf] at ht

theorem typeOf_vecC_ofList (L : List ConstVal) (elt : LLVMType) (hL : L ≠ [])
    (h : ∀ x ∈ L, x.typeOf = elt) :
    (ConstVal.vecC (ConstValList.ofList L)).typeOf = .vector L.length elt := by
  match L with
  | [] => exact absurd rfl hL
  | a :: as =>
    simp only [ConstValList.ofList, ConstVal.typeOf, List.length_cons]
    have h1 : (ConstValList.cons a (ConstValList.ofList as)).clen = as.length + 1 := by
      rw [ConstValList.clen, clen_ofList]
      omega
    rw [h1, h a (by simp)]

theorem getWidth_le (w : Nat) : SRange.getWidth ⟨0, (w : Int)⟩ = w := by
  simp [SRange.getWidth]

theorem interpretAsInt_wf (be : Bool) (c : ConstVal) (w : Nat) (sb : Int)
    (hcwf : c.cwfB = true) :
    (interpretAsInt be c w sb).typeOf = .integer w ∧
      (interpretAsInt be c w sb).cwfB = true := by
  simp only [interpretAsInt, viewAsBits]
  have hw := viewAsBitsF_wfB be c.typeOf.tsize c
    ⟨sb, sb + (storeSizeInBits (.integer w) : Int)⟩ hcwf
  have hwd := Displace_wfB (-sb) hw
  cases be
  · have hgw : SRange.getWidth ⟨0, (w : Int)⟩ = w := getWidth_le w
    have := getBits_wf false ⟨0, (w : Int)⟩ hwd
    rw [hgw] at this
    simpa using this
  · have hgw : SRange.getWidth ⟨(storeSizeInBits (.integer w) : Int) - (w : Int),
        (storeSizeInBits (.integer w) : Int)⟩ = w := by
      simp only [SRange.getWidth]
      omega
    have := getBits_wf true ⟨(storeSizeInBits (.integer w) : Int) - (w : Int),
        (storeSizeInBits (.integer w) : Int)⟩ hwd
    rw [hgw] at this
    simpa using this

theorem cwfB_vecC_ofList (L : List ConstVal) (elt : LLVMType)
    (h : ∀ x ∈ L, x.cwfB = true ∧ x.typeOf = elt) :
    (ConstVal.vecC (ConstValList.ofList L)).cwfB = true := by
  cases L with
  | nil => rfl
  | cons a as =>
    have ha := h a (by simp)
    simp only [ConstValList.ofList, ConstVal.cwfB, cwfTyped, Bool.and_eq_true, beq_iff_eq]
    refine ⟨⟨ha.1, by simp⟩, ?_⟩
    rw [ha.2]
    exact cwfTyped_ofList elt as (fun x hx => h x (by simp [hx]))

theorem interpretAsTypeF_wf (be : Bool) :
    ∀ (fuel : Nat) (ty : LLVMType) (c : ConstVal) (sb : Int),
      ty.okT = true → ty.tsize ≤ fuel → c.cwfB = true →
      (interpretAsTypeF be fuel ty c sb).typeOf = ty ∧
        (interpretAsTypeF be fuel ty c sb).cwfB = true := by
  intro fuel
  induction fuel with
  | zero =>
    intro ty c sb _ hfuel _
    exact absurd hfuel (by have := one_le_tsize ty; omega)
  | succ fuel ih =>
    intro ty c sb hok hfuel hcwf
    by_cases hfast : c.typeOf = ty
    · simp only [interpretAsTypeF]
      rw [if_pos hfast]
      exact ⟨hfast, hcwf⟩
    · cases ty with
      | integer w =>
        simp only [interpretAsTypeF]
        rw [if_neg hfast]
        exact interpretAsInt_wf be c w sb hcwf
      | pointer elt =>
        simp only [interpretAsTypeF]
        rw [if_neg hfast]
        have hic : (if c.typeOf = LLVMType.integer 64 then c
            else interpretAsInt be c 64 sb).typeOf = .integer 64 ∧
            (if c.typeOf = LLVMType.integer 64 then c
            else interpretAsInt be c 64 sb).cwfB = true := by
          split
          · next h => exact ⟨h, hcwf⟩
          · exact interpretAsInt_wf be c 64 sb hcwf
        rcases int_typed_cases hic.1 hic.2 with ⟨v, heq, hv⟩ | heq <;> rw [heq]
        · exact ⟨rfl, by
            simp only [createIntToPtr, ConstVal.cwfB, decide_eq_true_eq]
            exact Nat.mod_lt _ (by positivity)⟩
        · exact ⟨rfl, rfl⟩
      | floating k =>
        simp only [interpretAsTypeF]
        rw [if_neg hfast]
        have hic : (if c.typeOf = LLVMType.integer k.bitWidth then c
            else interpretAsInt be c k.bitWidth sb).typeOf = .integer k.bitWidth ∧
            (if c.typeOf = LLVMType.integer k.bitWidth then c
            else interpretAsInt be c k.bitWidth sb).cwfB = true := by
          split
          · next h => exact ⟨h, hcwf⟩
          · exact interpretAsInt_wf be c k.bitWidth sb hcwf
        rcases int_typed_cases hic.1 hic.2 with ⟨v, heq, hv⟩ | heq <;> rw [heq]
        · have hcc : createBitCast (.intC k.bitWidth v) (.floating k) = .fltC k v := by
            simp [createBitCast]
          rw [hcc]
          exact ⟨rfl, by simp [ConstVal.cwfB, hv]⟩
        · exact ⟨rfl, rfl⟩
      | array n elt =>
        simp only [interpretAsTypeF]
        rw [if_neg hfast]
        simp only [LLVMType.okT] at hok
        rw [LLVMType.tsize] at hfuel
        have hmem : ∀ x ∈ (List.range n).map
            (fun i => interpretAsTypeF be fuel elt c (sb + i * allocSizeInBits elt)),
            x.cwfB = true ∧ x.typeOf = elt := by
          intro x hx
          rw [List.mem_map] at hx
          obtain ⟨i, _, rfl⟩ := hx
          obtain ⟨h1, h2⟩ := ih elt c _ hok (by omega) hcwf
          exact ⟨h2, h1⟩
        constructor
        · simp only [ConstVal.typeOf]
          rw [clen_ofList]
          simp only [bind_pure_comp, List.map_eq_map, List.length_map, List.length_range]
        · simp only [ConstVal.cwfB]
          exact cwfTyped_ofList elt _ hmem
      | strukt packed elts =>
        simp only [interpretAsTypeF]
        rw [if_neg hfast]
        simp only [LLVMType.okT] at hok
        rw [LLVMType.tsize] at hfuel
        have hlen : elts.toList.length ≤ (structOffsetsBytes packed elts).length := by
          rw [structOffsetsBytes, structPlace_length, typeInfoL_length]
        have hmem : ∀ p ∈ elts.toList.zip (structOffsetsBytes packed elts),
            (interpretAsTypeF be fuel p.1 c (sb + 8 * p.2)).typeOf = p.1 ∧
            (interpretAsTypeF be fuel p.1 c (sb + 8 * p.2)).cwfB = true := by
          intro p hp
          obtain ⟨a, b⟩ := p
          have hp1 : a ∈ elts.toList := (List.of_mem_zip hp).1
          exact ih a c _ (okTL_mem elts hok a hp1)
            (le_trans (tsizeL_mem_le elts a hp1) (by omega)) hcwf
        constructor
        · simp only [ConstVal.typeOf]
          rw [typeOfL_ofList, List.map_map]
          have hcg : (elts.toList.zip (structOffsetsBytes packed elts)).map
              (ConstVal.typeOf ∘ fun p => interpretAsTypeF be fuel p.1 c (sb + 8 * p.2))
              = (elts.toList.zip (structOffsetsBytes packed elts)).map Prod.fst := by
            refine List.map_congr_left ?_
            intro p hp
            exact (hmem p hp).1
          rw [hcg, List.map_fst_zip _ _ hlen, ofListT_toList]
        · simp only [ConstVal.cwfB]
          refine cwfAny_ofList _ ?_
          intro x hx
          rw [List.mem_map] at hx
          obtain ⟨p, hp, rfl⟩ := hx
          exact (hmem p hp).2
      | vector n elt =>
        simp only [interpretAsTypeF]
        rw [if_neg hfast]
        simp only [LLVMType.okT, Bool.and_eq_true, decide_eq_true_eq] at hok
        rw [LLVMType.tsize] at hfuel
        obtain ⟨hn0, hokelt⟩ := hok
        have hmem : ∀ x ∈ (List.range n).map
            (fun i => interpretAsTypeF be fuel elt c (sb + i * allocSizeInBits elt)),
            x.cwfB = true ∧ x.typeOf = elt := by
          intro x hx
          rw [List.mem_map] at hx
          obtain ⟨i, _, rfl⟩ := hx
          obtain ⟨h1, h2⟩ := ih elt c _ hokelt (by omega) hcwf
          exact ⟨h2, h1⟩
        have hL : ((List.range n).map
            (fun i => interpretAsTypeF be fuel elt c (sb + i * allocSizeInBits elt))) ≠ [] := by
          simp only [bind_pure_comp, List.map_eq_map, ne_eq, List.map_eq_nil_iff,
            List.range_eq_nil]
          omega
        constructor
        · have := typeOf_vecC_ofList _ elt hL (fun x hx => (hmem x hx).2)
          rw [this]
          simp only [bind_pure_comp, List.map_eq_map, List.length_map, List.length_range]
        · exact cwfB_vecC_ofList _ elt (fun x hx => ⟨(hmem x hx).1, (hmem x hx).2⟩)

theorem interpretAsType_wf (be : Bool) (c : ConstVal) (ty : LLVMType) (sb : Int)
    (hok : ty.okT = true) (hcwf : c.cwfB = true) :
    (interpretAsType be c ty sb).typeOf = ty ∧ (interpretAsType be c ty sb).cwfB = true :=
  interpretAsTypeF_wf be ty.tsize ty c sb hok le_rfl hcwf

theorem allocBits_unitType (u : Nat) : allocSizeInBits (unitType u) = 8 * u := by
  simp only [unitType, allocSizeInBits, typeInfo, show intAlignBytes 8 = 1 from rfl,
    TypeInfo.allocBytes, TypeInfo.storeBytes, roundUp]
  omega

theorem abiAlign_unitType (u : Nat) : abiAlignBytes (unitType u) = 1 := by
  simp [unitType, abiAlignBytes, typeInfo, intAlignBytes]

theorem okT_unitType (u : Nat) : (unitType u).okT = true := by
  simp [unitType, LLVMType.okT]

theorem alloc_integer_zero : allocSizeInBits (.integer 0) = 0 := by
  simp [allocSizeInBits, typeInfo, TypeInfo.allocBytes, TypeInfo.storeBytes, roundUp,
    intAlignBytes]

theorem extractContents_wf (be : Bool) (f : FieldContents)
    (hfc : (match f.C with | none => true | some c => c.cwfB) = true)
    (h8 : f.R.getWidth % 8 = 0) :
    allocSizeInBits (f.extractContents be).typeOf ≤ f.R.getWidth ∧
      (f.extractContents be).cwfB = true := by
  rw [FieldContents.extractContents]
  by_cases hsafe : f.isSafe = true
  · rw [if_pos hsafe]
    match hC : f.C with
    | none =>
      simp only [FieldContents.isSafe, hC] at hsafe
      exact absurd hsafe (by simp)
    | some c =>
      simp only [FieldContents.isSafe, hC] at hsafe
      simp only [Option.getD_some]
      constructor
      · split at hsafe
        · exact absurd hsafe (by simp)
        · simpa using hsafe
      · rw [hC] at hfc
        exact hfc
  · rw [if_neg hsafe]
    by_cases hemp : f.R.empty = true
    · rw [if_pos hemp]
      constructor
      · have h0 : allocSizeInBits (ConstVal.undef (unitType 0)).typeOf = 0 := by
          have : (ConstVal.undef (unitType 0)).typeOf = unitType 0 := rfl
          rw [this, allocBits_unitType]
        omega
      · rfl
    · rw [if_neg hemp]
      rw [FieldContents.getAsBits, if_neg hemp]
      match hC : f.C with
      | none =>
        simp only [Option.getD_none]
        have hsafe2 : (FieldContents.mk f.R (some (.undef (.integer 0))) f.R.first).isSafe
            = true := by
          simp only [FieldContents.isSafe]
          have : decide (f.R.first ≠ f.R.first) = false := by simp
          rw [this]
          simp only [Bool.and_false, Bool.false_eq_true, if_false]
          have ht : (ConstVal.undef (.integer 0)).typeOf = .integer 0 := rfl
          rw [ht, alloc_integer_zero]
          simp
        rw [if_pos hsafe2]
        have ht : (ConstVal.undef (.integer 0)).typeOf = .integer 0 := rfl
        rw [ht, alloc_integer_zero]
        exact ⟨by omega, rfl⟩
      | some c =>
        rw [hC] at hfc
        obtain ⟨hty, hcw⟩ := interpretAsType_wf be c (.integer f.R.getWidth)
          (f.R.first - f.Starts) rfl hfc
        simp only [Option.getD_some]
        by_cases hok2 : allocSizeInBits (interpretAsType be c (.integer f.R.getWidth)
            (f.R.first - f.Starts)).typeOf ≤ f.R.getWidth
        · have hsafe2 : (FieldContents.mk f.R (some (interpretAsType be c
              (.integer f.R.getWidth) (f.R.first - f.Starts))) f.R.first).isSafe = true := by
            simp only [FieldContents.isSafe]
            have : decide (f.R.first ≠ f.R.first) = false := by simp
            rw [this]
            simp only [Bool.and_false, Bool.false_eq_true, if_false]
            simpa using hok2
          rw [if_pos hsafe2]
          exact ⟨hok2, hcw⟩
        · have hsafe2 : (FieldContents.mk f.R (some (interpretAsType be c
              (.integer f.R.getWidth) (f.R.first - f.Starts))) f.R.first).isSafe = false := by
            simp only [FieldContents.isSafe]
            have : decide (f.R.first ≠ f.R.first) = false := by simp
            rw [this]
            simp only [Bool.and_false, Bool.false_eq_true, if_false]
            simpa using hok2
          rw [hsafe2]
          simp only [Bool.false_eq_true, if_false]
          obtain ⟨hty2, hcw2⟩ := interpretAsType_wf be _
            (unitType (f.R.getWidth / bitsPerUnit)) 0 (okT_unitType _) hcw
          rw [hty2, allocBits_unitType]
          refine ⟨?_, hcw2⟩
          have : bitsPerUnit = 8 := rfl
          rw [this]
          omega

theorem getAsBits_sliceWf (be : Bool) (f : FieldContents) (hf : f.fwfB = true) :
    (BitSlice.mk f.R (f.getAsBits be)).wfB = true := by
  rw [FieldContents.getAsBits]
  by_cases hemp : f.R.empty = true
  · rw [if_pos hemp]
    simp [BitSlice.wfB, hemp]
  · rw [if_neg hemp]
    match hC : f.C with
    | none =>
      rw [FieldContents.fwfB, hC] at hf
      exact absurd hf hemp
    | some c =>
      rw [FieldContents.fwfB, hC] at hf
      obtain ⟨hty, hcw⟩ := interpretAsType_wf be c (.integer f.R.getWidth)
        (f.R.first - f.Starts) rfl hf
      rcases int_typed_cases hty hcw with ⟨v, heq, hv⟩ | heq <;> simp only [heq]
      · exact wfB_mk_int (by simpa using hemp) rfl hv
      · exact wfB_mk_undef (by simpa using hemp) rfl

theorem Merge_R (be : Bool) (a b : BitSlice) :
    (a.Merge be b).R = if b.R.empty = true then a.R
      else if a.R.empty = true then b.R else a.R.Join b.R := by
  rw [BitSlice.Merge]
  by_cases hbe : b.R.empty = true
  · rw [if_pos hbe, if_pos hbe]
  · rw [if_neg hbe, if_neg hbe]
    by_cases hae : a.R.empty = true
    · rw [if_pos hae, if_pos hae]
    · rw [if_neg hae, if_neg hae]

theorem joinWith_R (be : Bool) (f s : FieldContents) :
    (f.joinWith be s).R = if s.R.empty = true then f.R
      else if f.R.empty = true then s.R else f.R.Join s.R := by
  rw [FieldContents.joinWith]
  exact Merge_R be ⟨f.R, f.getAsBits be⟩ ⟨s.R, s.getAsBits be⟩

theorem joinWith_fwf (be : Bool) (f s : FieldContents) (hf : f.fwfB = true)
    (hs : s.fwfB = true) : (f.joinWith be s).fwfB = true := by
  rw [FieldContents.joinWith]
  have hwm := Merge_wfB be (getAsBits_sliceWf be f hf) (getAsBits_sliceWf be s hs)
  by_cases hme : (BitSlice.Merge be ⟨f.R, f.getAsBits be⟩ ⟨s.R, s.getAsBits be⟩).R.empty = true
  · have hcon := wfB_empty_contents hwm hme
    simp only [FieldContents.fwfB, hme, reduceIte, hcon]
  · have hne : (BitSlice.Merge be ⟨f.R, f.getAsBits be⟩ ⟨s.R, s.getAsBits be⟩).R.empty
        = false := by simpa using hme
    simp only [FieldContents.fwfB, hne, Bool.false_eq_true, reduceIte]
    exact (getBits_wf be _ hwm).2

theorem chainOK_mono (size : Int) :
    ∀ (l : List FieldContents) (lo lo' : Int), lo' ≤ lo → chainOK size lo l →
      chainOK size lo' l
  | [], _, _, _, _ => trivial
  | f :: fs, lo, lo', hle, hc => by
    obtain ⟨h1, h2, h3, h4⟩ := hc
    exact ⟨by omega, h2, h3, h4⟩

theorem trim_mem {f : FieldContents} {r : SRange} {p : FieldContents}
    (hp : p ∈ trimOutside f r) (hf : f.fwfB = true) :
    p.R.empty = false ∧ f.R.first ≤ p.R.first ∧ p.R.last ≤ f.R.last ∧ p.fwfB = true := by
  simp only [trimOutside] at hp
  have main : ∀ rr : SRange, rr.empty = false → f.R.first ≤ rr.first →
      rr.last ≤ f.R.last → p = f.changeRangeTo rr →
      p.R.empty = false ∧ f.R.first ≤ p.R.first ∧ p.R.last ≤ f.R.last ∧ p.fwfB = true := by
    intro rr h1 h2 h3 hpe
    subst hpe
    refine ⟨h1, h2, h3, ?_⟩
    simp only [FieldContents.changeRangeTo, FieldContents.fwfB]
    rw [FieldContents.fwfB] at hf
    match hC : f.C with
    | some c =>
      simp only [hC] at hf ⊢
      exact hf
    | none =>
      simp only [hC] at hf ⊢
      exfalso
      rw [SRange.empty_false_iff] at h1
      rw [SRange.empty_true_iff] at hf
      omega
  rcases List.mem_append.mp hp with hmem | hmem <;> split at hmem
  · simp at hmem
  · next hguard =>
    simp only [List.mem_singleton] at hmem
    exact main ⟨f.R.first, min f.R.last r.first⟩ (by simpa using hguard) (le_refl _)
      (min_le_left _ _) hmem
  · simp at hmem
  · next hguard =>
    simp only [List.mem_singleton] at hmem
    exact main ⟨max f.R.first r.last, f.R.last⟩ (by simpa using hguard) (le_max_left _ _)
      (le_refl _) hmem

theorem joinFold_bounds (be : Bool) (lo hi : Int) :
    ∀ (ps : List FieldContents) (s : FieldContents),
    s.R.empty = false → s.fwfB = true → lo ≤ s.R.first → s.R.last ≤ hi →
    (∀ p ∈ ps, p.R.empty = false ∧ lo ≤ p.R.first ∧ p.R.last ≤ hi ∧ p.fwfB = true) →
    (ps.foldl (fun acc p => acc.joinWith be p) s).R.empty = false ∧
      (ps.foldl (fun acc p => acc.joinWith be p) s).fwfB = true ∧
      lo ≤ (ps.foldl (fun acc p => acc.joinWith be p) s).R.first ∧
      (ps.foldl (fun acc p => acc.joinWith be p) s).R.last ≤ hi := by
  intro ps
  induction ps with
  | nil => intro s h1 h2 h3 h4 _; exact ⟨h1, h2, h3, h4⟩
  | cons p ps ih =>
    intro s h1 h2 h3 h4 hps
    obtain ⟨hp1, hp2, hp3, hp4⟩ := hps p (by simp)
    have hR : (s.joinWith be p).R = s.R.Join p.R := by
      rw [joinWith_R, if_neg (by simp [hp1]), if_neg (by simp [h1])]
    simp only [List.foldl_cons]
    refine ih (s.joinWith be p) ?_ (joinWith_fwf be s p h2 hp4) ?_ ?_
      (fun q hq => hps q (by simp [hq]))
    · rw [hR]; exact SRange.Join_empty_false_left h1
    · rw [hR]
      simp only [SRange.Join]
      omega
    · rw [hR]
      simp only [SRange.Join]
      omega

theorem addIntervalGo_chain (be : Bool) (size : Int) :
    ∀ (l : List FieldContents) (s : FieldContents) (lo : Int),
      chainOK size lo l → (∀ f ∈ l, f.fwfB = true) →
      s.R.empty = false → s.fwfB = true → s.R.last ≤ size →
      chainOK size (min lo s.R.first) (addIntervalGo be l s) ∧
        (∀ f ∈ addIntervalGo be l s, f.fwfB = true) := by
  intro l
  induction l with
  | nil =>
    intro s lo _ _ hse hsw hss
    refine ⟨⟨min_le_right _ _, ?_, hss, trivial⟩, ?_⟩
    · exact SRange.empty_false_iff.mp hse
    · intro f hf
      simp only [addIntervalGo, List.mem_singleton] at hf
      subst hf
      exact hsw
  | cons f fs ih =>
    intro s lo hc hw hse hsw hss
    obtain ⟨h1, h2, h3, h4⟩ := hc
    simp only [addIntervalGo]
    by_cases hb1 : f.R.last ≤ s.R.first
    · rw [if_pos hb1]
      obtain ⟨ihc, ihw⟩ := ih s f.R.last h4 (fun g hg => hw g (by simp [hg])) hse hsw hss
      rw [min_eq_left hb1] at ihc
      refine ⟨⟨?_, h2, h3, ihc⟩, ?_⟩
      · omega
      · intro g hg
        rcases List.mem_cons.mp hg with rfl | hg2
        · exact hw g (by simp)
        · exact ihw g hg2
    · rw [if_neg hb1]
      by_cases hb2 : s.R.last ≤ f.R.first
      · rw [if_pos hb2]
        refine ⟨⟨min_le_right _ _, SRange.empty_false_iff.mp hse, hss,
          hb2, h2, h3, h4⟩, ?_⟩
        intro g hg
        rcases List.mem_cons.mp hg with rfl | hg2
        · exact hsw
        · exact hw g (by simp [hg2])
      · rw [if_neg hb2]
        have hffw : f.fwfB = true := hw f (by simp)
        have hjb := joinFold_bounds be (min f.R.first s.R.first) (max f.R.last s.R.last)
          (trimOutside f s.R) s hse hsw (min_le_right _ _) (le_max_right _ _)
          (fun p hp => by
            obtain ⟨hp1, hp2, hp3, hp4⟩ := trim_mem hp hffw
            exact ⟨hp1, by omega, by omega, hp4⟩)
        obtain ⟨hj1, hj2, hj3, hj4⟩ := hjb
        obtain ⟨ihc, ihw⟩ := ih _ f.R.last h4 (fun g hg => hw g (by simp [hg])) hj1 hj2
          (by omega)
        refine ⟨chainOK_mono size _ _ _ (by omega) ihc, ihw⟩

theorem addInterval_chain (be : Bool) (size : Int) (l : List FieldContents)
    (s : FieldContents) (hc : chainOK size 0 l) (hw : ∀ f ∈ l, f.fwfB = true)
    (hsw : s.fwfB = true) (h0 : 0 ≤ s.R.first) (hss : s.R.last ≤ size) :
    chainOK size 0 (addInterval be l s) ∧ (∀ f ∈ addInterval be l s, f.fwfB = true) := by
  rw [addInterval]
  by_cases hse : s.R.empty = true
  · rw [if_pos hse]
    exact ⟨hc, hw⟩
  · rw [if_neg hse]
    have := addIntervalGo_chain be size l s 0 hc hw (by simpa using hse) hsw hss
    rw [min_eq_left h0] at this
    exact this

theorem bChain_mono (size : Int) :
    ∀ (l : List FieldContents) (lo lo' : Int), lo' ≤ lo → bChain size lo l →
      bChain size lo' l
  | [], _, _, _, _ => trivial
  | f :: fs, lo, lo', hle, hc => by
    obtain ⟨h1, h2, h3, h4, h5, h6, h7⟩ := hc
    exact ⟨by omega, h2, h3, h4, h5, h6, h7⟩

theorem joinFold_nefw (be : Bool) :
    ∀ (ps : List FieldContents) (s : FieldContents),
    s.R.empty = false → s.fwfB = true →
    (∀ p ∈ ps, p.R.empty = false ∧ p.fwfB = true) →
    (ps.foldl (fun acc p => acc.joinWith be p) s).R.empty = false ∧
      (ps.foldl (fun acc p => acc.joinWith be p) s).fwfB = true := by
  intro ps
  induction ps with
  | nil => intro s h1 h2 _; exact ⟨h1, h2⟩
  | cons p ps ih =>
    intro s h1 h2 hps
    obtain ⟨hp1, hp2⟩ := hps p (by simp)
    have hR : (s.joinWith be p).R = s.R.Join p.R := by
      rw [joinWith_R, if_neg (by simp [hp1]), if_neg (by simp [h1])]
    simp only [List.foldl_cons]
    refine ih (s.joinWith be p) ?_ (joinWith_fwf be s p h2 hp2)
      (fun q hq => hps q (by simp [hq]))
    rw [hR]
    exact SRange.Join_empty_false_left h1

theorem alignGroupFinish_spec (be : Bool) (g : List FieldContents) (hull : SRange)
    (hg : g ≠ []) (hgm : ∀ f ∈ g, f.R.empty = false ∧ f.fwfB = true) :
    (alignGroupFinish be g hull).R = hull ∧ (alignGroupFinish be g hull).fwfB = true := by
  match g with
  | [] => exact absurd rfl hg
  | c :: cs =>
    obtain ⟨hc1, hc2⟩ := hgm c (by simp)
    obtain ⟨ht1, ht2⟩ := joinFold_nefw be cs c hc1 hc2 (fun q hq => hgm q (by simp [hq]))
    rw [alignGroupFinish]
    refine ⟨rfl, ?_⟩
    rw [FieldContents.changeRangeTo, FieldContents.fwfB]
    rw [FieldContents.fwfB] at ht2
    match hC : (cs.foldl (fun acc p => acc.joinWith be p) c).C with
    | some cc =>
      simp only [hC] at ht2 ⊢
      exact ht2
    | none =>
      simp only [hC] at ht2
      rw [ht2] at ht1
      exact Bool.noConfusion ht1

theorem snap_facts (x : SRange) (hx0 : 0 ≤ x.first) (hxe : x.first < x.last) :
    (snapRange 8 x).first ≤ x.first ∧ x.first < (snapRange 8 x).first + 8 ∧
      x.last ≤ (snapRange 8 x).last ∧ (snapRange 8 x).last < x.last + 8 ∧
      (8 : Int) ∣ (snapRange 8 x).first ∧ (8 : Int) ∣ (snapRange 8 x).last ∧
      0 ≤ (snapRange 8 x).first := by
  simp only [snapRange, roundUp]
  omega

theorem snap_last_le_size {x : SRange} {size : Int} (hx0 : 0 ≤ x.first)
    (hxe : x.first < x.last) (hxs : x.last ≤ size) (hsz : (8 : Int) ∣ size) :
    (snapRange 8 x).last ≤ size := by
  simp only [snapRange, roundUp]
  omega

theorem alignGo_bChain (be : Bool) (size : Int) (hsz : (8 : Int) ∣ size) :
    ∀ (rest : List FieldContents) (g : List FieldContents) (hull : SRange) (lo : Int),
      chainOK size lo rest → (∀ f ∈ rest, f.fwfB = true) →
      g ≠ [] → (∀ f ∈ g, f.R.empty = false ∧ f.fwfB = true) →
      0 ≤ hull.first → hull.first < hull.last → hull.last ≤ size →
      (8 : Int) ∣ hull.first → (8 : Int) ∣ hull.last → hull.first < lo →
      bChain size hull.first (alignGo be 8 g hull rest) := by
  intro rest
  induction rest with
  | nil =>
    intro g hull lo _ _ hg hgm h0 hne hsize h8f h8l _
    obtain ⟨hR, hfw⟩ := alignGroupFinish_spec be g hull hg hgm
    simp only [alignGo]
    exact ⟨by rw [hR], by rw [hR]; exact hne, by rw [hR]; exact hsize,
      by rw [hR]; exact h8f, by rw [hR]; exact h8l, hfw, by rw [hR]; exact trivial⟩
  | cons f fs ih =>
    intro g hull lo hc hw hg hgm h0 hne hsize h8f h8l hlo
    obtain ⟨h1, h2, h3, h4⟩ := hc
    have hf0 : 0 ≤ f.R.first := by omega
    obtain ⟨hs1, hs2, hs3, hs4, hs5, hs6, hs7⟩ := snap_facts f.R hf0 h2
    have hsls := snap_last_le_size hf0 h2 h3 hsz
    simp only [alignGo]
    by_cases hint : hull.intersects (snapRange 8 f.R) = true
    · rw [if_pos hint]
      have hmineq : (hull.Join (snapRange 8 f.R)).first = hull.first := by
        simp only [SRange.Join]
        omega
      rw [← hmineq]
      refine ih (g ++ [f]) (hull.Join (snapRange 8 f.R)) f.R.last h4
        (fun q hq => hw q (by simp [hq])) (by simp) ?_ ?_ ?_ ?_ ?_ ?_ ?_
      · intro q hq
        rcases List.mem_append.mp hq with hq2 | hq2
        · exact hgm q hq2
        · simp only [List.mem_singleton] at hq2
          subst hq2
          exact ⟨SRange.empty_false_iff.mpr h2, hw q (by simp)⟩
      · simp only [SRange.Join]
        omega
      · simp only [SRange.Join]
        omega
      · simp only [SRange.Join]
        omega
      · simp only [SRange.Join]
        rcases le_total hull.first (snapRange 8 f.R).first with hmm | hmm
        · rw [min_eq_left hmm]; exact h8f
        · rw [min_eq_right hmm]; exact hs5
      · simp only [SRange.Join]
        rcases le_total hull.last (snapRange 8 f.R).last with hmm | hmm
        · rw [max_eq_right hmm]; exact hs6
        · rw [max_eq_left hmm]; exact h8l
      · simp only [SRange.Join]
        omega
    · rw [if_neg hint]
      have hglue : hull.last ≤ (snapRange 8 f.R).first := by
        have hint2 : hull.intersects (snapRange 8 f.R) = false := by
          simpa using hint
        rw [SRange.intersects_false_iff] at hint2
        omega
      obtain ⟨hR, hfw⟩ := alignGroupFinish_spec be g hull hg hgm
      have hrec := ih [f] (snapRange 8 f.R) f.R.last h4
        (fun q hq => hw q (by simp [hq])) (List.cons_ne_nil f [])
        (by
          intro q hq
          simp only [List.mem_singleton] at hq
          subst hq
          exact ⟨SRange.empty_false_iff.mpr h2, hw q (by simp)⟩)
        hs7 (by omega) hsls hs5 hs6 (by omega)
      exact ⟨by rw [hR], by rw [hR]; exact hne, by rw [hR]; exact hsize,
        by rw [hR]; exact h8f, by rw [hR]; exact h8l, hfw,
        by rw [hR]; exact bChain_mono size _ _ _ hglue hrec⟩

theorem alignBoundaries_bChain (be : Bool) (size : Int) (hsz : (8 : Int) ∣ size) :
    ∀ (l : List FieldContents), chainOK size 0 l → (∀ f ∈ l, f.fwfB = true) →
      bChain size 0 (alignBoundaries be 8 l)
  | [], _, _ => trivial
  | f :: fs, hc, hw => by
    obtain ⟨h1, h2, h3, h4⟩ := hc
    obtain ⟨hs1, hs2, hs3, hs4, hs5, hs6, hs7⟩ := snap_facts f.R h1 h2
    have hsls := snap_last_le_size h1 h2 h3 hsz
    rw [alignBoundaries]
    refine bChain_mono size _ _ _ hs7 ?_
    refine alignGo_bChain be size hsz fs [f] (snapRange 8 f.R) f.R.last h4
      (fun q hq => hw q (by simp [hq])) (List.cons_ne_nil f []) ?_ hs7 (by omega) hsls
      hs5 hs6 (by omega)
    intro q hq
    simp only [List.mem_singleton] at hq
    subst hq
    exact ⟨SRange.empty_false_iff.mpr h2, hw q (by simp)⟩

theorem roundUp_one (n : Nat) : roundUp n 1 = n := by
  simp only [roundUp]
  omega

theorem typeInfo_unitType (u : Nat) : typeInfo (unitType u) = ⟨8 * u, 1⟩ := by
  have h8 : typeInfo (.integer 8) = ⟨8, 1⟩ := by
    simp [typeInfo, intAlignBytes]
  simp only [unitType, typeInfo, h8, show intAlignBytes 8 = 1 from rfl,
    TypeInfo.allocBytes, TypeInfo.storeBytes, roundUp]
  norm_num
  omega

theorem allocBytes_unitType (u : Nat) : (typeInfo (unitType u)).allocBytes = u := by
  rw [typeInfo_unitType]
  simp only [TypeInfo.allocBytes, TypeInfo.storeBytes, roundUp_one]
  omega

theorem structPlace_end_append (packed : Bool) :
    ∀ (l : List TypeInfo) (x : TypeInfo) (off : Nat),
      (structPlace packed (l ++ [x]) off).2 =
        (if packed then (structPlace packed l off).2
         else roundUp (structPlace packed l off).2 x.alignBytes) + x.allocBytes
  | [], x, off => by
    simp only [List.nil_append, structPlace]
  | i :: is, x, off => by
    simp only [List.cons_append, structPlace]
    exact structPlace_end_append packed is x _

theorem fwfB_imp_cwfhyp (f : FieldContents) (h : f.fwfB = true) :
    (match f.C with | none => true | some c => c.cwfB) = true := by
  rw [FieldContents.fwfB] at h
  match hC : f.C with
  | none => simp
  | some c =>
    simp only [hC] at h ⊢
    exact h

theorem alloc_dvd8 (t : LLVMType) : 8 ∣ allocSizeInBits t := Dvd.intro _ rfl

theorem emit_fold (be pack : Bool) (size : Int) :
    ∀ (layout : List FieldContents) (elts : List ConstVal) (endPrev : Nat) (lo : Int),
      bChain size lo layout →
      (endPrev : Int) ≤ lo →
      (endPrev : Int) ≤ size →
      8 ∣ endPrev →
      (structPlace pack (elts.map (fun c => typeInfo c.typeOf)) 0).2 = endPrev / 8 →
      (pack = false → ∀ f ∈ layout,
        f.R.first.toNat % (abiAlignBytes (f.extractContents be).typeOf * 8) = 0) →
      (structPlace pack (((layout.foldl (emitStep be pack) (elts, endPrev)).1).map
          (fun c => typeInfo c.typeOf)) 0).2
        = (layout.foldl (emitStep be pack) (elts, endPrev)).2 / 8 ∧
      8 ∣ (layout.foldl (emitStep be pack) (elts, endPrev)).2 ∧
      ((layout.foldl (emitStep be pack) (elts, endPrev)).2 : Int) ≤ size ∧
      (∀ c ∈ (layout.foldl (emitStep be pack) (elts, endPrev)).1,
        c ∈ elts ∨ (∃ f ∈ layout, c = f.extractContents be) ∨
          ∃ u, c = ConstVal.undef (unitType u)) := by
  intro layout
  induction layout with
  | nil =>
    intro elts endPrev lo _ _ hsz h8 hsp _
    exact ⟨hsp, h8, hsz, fun c hc => Or.inl hc⟩
  | cons f fs ih =>
    intro elts endPrev lo hch hle hsz h8 hsp hpk
    obtain ⟨h1, h2, h3, h4, h5, h6, h7⟩ := hch
    have hf0 : (0 : Int) ≤ f.R.first := by omega
    have hfirstInt : ((f.R.first.toNat : Nat) : Int) = f.R.first := Int.toNat_of_nonneg hf0
    have h4n : 8 ∣ f.R.first.toNat := by omega
    have hw8 : f.R.getWidth % 8 = 0 := by
      simp only [SRange.getWidth]
      omega
    obtain ⟨halloc, _⟩ := extractContents_wf be f (fwfB_imp_cwfhyp f h6) hw8
    have hadef : allocSizeInBits (f.extractContents be).typeOf
        = 8 * (typeInfo (f.extractContents be).typeOf).allocBytes := rfl
    have hend' : ((f.R.first.toNat + allocSizeInBits (f.extractContents be).typeOf : Nat)
        : Int) ≤ f.R.last := by
      have hcast : (allocSizeInBits (f.extractContents be).typeOf : Int)
          ≤ (f.R.getWidth : Int) := by exact_mod_cast halloc
      simp only [SRange.getWidth] at hcast
      push_cast
      omega
    have hEle : ((f.R.first.toNat + allocSizeInBits (f.extractContents be).typeOf : Nat)
        : Int) ≤ size := le_trans hend' h3
    have h8E : 8 ∣ f.R.first.toNat + allocSizeInBits (f.extractContents be).typeOf := by
      rw [hadef]
      omega
    have halpos : 0 < abiAlignBytes (f.extractContents be).typeOf := abiAlign_pos _
    have haldvd : pack = false →
        abiAlignBytes (f.extractContents be).typeOf ∣ f.R.first.toNat / 8 := by
      intro hp
      obtain ⟨k, hk⟩ := Nat.dvd_of_mod_eq_zero (hpk hp f (by simp))
      refine ⟨k, ?_⟩
      rw [hk]
      have hr : abiAlignBytes (f.extractContents be).typeOf * 8 * k
          = 8 * (abiAlignBytes (f.extractContents be).typeOf * k) := by ring
      rw [hr, Nat.mul_div_cancel_left _ (by norm_num)]
    have hval_place : ∀ (l : List TypeInfo), (structPlace pack l 0).2 = f.R.first.toNat / 8 →
        (structPlace pack (l ++ [typeInfo (f.extractContents be).typeOf]) 0).2
          = (f.R.first.toNat + allocSizeInBits (f.extractContents be).typeOf) / 8 := by
      intro l hl
      rw [structPlace_end_append, hl]
      have hdivadd : (f.R.first.toNat + allocSizeInBits (f.extractContents be).typeOf) / 8
          = f.R.first.toNat / 8 + (typeInfo (f.extractContents be).typeOf).allocBytes := by
        rw [hadef]
        omega
      by_cases hpc : pack = true
      · rw [if_pos hpc, hdivadd]
      · have hpf2 : pack = false := by
          revert hpc
          cases pack <;> simp
        rw [if_neg hpc,
          show (typeInfo (f.extractContents be).typeOf).alignBytes
            = abiAlignBytes (f.extractContents be).typeOf from rfl,
          roundUp_eq_of_dvd halpos (haldvd hpf2), hdivadd]
    have hihrest : ∀ (elts' : List ConstVal),
        (structPlace pack (elts'.map (fun c => typeInfo c.typeOf)) 0).2
          = (f.R.first.toNat + allocSizeInBits (f.extractContents be).typeOf) / 8 →
        (∀ c ∈ elts', c ∈ elts ∨ c = f.extractContents be ∨
          ∃ u, c = ConstVal.undef (unitType u)) →
        (structPlace pack (((fs.foldl (emitStep be pack)
            (elts', f.R.first.toNat + allocSizeInBits (f.extractContents be).typeOf)).1).map
            (fun c => typeInfo c.typeOf)) 0).2
          = (fs.foldl (emitStep be pack)
            (elts', f.R.first.toNat + allocSizeInBits (f.extractContents be).typeOf)).2 / 8 ∧
        8 ∣ (fs.foldl (emitStep be pack)
            (elts', f.R.first.toNat + allocSizeInBits (f.extractContents be).typeOf)).2 ∧
        ((fs.foldl (emitStep be pack)
            (elts', f.R.first.toNat + allocSizeInBits (f.extractContents be).typeOf)).2
            : Int) ≤ size ∧
        (∀ c ∈ (fs.foldl (emitStep be pack)
            (elts', f.R.first.toNat + allocSizeInBits (f.extractContents be).typeOf)).1,
          c ∈ elts ∨ (∃ g ∈ f :: fs, c = g.extractContents be) ∨
            ∃ u, c = ConstVal.undef (unitType u)) := by
      intro elts' hsp' hmem'
      obtain ⟨hi1, hi2, hi3, hi4⟩ := ih elts'
        (f.R.first.toNat + allocSizeInBits (f.extractContents be).typeOf) f.R.last h7
        hend' hEle h8E hsp' (fun hp g hg => hpk hp g (by simp [hg]))
      refine ⟨hi1, hi2, hi3, ?_⟩
      intro c hc
      rcases hi4 c hc with hc2 | ⟨g, hg, hc2⟩ | hc2
      · rcases hmem' c hc2 with hc3 | hc3 | hc3
        · exact Or.inl hc3
        · exact Or.inr (Or.inl ⟨f, by simp, hc3⟩)
        · exact Or.inr (Or.inr hc3)
      · exact Or.inr (Or.inl ⟨g, by simp [hg], hc2⟩)
      · exact Or.inr (Or.inr hc2)
    simp only [List.foldl_cons]
    by_cases hgap : endPrev < f.R.first.toNat
    · by_cases hnp : (if pack then true
          else decide (f.R.first.toNat ≠ roundUp endPrev
            (abiAlignBytes (f.extractContents be).typeOf * 8))) = true
      · have hstep : emitStep be pack (elts, endPrev) f =
            ((elts ++ [ConstVal.undef (unitType ((f.R.first.toNat - endPrev) / bitsPerUnit))])
              ++ [f.extractContents be],
             f.R.first.toNat + allocSizeInBits (f.extractContents be).typeOf) := by
          simp only [emitStep]
          rw [if_pos hgap, if_pos hnp]
        rw [hstep]
        have hpadend : (structPlace pack ((elts ++ [ConstVal.undef (unitType
            ((f.R.first.toNat - endPrev) / bitsPerUnit))]).map
            (fun c => typeInfo c.typeOf)) 0).2 = f.R.first.toNat / 8 := by
          rw [List.map_append]
          simp only [List.map_cons, List.map_nil]
          have hto : (ConstVal.undef (unitType ((f.R.first.toNat - endPrev)
              / bitsPerUnit))).typeOf = unitType ((f.R.first.toNat - endPrev)
              / bitsPerUnit) := rfl
          rw [hto, structPlace_end_append, hsp, typeInfo_unitType]
          have hone : (if pack = true then endPrev / 8
              else roundUp (endPrev / 8) (TypeInfo.mk
                (8 * ((f.R.first.toNat - endPrev) / bitsPerUnit)) 1).alignBytes)
              = endPrev / 8 := by
            by_cases hpc : pack = true
            · rw [if_pos hpc]
            · rw [if_neg hpc]
              exact roundUp_one _
          rw [hone]
          simp only [TypeInfo.allocBytes, TypeInfo.storeBytes, roundUp_one]
          have hbpu : bitsPerUnit = 8 := rfl
          rw [hbpu]
          omega
        have hplace2 : (structPlace pack (((elts ++ [ConstVal.undef (unitType
            ((f.R.first.toNat - endPrev) / bitsPerUnit))]) ++ [f.extractContents be]).map
            (fun c => typeInfo c.typeOf)) 0).2
            = (f.R.first.toNat + allocSizeInBits (f.extractContents be).typeOf) / 8 := by
          rw [List.map_append]
          simp only [List.map_cons, List.map_nil]
          exact hval_place _ hpadend
        refine hihrest _ hplace2 ?_
        intro c hc
        rcases List.mem_append.mp hc with hc2 | hc2
        · rcases List.mem_append.mp hc2 with hc3 | hc3
          · exact Or.inl hc3
          · simp only [List.mem_singleton] at hc3
            exact Or.inr (Or.inr ⟨_, hc3⟩)
        · simp only [List.mem_singleton] at hc2
          exact Or.inr (Or.inl hc2)
      · have hpf : pack = false := by
          cases hpc : pack
          · rfl
          · rw [hpc] at hnp
            simp at hnp
        have heqr : f.R.first.toNat = roundUp endPrev
            (abiAlignBytes (f.extractContents be).typeOf * 8) := by
          rw [hpf] at hnp
          simpa using hnp
        have hstep : emitStep be pack (elts, endPrev) f =
            (elts ++ [f.extractContents be],
             f.R.first.toNat + allocSizeInBits (f.extractContents be).typeOf) := by
          simp only [emitStep]
          rw [if_pos hgap, if_neg hnp]
        rw [hstep]
        have hru8 : roundUp endPrev (abiAlignBytes (f.extractContents be).typeOf * 8)
            = 8 * roundUp (endPrev / 8) (abiAlignBytes (f.extractContents be).typeOf) := by
          rw [Nat.mul_comm (abiAlignBytes (f.extractContents be).typeOf) 8]
          conv_lhs => rw [show endPrev = 8 * (endPrev / 8) by omega]
          exact roundUp_mul8 _ _
        have hplace : (structPlace pack ((elts ++ [f.extractContents be]).map
            (fun c => typeInfo c.typeOf)) 0).2
            = (f.R.first.toNat + allocSizeInBits (f.extractContents be).typeOf) / 8 := by
          rw [List.map_append]
          simp only [List.map_cons, List.map_nil]
          rw [structPlace_end_append, hsp]
          rw [if_neg (by rw [hpf]; exact Bool.false_ne_true)]
          have hfin : roundUp (endPrev / 8)
              (typeInfo (f.extractContents be).typeOf).alignBytes = f.R.first.toNat / 8 := by
            have : f.R.first.toNat / 8 = roundUp (endPrev / 8)
                (abiAlignBytes (f.extractContents be).typeOf) := by
              rw [heqr, hru8]
              omega
            rw [this]
            rfl
          rw [hfin, hadef]
          omega
        refine hihrest _ hplace ?_
        intro c hc
        rcases List.mem_append.mp hc with hc2 | hc2
        · exact Or.inl hc2
        · simp only [List.mem_singleton] at hc2
          exact Or.inr (Or.inl hc2)
    · have heq : endPrev = f.R.first.toNat := by omega
      have hstep : emitStep be pack (elts, endPrev) f =
          (elts ++ [f.extractContents be],
           f.R.first.toNat + allocSizeInBits (f.extractContents be).typeOf) := by
        simp only [emitStep]
        rw [if_neg hgap]
      rw [hstep]
      have hplace : (structPlace pack ((elts ++ [f.extractContents be]).map
          (fun c => typeInfo c.typeOf)) 0).2
          = (f.R.first.toNat + allocSizeInBits (f.extractContents be).typeOf) / 8 := by
        rw [List.map_append]
        simp only [List.map_cons, List.map_nil]
        exact hval_place _ (by rw [hsp, heq])
      refine hihrest _ hplace ?_
      intro c hc
      rcases List.mem_append.mp hc with hc2 | hc2
      · exact Or.inl hc2
      · simp only [List.mem_singleton] at hc2
        exact Or.inr (Or.inl hc2)

mutual
theorem getNullValue_wf : ∀ t : LLVMType, t.okT = true →
    (getNullValue t).cwfB = true ∧ (getNullValue t).typeOf = t
  | .integer w, _ => by
    constructor
    · simp only [getNullValue, ConstVal.cwfB, decide_eq_true_eq]
      positivity
    · rfl
  | .pointer e, _ => by
    constructor
    · simp only [getNullValue, ConstVal.cwfB, decide_eq_true_eq]
      norm_num
    · rfl
  | .floating k, _ => by
    constructor
    · cases k <;> decide
    · rfl
  | .array n elt, hok => by
    simp only [LLVMType.okT] at hok
    obtain ⟨hc, ht⟩ := getNullValue_wf elt hok
    constructor
    · simp only [getNullValue, ConstVal.cwfB]
      refine cwfTyped_ofList elt _ ?_
      intro x hx
      rw [List.eq_of_mem_replicate hx]
      exact ⟨hc, ht⟩
    · simp only [getNullValue, ConstVal.typeOf]
      rw [clen_ofList, List.length_replicate]
  | .strukt p elts, hok => by
    simp only [LLVMType.okT] at hok
    obtain ⟨hc, ht⟩ := getNullValueL_wf elts hok
    constructor
    · simp only [getNullValue, ConstVal.cwfB]
      exact hc
    · simp only [getNullValue, ConstVal.typeOf]
      rw [ht]
  | .vector n elt, hok => by
    simp only [LLVMType.okT, Bool.and_eq_true, decide_eq_true_eq] at hok
    obtain ⟨hn, hokelt⟩ := hok
    obtain ⟨hc, ht⟩ := getNullValue_wf elt hokelt
    constructor
    · simp only [getNullValue]
      refine cwfB_vecC_ofList _ elt ?_
      intro x hx
      rw [List.eq_of_mem_replicate hx]
      exact ⟨hc, ht⟩
    · simp only [getNullValue]
      have := typeOf_vecC_ofList (List.replicate n (getNullValue elt)) elt
        (by simp [hn]) (fun x hx => by rw [List.eq_of_mem_replicate hx]; exact ht)
      rw [this, List.length_replicate]

theorem getNullValueL_wf : ∀ ts : LLVMTypeList, okTL ts = true →
    cwfAny (getNullValueL ts) = true ∧ typeOfL (getNullValueL ts) = ts
  | .nil, _ => ⟨rfl, rfl⟩
  | .cons t ts, hok => by
    rw [okTL, Bool.and_eq_true] at hok
    obtain ⟨h1, h2⟩ := getNullValue_wf t hok.1
    obtain ⟨h3, h4⟩ := getNullValueL_wf ts hok.2
    constructor
    · simp only [getNullValueL, cwfAny, Bool.and_eq_true]
      exact ⟨h1, h3⟩
    · simp only [getNullValueL, typeOfL]
      rw [h2, h4]
end

theorem typeInfoL_typeOfL_ofList : ∀ (L : List ConstVal),
    typeInfoL (typeOfL (ConstValList.ofList L)) = L.map (fun c => typeInfo c.typeOf)
  | [] => rfl
  | c :: cs => by
    simp only [ConstValList.ofList, typeOfL, typeInfoL, List.map_cons]
    rw [typeInfoL_typeOfL_ofList cs]

theorem pow2_div8 {a : Nat} (hp : ∃ k, a = 2 ^ k) (h8 : 8 ∣ a) : ∃ j, a / 8 = 2 ^ j := by
  obtain ⟨k, rfl⟩ := hp
  have hk3 : 3 ≤ k := by
    by_contra hlt
    interval_cases k <;> revert h8 <;> decide
  refine ⟨k - 3, ?_⟩
  have : (8 : Nat) = 2 ^ 3 := rfl
  rw [this, Nat.pow_div hk3 (by norm_num)]

theorem align_div8_dvd {a s : Nat} (h8 : 8 ∣ a) (hd : a ∣ s) : a / 8 ∣ s / 8 := by
  obtain ⟨b, rfl⟩ := h8
  obtain ⟨m, rfl⟩ := hd
  have h1 : 8 * b / 8 = b := by omega
  have h2 : 8 * b * m / 8 = b * m := by
    rw [Nat.mul_assoc, Nat.mul_div_cancel_left _ (by norm_num)]
  rw [h1, h2]
  exact Dvd.intro m rfl

theorem record_assemble (be pack : Bool) (sizeN alignN : Nat)
    (elts' : List ConstVal) (endP : Nat)
    (hplace : (structPlace pack (elts'.map (fun c => typeInfo c.typeOf)) 0).2 = endP / 8)
    (h8e : 8 ∣ endP) (hele : endP ≤ sizeN)
    (hsz8 : 8 ∣ sizeN)
    (hp2 : ∃ k, alignN = 2 ^ k) (h8a : 8 ∣ alignN) (had : alignN ∣ sizeN)
    (hmem : ∀ c ∈ elts', (pack = false → abiAlignBytes c.typeOf ≤ alignN / 8) ∧
      c.cwfB = true) :
    ∀ elts1, elts1 = (if endP < sizeN then elts' ++
        [ConstVal.undef (unitType ((sizeN - endP) / bitsPerUnit))] else elts') →
    allocSizeInBits (ConstVal.structC pack (ConstValList.ofList elts1)).typeOf = sizeN ∧
    8 * abiAlignBytes (ConstVal.structC pack (ConstValList.ofList elts1)).typeOf ≤ alignN ∧
    (ConstVal.structC pack (ConstValList.ofList elts1)).cwfB = true := by
  intro elts1 helts1
  have halign8 : 8 ≤ alignN := by
    obtain ⟨k, rfl⟩ := hp2
    have h3 : 3 ≤ k := by
      by_contra hlt
      interval_cases k <;> revert h8a <;> decide
    calc (8 : Nat) = 2 ^ 3 := rfl
      _ ≤ 2 ^ k := Nat.pow_le_pow_right (by norm_num) h3
  have hdiv8 : 1 ≤ alignN / 8 := by omega
  have hmem1 : ∀ c ∈ elts1, (pack = false → abiAlignBytes c.typeOf ≤ alignN / 8) ∧
      c.cwfB = true := by
    intro c hc
    by_cases hlt : endP < sizeN
    · rw [if_pos hlt] at helts1
      subst helts1
      rcases List.mem_append.mp hc with hc2 | hc2
      · exact hmem c hc2
      · simp only [List.mem_singleton] at hc2
        subst hc2
        constructor
        · intro _
          have hau : abiAlignBytes (ConstVal.undef (unitType ((sizeN - endP)
              / bitsPerUnit))).typeOf = 1 := abiAlign_unitType _
          rw [hau]
          exact hdiv8
        · rfl
    · rw [if_neg hlt] at helts1
      subst helts1
      exact hmem c hc
  have hplace1 : (structPlace pack (elts1.map (fun c => typeInfo c.typeOf)) 0).2
      = sizeN / 8 := by
    by_cases hlt : endP < sizeN
    · rw [if_pos hlt] at helts1
      subst helts1
      rw [List.map_append]
      simp only [List.map_cons, List.map_nil]
      have hto : (ConstVal.undef (unitType ((sizeN - endP) / bitsPerUnit))).typeOf
          = unitType ((sizeN - endP) / bitsPerUnit) := rfl
      rw [hto, structPlace_end_append, hplace, typeInfo_unitType]
      have hone : (if pack = true then endP / 8
          else roundUp (endP / 8) (TypeInfo.mk
            (8 * ((sizeN - endP) / bitsPerUnit)) 1).alignBytes) = endP / 8 := by
        by_cases hpc : pack = true
        · rw [if_pos hpc]
        · rw [if_neg hpc]
          exact roundUp_one _
      rw [hone]
      simp only [TypeInfo.allocBytes, TypeInfo.storeBytes, roundUp_one]
      have hbpu : bitsPerUnit = 8 := rfl
      rw [hbpu]
      omega
    · rw [if_neg hlt] at helts1
      subst helts1
      rw [hplace]
      omega
  have htoS : (ConstVal.structC pack (ConstValList.ofList elts1)).typeOf
      = .strukt pack (typeOfL (ConstValList.ofList elts1)) := rfl
  have hinfos : typeInfoL (typeOfL (ConstValList.ofList elts1))
      = elts1.map (fun c => typeInfo c.typeOf) := typeInfoL_typeOfL_ofList elts1
  have hal_le : pack = false →
      structAlignBytes pack (elts1.map (fun c => typeInfo c.typeOf)) ≤ alignN / 8 := by
    intro hpf
    rw [structAlignBytes, if_neg (by rw [hpf]; exact Bool.false_ne_true)]
    refine foldl_max_le TypeInfo.alignBytes _ 1 (alignN / 8) hdiv8 ?_
    intro i hi
    rw [List.mem_map] at hi
    obtain ⟨c, hc, rfl⟩ := hi
    exact (hmem1 c hc).1 hpf
  have hal_pos : 0 < structAlignBytes pack (elts1.map (fun c => typeInfo c.typeOf)) := by
    rw [structAlignBytes]
    by_cases hpc : pack = true
    · rw [if_pos hpc]
      norm_num
    · rw [if_neg hpc]
      exact lt_of_lt_of_le (by norm_num) (foldl_max_ge TypeInfo.alignBytes _ 1)
  have hal_dvd : structAlignBytes pack (elts1.map (fun c => typeInfo c.typeOf))
      ∣ sizeN / 8 := by
    rw [structAlignBytes]
    by_cases hpc : pack = true
    · rw [if_pos hpc]
      exact one_dvd _
    · rw [if_neg hpc]
      have hpow : ∃ k, (elts1.map (fun c => typeInfo c.typeOf)).foldl
          (fun a i => max a i.alignBytes) 1 = 2 ^ k := by
        refine foldl_max_pow2 TypeInfo.alignBytes _ 1 ⟨0, rfl⟩ ?_
        intro i hi
        rw [List.mem_map] at hi
        obtain ⟨c, hc, rfl⟩ := hi
        exact abiAlign_pow2 c.typeOf
      refine dvd_trans (pow2_dvd hpow (pow2_div8 hp2 h8a) ?_) (align_div8_dvd h8a had)
      have := hal_le (by revert hpc; cases pack <;> simp)
      rw [structAlignBytes, if_neg hpc] at this
      exact this
  refine ⟨?_, ?_, ?_⟩
  · rw [htoS]
    simp only [allocSizeInBits, typeInfo]
    rw [hinfos, hplace1, roundUp_eq_of_dvd hal_pos hal_dvd]
    simp only [TypeInfo.allocBytes, TypeInfo.storeBytes]
    have h1 : (8 * (sizeN / 8) + 7) / 8 = sizeN / 8 := by omega
    rw [h1, roundUp_eq_of_dvd hal_pos hal_dvd]
    omega
  · rw [htoS]
    simp only [abiAlignBytes, typeInfo]
    rw [hinfos]
    by_cases hpc : pack = true
    · rw [structAlignBytes, if_pos hpc]
      omega
    · have := hal_le (by revert hpc; cases pack <;> simp)
      omega
  · simp only [ConstVal.cwfB]
    refine cwfAny_ofList _ ?_
    intro c hc
    exact (hmem1 c hc).2

theorem pow2_mul8_ge {a : Nat} (hp2 : ∃ k, a = 2 ^ k) (h8 : 8 ∣ a) : 8 ≤ a := by
  obtain ⟨k, rfl⟩ := hp2
  have h3 : 3 ≤ k := by
    by_contra hlt
    interval_cases k <;> revert h8 <;> decide
  calc (8 : Nat) = 2 ^ 3 := rfl
    _ ≤ 2 ^ k := Nat.pow_le_pow_right (by norm_num) h3

theorem bChain_mem (size : Int) :
    ∀ (l : List FieldContents) (lo : Int), bChain size lo l →
      ∀ f ∈ l, f.fwfB = true ∧ (8 : Int) ∣ f.R.first ∧ (8 : Int) ∣ f.R.last ∧
        f.R.first < f.R.last
  | [], _, _ => by intro f hf; cases hf
  | g :: gs, lo, hc => by
    intro f hf
    obtain ⟨h1, h2, h3, h4, h5, h6, h7⟩ := hc
    rcases List.mem_cons.mp hf with rfl | hf2
    · exact ⟨h6, h4, h5, h2⟩
    · exact bChain_mem size gs g.R.last h7 f hf2

theorem chain0_le (size : Int) :
    ∀ (l : List FieldContents) (lo : Int), bChain size lo l → 0 ≤ lo →
      ∀ f ∈ l, 0 ≤ f.R.first
  | [], _, _, _ => by intro f hf; cases hf
  | g :: gs, lo, hc, h0 => by
    intro f hf
    obtain ⟨h1, h2, h3, h4, h5, h6, h7⟩ := hc
    rcases List.mem_cons.mp hf with rfl | hf2
    · omega
    · exact chain0_le size gs g.R.last h7 (by omega) f hf2

theorem convertRecord_wf (be flag : Bool) (rty : GccType)
    (inits : List (GccField × ConstVal))
    (hp2 : ∃ k, rty.align = 2 ^ k)
    (h8a : 8 ∣ rty.align)
    (had : rty.align ∣ allocSizeInBits (convertType rty))
    (hflds : ∀ fd ∈ rty.fieldsOf,
      fd.offset + fd.declSize ≤ allocSizeInBits (convertType rty) ∧
      (convertType fd.fty).okT = true)
    (hinits : ∀ p ∈ inits,
      p.1.offset + p.1.declSize ≤ allocSizeInBits (convertType rty) ∧ p.2.cwfB = true) :
    allocSizeInBits (convertRecordCONSTRUCTOR be flag rty inits).typeOf
        = allocSizeInBits (convertType rty) ∧
    8 * abiAlignBytes (convertRecordCONSTRUCTOR be flag rty inits).typeOf ≤ rty.align ∧
    (convertRecordCONSTRUCTOR be flag rty inits).cwfB = true := by
  have hch0 : chainOK (allocSizeInBits (convertType rty) : Int) 0
        (if flag = true then rty.fieldsOf.foldl (fun l fd => addInterval be l
          (FieldContents.get fd.offset (fd.offset + fd.declSize)
            (getNullValue (convertType fd.fty)))) ([] : List FieldContents) else []) ∧
      (∀ f ∈ (if flag = true then rty.fieldsOf.foldl (fun l fd => addInterval be l
          (FieldContents.get fd.offset (fd.offset + fd.declSize)
            (getNullValue (convertType fd.fty)))) ([] : List FieldContents) else []),
        f.fwfB = true) := by
    by_cases hf : flag = true
    · rw [if_pos hf]
      refine foldl_pres (fun l => chainOK (allocSizeInBits (convertType rty) : Int) 0 l ∧
        ∀ f ∈ l, f.fwfB = true) _ _ _ ⟨trivial, by simp⟩ ?_
      intro l fd hl hmemf
      obtain ⟨hfd1, hfd2⟩ := hflds fd hmemf
      refine addInterval_chain be _ l _ hl.1 hl.2 ?_ ?_ ?_
      · show (getNullValue (convertType fd.fty)).cwfB = true
        exact (getNullValue_wf _ hfd2).1
      · show (0 : Int) ≤ (fd.offset : Int)
        positivity
      · show ((fd.offset : Int) + (fd.declSize : Int))
          ≤ (allocSizeInBits (convertType rty) : Int)
        exact_mod_cast hfd1
    · rw [if_neg hf]
      exact ⟨trivial, by simp⟩
  have hch1 : chainOK (allocSizeInBits (convertType rty) : Int) 0
        (inits.foldl (fun l fi => addInterval be l
          (FieldContents.get fi.1.offset (fi.1.offset + fi.1.declSize) fi.2))
          (if flag = true then rty.fieldsOf.foldl (fun l fd => addInterval be l
            (FieldContents.get fd.offset (fd.offset + fd.declSize)
              (getNullValue (convertType fd.fty)))) ([] : List FieldContents) else [])) ∧
      (∀ f ∈ inits.foldl (fun l fi => addInterval be l
          (FieldContents.get fi.1.offset (fi.1.offset + fi.1.declSize) fi.2))
          (if flag = true then rty.fieldsOf.foldl (fun l fd => addInterval be l
            (FieldContents.get fd.offset (fd.offset + fd.declSize)
              (getNullValue (convertType fd.fty)))) ([] : List FieldContents) else []),
        f.fwfB = true) := by
    refine foldl_pres (fun l => chainOK (allocSizeInBits (convertType rty) : Int) 0 l ∧
      ∀ f ∈ l, f.fwfB = true) _ _ _ hch0 ?_
    intro l fi hl hmemf
    obtain ⟨hfi1, hfi2⟩ := hinits fi hmemf
    refine addInterval_chain be _ l _ hl.1 hl.2 ?_ ?_ ?_
    · show fi.2.cwfB = true
      exact hfi2
    · show (0 : Int) ≤ (fi.1.offset : Int)
      positivity
    · show ((fi.1.offset : Int) + (fi.1.declSize : Int))
        ≤ (allocSizeInBits (convertType rty) : Int)
      exact_mod_cast hfi1
  have hsz8 : 8 ∣ allocSizeInBits (convertType rty) := alloc_dvd8 _
  have hsz8i : (8 : Int) ∣ (allocSizeInBits (convertType rty) : Int) := by
    exact_mod_cast hsz8
  have hbcf : bChain (allocSizeInBits (convertType rty) : Int) 0
      (alignBoundaries be bitsPerUnit
        (inits.foldl (fun l fi => addInterval be l
          (FieldContents.get fi.1.offset (fi.1.offset + fi.1.declSize) fi.2))
          (if flag = true then rty.fieldsOf.foldl (fun l fd => addInterval be l
            (FieldContents.get fd.offset (fd.offset + fd.declSize)
              (getNullValue (convertType fd.fty)))) ([] : List FieldContents) else []))) := by
    have hbpu : bitsPerUnit = 8 := rfl
    rw [hbpu]
    exact alignBoundaries_bChain be _ hsz8i _ hch1.1 hch1.2
  simp only [convertRecordCONSTRUCTOR]
  generalize hL : alignBoundaries be bitsPerUnit
      (inits.foldl (fun l fi => addInterval be l
        (FieldContents.get fi.1.offset (fi.1.offset + fi.1.declSize) fi.2))
        (if flag = true then rty.fieldsOf.foldl (fun l fd => addInterval be l
          (FieldContents.get fd.offset (fd.offset + fd.declSize)
            (getNullValue (convertType fd.fty)))) ([] : List FieldContents) else [])) = L
  rw [hL] at hbcf
  generalize hP : L.any (fun f =>
      decide (rty.align < abiAlignBytes (f.extractContents be).typeOf * 8) ||
      decide (f.R.first.toNat % (abiAlignBytes (f.extractContents be).typeOf * 8) ≠ 0)) = pk
  have hpkcond : pk = false → ∀ f ∈ L,
      abiAlignBytes (f.extractContents be).typeOf * 8 ≤ rty.align ∧
      f.R.first.toNat % (abiAlignBytes (f.extractContents be).typeOf * 8) = 0 := by
    intro hpf f hf
    rw [← hP] at hpf
    rw [List.any_eq_false] at hpf
    have h2 := hpf f hf
    simp only [Bool.or_eq_true, decide_eq_true_eq, not_or, not_lt,
      Decidable.not_not] at h2
    exact ⟨h2.1, h2.2⟩
  obtain ⟨he1, he2, he3, he4⟩ := emit_fold be pk (allocSizeInBits (convertType rty) : Int)
    L [] 0 0 hbcf (by norm_num) (by positivity) (by norm_num) rfl
    (fun hpf f hf => (hpkcond hpf f hf).2)
  have hele : (L.foldl (emitStep be pk) ([], 0)).2 ≤ allocSizeInBits (convertType rty) := by
    exact_mod_cast he3
  have hmem : ∀ c ∈ (L.foldl (emitStep be pk) ([], 0)).1,
      (pk = false → abiAlignBytes c.typeOf ≤ rty.align / 8) ∧ c.cwfB = true := by
    intro c hc
    rcases he4 c hc with hc2 | ⟨f, hf, rfl⟩ | ⟨u, rfl⟩
    · cases hc2
    · obtain ⟨hfw, hd1, hd2, hlt⟩ := bChain_mem _ L 0 hbcf f hf
      have hw8 : f.R.getWidth % 8 = 0 := by
        simp only [SRange.getWidth]
        omega
      obtain ⟨_, hcw⟩ := extractContents_wf be f (fwfB_imp_cwfhyp f hfw) hw8
      refine ⟨?_, hcw⟩
      intro hpf
      have := (hpkcond hpf f hf).1
      omega
    · refine ⟨?_, rfl⟩
      intro _
      have hau : abiAlignBytes (ConstVal.undef (unitType u)).typeOf = 1 :=
        abiAlign_unitType _
      rw [hau]
      have := pow2_mul8_ge hp2 h8a
      omega
  exact record_assemble be pk (allocSizeInBits (convertType rty)) rty.align
    (L.foldl (emitStep be pk) ([], 0)).1 (L.foldl (emitStep be pk) ([], 0)).2
    he1 he2 hele hsz8 hp2 h8a had hmem _ rfl

theorem alloc_array (n : Nat) (E : LLVMType) :
    allocSizeInBits (.array n E) = n * allocSizeInBits E := by
  have hstore : (typeInfo (.array n E)).storeBytes = n * (typeInfo E).allocBytes := by
    simp only [typeInfo, TypeInfo.storeBytes]
    have hr : n * (8 * (typeInfo E).allocBytes) = 8 * (n * (typeInfo E).allocBytes) := by
      ring
    rw [hr]
    omega
  have halign : (typeInfo (.array n E)).alignBytes = (typeInfo E).alignBytes := by
    simp [typeInfo]
  have hab : (typeInfo (.array n E)).allocBytes = n * (typeInfo E).allocBytes := by
    have h0 : (typeInfo (.array n E)).allocBytes
        = roundUp (typeInfo (.array n E)).storeBytes (typeInfo (.array n E)).alignBytes :=
      rfl
    rw [h0, hstore, halign]
    exact roundUp_eq_of_dvd (alignBytes_pos E)
      (Dvd.dvd.mul_left (align_dvd_allocBytes (typeInfo E)) n)
  simp only [allocSizeInBits]
  rw [hab]
  ring

theorem structPlace_uniform (pack : Bool) (ab : Nat) :
    ∀ (L : List TypeInfo) (off : Nat), ab ∣ off →
      (∀ i ∈ L, i.allocBytes = ab ∧ i.alignBytes ∣ ab ∧ 0 < i.alignBytes) →
      (structPlace pack L off).2 = off + L.length * ab
  | [], off, _, _ => by simp [structPlace]
  | i :: is, off, hoff, hL => by
    obtain ⟨hi1, hi2, hi3⟩ := hL i (by simp)
    have ho : (if pack = true then off else roundUp off i.alignBytes) = off := by
      by_cases hpc : pack = true
      · rw [if_pos hpc]
      · rw [if_neg hpc]
        exact roundUp_eq_of_dvd hi3 (dvd_trans hi2 hoff)
    simp only [structPlace]
    rw [ho, hi1]
    have := structPlace_uniform pack ab is (off + ab) (by
      obtain ⟨k, rfl⟩ := hoff
      exact ⟨k + 1, by ring⟩) (fun j hj => hL j (by simp [hj]))
    rw [this]
    simp only [List.length_cons]
    ring

theorem nextPow2_ge (n : Nat) : n ≤ nextPow2 n := by
  rcases Nat.eq_zero_or_pos n with rfl | hp
  · simp [nextPow2]
  · exact Nat.le_pow_clog (by norm_num) n

theorem length_fillRange (l : List (Option ConstVal)) (lo hi : Nat) (v : Option ConstVal) :
    (fillRange l lo hi v).length = l.length := by
  simp [fillRange]

theorem mem_fillRange {l : List (Option ConstVal)} {lo hi : Nat} {v : Option ConstVal}
    {x : Option ConstVal} (h : x ∈ fillRange l lo hi v) : x = v ∨ x ∈ l := by
  rw [fillRange, List.mapIdx_eq_enum_map] at h
  rw [List.mem_map] at h
  obtain ⟨p, hp, hx⟩ := h
  rw [List.enum_eq_zip_range] at hp
  have hp2 : p.2 ∈ l := (List.of_mem_zip hp).2
  obtain ⟨i, a⟩ := p
  simp only [Function.uncurry] at hx
  split at hx
  · exact Or.inl hx.symm
  · exact Or.inr (hx ▸ hp2)

theorem arrStep_char (eltSize : Nat) (st : List (Option ConstVal) × Nat)
    (e : CtorIdx × ConstVal) (hsz : ¬(allocSizeInBits e.2.typeOf < eltSize))
    (hlen : (resolveIdx e.1 st.2).2 < st.1.length) :
    arrStep eltSize st e = (fillRange st.1 (resolveIdx e.1 st.2).1
      (resolveIdx e.1 st.2).2 (some e.2), (resolveIdx e.1 st.2).2 + 1) := by
  obtain ⟨l, nxt⟩ := st
  obtain ⟨idx, v⟩ := e
  simp only [resolveIdx] at hlen ⊢
  simp only [arrStep]
  rw [if_neg hsz]
  cases idx <;> simp only <;> rw [if_neg (by simp only at hlen; omega)]

theorem arrStep_fold (eltSize : Nat) :
    ∀ (entries : List (CtorIdx × ConstVal)) (st : List (Option ConstVal) × Nat),
      entsIdxOK st.1.length st.2 entries →
      (∀ e ∈ entries, ¬(allocSizeInBits e.2.typeOf < eltSize)) →
      (entries.foldl (arrStep eltSize) st).1.length = st.1.length ∧
      (∀ o ∈ (entries.foldl (arrStep eltSize) st).1,
        o ∈ st.1 ∨ ∃ e ∈ entries, o = some e.2) := by
  intro entries
  induction entries with
  | nil => intro st _ _; exact ⟨rfl, fun o ho => Or.inl ho⟩
  | cons e es ih =>
    intro st hidx hsz
    obtain ⟨hi1, hi2, hi3⟩ := hidx
    have hchar := arrStep_char eltSize st e (hsz e (by simp)) hi2
    simp only [List.foldl_cons]
    rw [hchar]
    have hlen2 : (fillRange st.1 (resolveIdx e.1 st.2).1 (resolveIdx e.1 st.2).2
        (some e.2)).length = st.1.length := length_fillRange _ _ _ _
    obtain ⟨ihl, ihm⟩ := ih (fillRange st.1 (resolveIdx e.1 st.2).1
        (resolveIdx e.1 st.2).2 (some e.2), (resolveIdx e.1 st.2).2 + 1)
      (by rw [hlen2]; exact hi3) (fun e2 he2 => hsz e2 (by simp [he2]))
    refine ⟨by rw [ihl, hlen2], ?_⟩
    intro o ho
    rcases ihm o ho with ho2 | ⟨e2, he2, ho2⟩
    · rcases mem_fillRange ho2 with ho3 | ho3
      · exact Or.inr ⟨e, by simp, ho3⟩
      · exact Or.inl ho3
    · exact Or.inr ⟨e2, by simp [he2], ho2⟩

theorem convertArray_wf (ity : GccType) (entries : List (CtorIdx × ConstVal))
    (hokI : (convertType ity).okT = true)
    (hokE : (convertType ity.eltType).okT = true)
    (hp2 : ∃ k, ity.align = 2 ^ k) (h8a : 8 ∣ ity.align)
    (hp2e : ∃ k, ity.eltType.align = 2 ^ k) (h8e : 8 ∣ ity.eltType.align)
    (healign : ity.eltType.align ≤ ity.align)
    (hedvd : ity.eltType.align ∣ allocSizeInBits (convertType ity.eltType))
    (had : ity.align ∣ allocSizeInBits (convertType ity))
    (habi : 8 * abiAlignBytes (convertType ity) ≤ ity.align)
    (habiE : 8 * abiAlignBytes (convertType ity.eltType) ≤ ity.eltType.align)
    (hts_ge : ity.count * allocSizeInBits (convertType ity.eltType)
        ≤ allocSizeInBits (convertType ity))
    (hvecTy : ity.isVec = true → convertType ity
        = .vector ity.count (convertType ity.eltType))
    (hidx : entsIdxOK ity.count 0 entries)
    (hents : ∀ e ∈ entries, allocSizeInBits e.2.typeOf
        = allocSizeInBits (convertType ity.eltType) ∧ e.2.cwfB = true ∧
        8 * abiAlignBytes e.2.typeOf ≤ ity.eltType.align)
    (hvec_typed : ity.isVec = true → ∀ e ∈ entries,
        e.2.typeOf = convertType ity.eltType) :
    allocSizeInBits (convertArrayCONSTRUCTOR ity entries).typeOf
        = allocSizeInBits (convertType ity) ∧
    8 * abiAlignBytes (convertArrayCONSTRUCTOR ity entries).typeOf ≤ ity.align ∧
    (convertArrayCONSTRUCTOR ity entries).cwfB = true := by
  have halign8 : 8 ≤ ity.align := pow2_mul8_ge hp2 h8a
  have healign8 : 8 ≤ ity.eltType.align := pow2_mul8_ge hp2e h8e
  obtain ⟨hlen0, hmem0⟩ := arrStep_fold (allocSizeInBits (convertType ity.eltType))
    entries (List.replicate ity.count (none : Option ConstVal), 0)
    (by rw [List.length_replicate]; exact hidx)
    (fun e he => by rw [(hents e he).1]; omega)
  rw [List.length_replicate] at hlen0
  simp only [convertArrayCONSTRUCTOR]
  by_cases hz : (entries.foldl (arrStep (allocSizeInBits (convertType ity.eltType)))
      (List.replicate ity.count none, 0)).1.length = 0
  · rw [if_pos hz]
    simp only [getDefaultValue]
    obtain ⟨hnc, hnt⟩ := getNullValue_wf (convertType ity) hokI
    refine ⟨by rw [hnt], by rw [hnt]; exact habi, hnc⟩
  · rw [if_neg hz]
    -- facts about the defaulted element list
    obtain ⟨hdc, hdt⟩ := getNullValue_wf (convertType ity.eltType) hokE
    have hmem1 : ∀ c ∈ (entries.foldl (arrStep (allocSizeInBits
        (convertType ity.eltType))) (List.replicate ity.count none, 0)).1.map
        (fun o => o.getD (getDefaultValue (convertType ity.eltType))),
        allocSizeInBits c.typeOf = allocSizeInBits (convertType ity.eltType) ∧
        c.cwfB = true ∧ 8 * abiAlignBytes c.typeOf ≤ ity.eltType.align ∧
        (ity.isVec = true → c.typeOf = convertType ity.eltType) := by
      intro c hc
      rw [List.mem_map] at hc
      obtain ⟨o, ho, rfl⟩ := hc
      rcases hmem0 o ho with ho2 | ⟨e, he, rfl⟩
      · have : o = none := List.eq_of_mem_replicate ho2
        subst this
        simp only [Option.getD_none, getDefaultValue]
        exact ⟨by rw [hdt], hdc, by rw [hdt]; exact habiE, fun _ => hdt⟩
      · simp only [Option.getD_some]
        obtain ⟨he1, he2, he3⟩ := hents e he
        exact ⟨he1, he2, he3, fun hv => hvec_typed hv e he⟩
    have hlen1 : ((entries.foldl (arrStep (allocSizeInBits
        (convertType ity.eltType))) (List.replicate ity.count none, 0)).1.map
        (fun o => o.getD (getDefaultValue (convertType ity.eltType)))).length
        = ity.count := by
      rw [List.length_map, hlen0]
    -- abbreviations by generalization
    generalize hE1 : (entries.foldl (arrStep (allocSizeInBits
        (convertType ity.eltType))) (List.replicate ity.count none, 0)).1.map
        (fun o => o.getD (getDefaultValue (convertType ity.eltType))) = elts1
    rw [hE1] at hmem1 hlen1
    rw [hlen0] at hz
    rw [hlen0]
    have hcount : 0 < ity.count := by omega
    have hne : elts1 ≠ [] := by
      intro hcon
      rw [hcon] at hlen1
      simp only [List.length_nil] at hlen1
      omega
    have hhd : elts1.headD (getDefaultValue (convertType ity.eltType)) ∈ elts1 := by
      cases elts1 with
      | nil => exact absurd rfl hne
      | cons a as => simp
    obtain ⟨hA1, hA2, hA3, hA4⟩ := hmem1 _ hhd
    generalize hA : (elts1.headD (getDefaultValue (convertType ity.eltType))).typeOf = A
    rw [hA] at hA1 hA3 hA4
    have hEdvd8 : 8 ∣ allocSizeInBits (convertType ity.eltType) := alloc_dvd8 _
    have hinfo : ∀ i ∈ elts1.map (fun c => typeInfo c.typeOf),
        i.allocBytes = allocSizeInBits (convertType ity.eltType) / 8 ∧
        i.alignBytes ∣ allocSizeInBits (convertType ity.eltType) / 8 ∧
        0 < i.alignBytes := by
      intro i hi
      rw [List.mem_map] at hi
      obtain ⟨c, hc, rfl⟩ := hi
      obtain ⟨hc1, hc2, hc3, _⟩ := hmem1 c hc
      have hcd8 : 8 ∣ allocSizeInBits c.typeOf := alloc_dvd8 _
      have hab : allocSizeInBits c.typeOf = 8 * (typeInfo c.typeOf).allocBytes := rfl
      refine ⟨by omega, ?_, ?_⟩
      · have hpA : ∃ k, abiAlignBytes c.typeOf = 2 ^ k := abiAlign_pow2 c.typeOf
        have hle : abiAlignBytes c.typeOf ≤ ity.eltType.align / 8 := by omega
        exact dvd_trans (pow2_dvd hpA (pow2_div8 hp2e h8e) hle)
          (align_div8_dvd h8e hedvd)
      · obtain ⟨k, hk⟩ := abiAlign_pow2 c.typeOf
        have : (0:Nat) < 2 ^ k := Nat.pos_pow_of_pos k (by norm_num)
        have hai : (typeInfo c.typeOf).alignBytes = abiAlignBytes c.typeOf := rfl
        omega
    have hplace : ∀ pk : Bool,
        (structPlace pk (elts1.map (fun c => typeInfo c.typeOf)) 0).2
          = ity.count * allocSizeInBits (convertType ity.eltType) / 8 := by
      intro pk
      have h := structPlace_uniform pk (allocSizeInBits (convertType ity.eltType) / 8)
        (elts1.map (fun c => typeInfo c.typeOf)) 0 (dvd_zero _) hinfo
      rw [List.length_map, hlen1] at h
      rw [h, Nat.mul_div_assoc ity.count hEdvd8]
      omega
    have hmemP : ∀ (pk : Bool) (c : ConstVal), c ∈ elts1 →
        (pk = false → abiAlignBytes c.typeOf ≤ ity.align / 8) ∧ c.cwfB = true := by
      intro pk c hc
      obtain ⟨_, hc2, hc3, _⟩ := hmem1 c hc
      exact ⟨fun _ => by omega, hc2⟩
    split
    · refine record_assemble false _ _ ity.align elts1
        (ity.count * allocSizeInBits (convertType ity.eltType))
        (hplace _) (Dvd.dvd.mul_left hEdvd8 _) hts_ge (alloc_dvd8 _)
        hp2 h8a had (hmemP _) _ ?_
      by_cases hpd : ity.count * allocSizeInBits (convertType ity.eltType)
          < allocSizeInBits (convertType ity)
      · rw [if_pos (decide_eq_true hpd), if_pos hpd]
      · rw [decide_eq_false hpd, if_neg Bool.false_ne_true, if_neg hpd]
    · next hcond =>
      rw [Bool.not_eq_true, Bool.or_eq_false_iff, Bool.or_eq_false_iff] at hcond
      obtain ⟨⟨hUS, hPD⟩, hPK⟩ := hcond
      have hall : ∀ e ∈ elts1, e.typeOf = A := by
        intro e he
        have := List.any_eq_false.mp hUS e he
        simpa using this
      have hszeq : allocSizeInBits (convertType ity)
          = ity.count * allocSizeInBits (convertType ity.eltType) := by
        have := of_decide_eq_false hPD
        omega
      rw [hPD, if_neg Bool.false_ne_true]
      split
      · next hvc =>
        obtain ⟨hAeq, hvec⟩ := hvc
        have htv := typeOf_vecC_ofList elts1 (convertType ity.eltType) hne
          (fun x hx => by rw [hall x hx, hAeq])
        rw [hlen1] at htv
        have hcv : convertType ity = .vector ity.count (convertType ity.eltType) :=
          hvecTy hvec
        refine ⟨?_, ?_, ?_⟩
        · rw [htv, hcv]
        · rw [htv, ← hcv]
          exact habi
        · exact cwfB_vecC_ofList elts1 (convertType ity.eltType)
            (fun x hx => ⟨(hmem1 x hx).2.1, by rw [hall x hx, hAeq]⟩)
      · have hta : (ConstVal.arrC A (ConstValList.ofList elts1)).typeOf
            = .array ity.count A := by
          simp only [ConstVal.typeOf]
          rw [clen_ofList, hlen1]
        refine ⟨?_, ?_, ?_⟩
        · rw [hta, alloc_array, hA1]
          omega
        · rw [hta]
          have haa : abiAlignBytes (LLVMType.array ity.count A) = abiAlignBytes A := by
            simp [abiAlignBytes, typeInfo]
          rw [haa]
          omega
        · simp only [ConstVal.cwfB]
          exact cwfTyped_ofList A elts1 (fun x hx => ⟨(hmem1 x hx).2.1, hall x hx⟩)

/-- Every byte produced by the little-endian encoder is below 256. -/
theorem encodeBytesLE_lt : ∀ n v, ∀ b ∈ encodeBytesLE n v, b < 256
  | 0, _ => by intro b hb; cases hb
  | n+1, v => by
    intro b hb
    rw [encodeBytesLE] at hb
    rcases List.mem_cons.mp hb with rfl | hb2
    · exact Nat.mod_lt _ (by norm_num)
    · exact encodeBytesLE_lt n (v / 256) b hb2

theorem convertCST_cwf (be : Bool) (ty : GccType) (v : Nat) :
    (convertCST be ty v).cwfB = true := by
  simp only [convertCST, ConstVal.cwfB]
  apply cwfTyped_ofList
  intro x hx
  rw [List.mem_map] at hx
  obtain ⟨b, hb, rfl⟩ := hx
  have hb2 : b < 256 := by
    by_cases hbe : be = true
    · rw [if_pos hbe, List.mem_reverse] at hb
      exact encodeBytesLE_lt _ _ b hb
    · rw [if_neg hbe] at hb
      exact encodeBytesLE_lt _ _ b hb
  exact ⟨by simp only [ConstVal.cwfB]; exact decide_eq_true (by omega), rfl⟩

theorem wfTcore_spec {t : GccType} (h : wfTcore t = true) :
    (∃ k, t.align = 2 ^ k) ∧ 8 ∣ t.align ∧
    t.align ∣ allocSizeInBits (convertType t) ∧
    8 * abiAlignBytes (convertType t) ≤ t.align ∧
    (convertType t).okT = true := by
  simp only [wfTcore, Bool.and_eq_true, decide_eq_true_eq] at h
  exact ⟨(isPow2_spec _).mp h.1.1.1.1, h.1.1.1.2, h.1.1.2, h.1.2, h.2⟩

theorem wfT_core : ∀ t : GccType, t.wfT = true → wfTcore t = true
  | .intTy p s a u => fun h => h
  | .arrTy e n a => by
    intro h
    simp only [GccType.wfT, Bool.and_eq_true] at h
    exact h.1.1.1
  | .vecTy e n a => by
    intro h
    simp only [GccType.wfT, Bool.and_eq_true] at h
    exact h.1.1.1.1
  | .recTy k fs s a => by
    intro h
    simp only [GccType.wfT, Bool.and_eq_true] at h
    exact h.1

theorem wfFieldsB_mem (ub : Nat) : ∀ fs : GccFieldList, wfFieldsB ub fs = true →
    ∀ f ∈ fs.toList, f.offset + f.declSize ≤ ub ∧ (convertType f.fty).okT = true
  | .nil => by intro _ f hf; cases hf
  | .cons g gs => by
    intro h f hf
    simp only [wfFieldsB, Bool.and_eq_true, decide_eq_true_eq] at h
    rcases List.mem_cons.mp hf with rfl | hf2
    · exact ⟨h.1.1, h.1.2⟩
    · exact wfFieldsB_mem ub gs h.2 f hf2

mutual
/-- The top-level contract of `ConvertInitializer` on well-formed expressions:
the result is well formed, its allocation size equals the converted type's
allocation size, its ABI alignment (in bits) stays within the declared
alignment, and for integer-typed expressions its type is exactly the converted
type. -/
theorem convertInitializer_wf (be flag : Bool) :
    ∀ e : GccExpr, wfE e = true →
      allocSizeInBits (convertInitializer be flag e).typeOf
          = allocSizeInBits (convertType (gccTypeOf e)) ∧
      8 * abiAlignBytes (convertInitializer be flag e).typeOf ≤ (gccTypeOf e).align ∧
      (convertInitializer be flag e).cwfB = true ∧
      ((gccTypeOf e).isIntTy = true →
        (convertInitializer be flag e).typeOf = convertType (gccTypeOf e))
  | .intCst ty v => by
    intro hwf
    have hwt : ty.wfT = true := hwf
    obtain ⟨hp2, h8a, had, habi, hokc⟩ := wfTcore_spec (wfT_core ty hwt)
    have hcst := convertCST_cwf be ty v
    obtain ⟨hty, hcwf⟩ :=
      interpretAsType_wf be (convertCST be ty v) (convertType ty) 0 hokc hcst
    simp only [convertInitializer, gccTypeOf]
    exact ⟨by rw [hty], by rw [hty]; exact habi, hcwf, fun _ => hty⟩
  | .ctor ty elts => by
    intro hwf
    simp only [wfE, Bool.and_eq_true] at hwf
    obtain ⟨hwt, helts⟩ := hwf
    obtain ⟨hp2, h8a, had, habi, hokc⟩ := wfTcore_spec (wfT_core ty hwt)
    cases elts with
    | nil =>
      simp only [convertInitializer, gccTypeOf, getDefaultValue]
      obtain ⟨hnc, hnt⟩ := getNullValue_wf (convertType ty) hokc
      exact ⟨by rw [hnt], by rw [hnt]; exact habi, hnc, fun _ => hnt⟩
    | cons i v rest =>
      cases ty with
      | intTy p s a u =>
        simp only [convertInitializer, gccTypeOf, ConstVal.typeOf]
        exact ⟨by trivial, habi, by trivial, fun _ => by trivial⟩
      | arrTy e n a =>
        simp only [GccType.wfT, Bool.and_eq_true, decide_eq_true_eq] at hwt
        obtain ⟨⟨⟨_, hwte⟩, healign⟩, hts⟩ := hwt
        have harr : wfArrElts e n 0 (CtorElts.cons i v rest) = true := helts
        obtain ⟨hidx, hents⟩ :=
          ctorValsArr_wf be flag e n (CtorElts.cons i v rest) 0 harr
        obtain ⟨hp2e, h8e, hedvd, habiE, hokE⟩ := wfTcore_spec (wfT_core e hwte)
        have hres := convertArray_wf (.arrTy e n a)
          (convertCtorValsArr be flag e (CtorElts.cons i v rest))
          hokc hokE hp2 h8a hp2e h8e healign hedvd had habi habiE hts
          (fun hv => by simp [GccType.isVec] at hv)
          hidx
          (fun p hp => ⟨(hents p hp).1, (hents p hp).2.1, (hents p hp).2.2.1⟩)
          (fun hv => by simp [GccType.isVec] at hv)
        simp only [convertInitializer, gccTypeOf]
        exact ⟨hres.1, hres.2.1, hres.2.2,
          fun hint => by simp [GccType.isIntTy] at hint⟩
      | vecTy e n a =>
        simp only [GccType.wfT, Bool.and_eq_true, decide_eq_true_eq] at hwt
        obtain ⟨⟨⟨⟨_, hwte⟩, hint⟩, healign⟩, hts⟩ := hwt
        have harr : wfArrElts e n 0 (CtorElts.cons i v rest) = true := helts
        obtain ⟨hidx, hents⟩ :=
          ctorValsArr_wf be flag e n (CtorElts.cons i v rest) 0 harr
        obtain ⟨hp2e, h8e, hedvd, habiE, hokE⟩ := wfTcore_spec (wfT_core e hwte)
        have hres := convertArray_wf (.vecTy e n a)
          (convertCtorValsArr be flag e (CtorElts.cons i v rest))
          hokc hokE hp2 h8a hp2e h8e healign hedvd had habi habiE hts
          (fun _ => rfl)
          hidx
          (fun p hp => ⟨(hents p hp).1, (hents p hp).2.1, (hents p hp).2.2.1⟩)
          (fun _ p hp => (hents p hp).2.2.2 hint)
        simp only [convertInitializer, gccTypeOf]
        exact ⟨hres.1, hres.2.1, hres.2.2,
          fun hi => by simp [GccType.isIntTy] at hi⟩
      | recTy k fs s a =>
        simp only [GccType.wfT, Bool.and_eq_true] at hwt
        have hrec : wfRecElts (allocSizeInBits (convertType (.recTy k fs s a)))
            (CtorElts.cons i v rest) = true := helts
        have hinits := ctorValsRec_wf be flag
          (allocSizeInBits (convertType (.recTy k fs s a)))
          (CtorElts.cons i v rest) hrec
        have hflds := wfFieldsB_mem _ fs hwt.2
        have hres := convertRecord_wf be flag (.recTy k fs s a)
          (convertCtorValsRec be flag (CtorElts.cons i v rest))
          hp2 h8a had hflds hinits
        simp only [convertInitializer, gccTypeOf]
        exact ⟨hres.1, hres.2.1, hres.2.2,
          fun hi => by simp [GccType.isIntTy] at hi⟩

/-- The converted entries of an array or vector constructor: indexes stay in
bounds and every value matches the element type's size, alignment and
well-formedness contract (with exact typing for integer elements). -/
theorem ctorValsArr_wf (be flag : Bool) (eltTy : GccType) (count : Nat) :
    ∀ (elts : CtorElts) (nxt : Nat), wfArrElts eltTy count nxt elts = true →
      entsIdxOK count nxt (convertCtorValsArr be flag eltTy elts) ∧
      ∀ p ∈ convertCtorValsArr be flag eltTy elts,
        allocSizeInBits p.2.typeOf = allocSizeInBits (convertType eltTy) ∧
        p.2.cwfB = true ∧ 8 * abiAlignBytes p.2.typeOf ≤ eltTy.align ∧
        (eltTy.isIntTy = true → p.2.typeOf = convertType eltTy)
  | .nil => by
    intro nxt _
    exact ⟨trivial, by intro p hp; cases hp⟩
  | .cons idx value rest => by
    intro nxt hwf
    simp only [wfArrElts, Bool.and_eq_true, decide_eq_true_eq] at hwf
    obtain ⟨⟨⟨⟨h1, h2⟩, h3⟩, h4⟩, h5⟩ := hwf
    obtain ⟨ih1, ih2⟩ :=
      ctorValsArr_wf be flag eltTy count rest ((resolveIdx idx nxt).2 + 1) h5
    have hv := convertInitializer_wf be flag value h4
    have hcast : withCastPost be (gccTypeOf value) eltTy
        (convertInitializer be flag value) = convertInitializer be flag value := by
      simp [withCastPost, h3]
    simp only [convertCtorValsArr]
    refine ⟨⟨h1, h2, ih1⟩, ?_⟩
    intro p hp
    rcases List.mem_cons.mp hp with rfl | hp2
    · simp only [hcast]
      rw [h3] at hv
      exact ⟨hv.1, hv.2.2.1, hv.2.1, hv.2.2.2⟩
    · exact ih2 p hp2

/-- The converted entries of a record constructor: each emitted pair lies
within the record and carries a well-formed value. -/
theorem ctorValsRec_wf (be flag : Bool) (ub : Nat) :
    ∀ elts : CtorElts, wfRecElts ub elts = true →
      ∀ p ∈ convertCtorValsRec be flag elts,
        p.1.offset + p.1.declSize ≤ ub ∧ p.2.cwfB = true
  | .nil => by intro _ p hp; cases hp
  | .cons idx value rest => by
    intro hwf p hp
    simp only [wfRecElts, Bool.and_eq_true] at hwf
    obtain ⟨hidx, hrest⟩ := hwf
    cases idx with
    | fld f =>
      have hidx2 : (decide (f.offset + f.declSize ≤ ub) &&
          decide (gccTypeOf value = f.fty) && wfE value) = true := hidx
      simp only [Bool.and_eq_true, decide_eq_true_eq] at hidx2
      obtain ⟨⟨hb, hty⟩, hwfv⟩ := hidx2
      simp only [convertCtorValsRec] at hp
      rcases List.mem_cons.mp hp with rfl | hp2
      · have hcast : withCastPost be (gccTypeOf value) f.fty
            (convertInitializer be flag value) = convertInitializer be flag value := by
          simp [withCastPost, hty]
        simp only [hcast]
        have hv := convertInitializer_wf be flag value hwfv
        exact ⟨hb, hv.2.2.1⟩
      · exact ctorValsRec_wf be flag ub rest hrest p hp2
    | next =>
      simp only [convertCtorValsRec] at hp
      exact ctorValsRec_wf be flag ub rest hrest p hp
    | single i =>
      simp only [convertCtorValsRec] at hp
      exact ctorValsRec_wf be flag ub rest hrest p hp
    | rangeIdx lo hi =>
      simp only [convertCtorValsRec] at hp
      exact ctorValsRec_wf be flag ub rest hrest p hp
end

/-- Claim C2: for every well-formed source expression the allocation size of
the converted constant is at least the allocation size of the converted type,
and (all sizes of the fragment being statically known) the two are exactly
equal. -/
theorem claim_C2_size_exact (be flag : Bool) (e : GccExpr) (h : wfE e = true) :
    allocSizeInBits (convertType (gccTypeOf e))
        ≤ allocSizeInBits (convertInitializer be flag e).typeOf ∧
    allocSizeInBits (convertInitializer be flag e).typeOf
        = allocSizeInBits (convertType (gccTypeOf e)) := by
  have h1 := (convertInitializer_wf be flag e h).1
  exact ⟨le_of_eq h1.symm, h1⟩

theorem claim_C2_witness :
    wfE (.intCst (.intTy 32 32 32 true) 5) = true ∧
    (allocSizeInBits (convertType (gccTypeOf (.intCst (.intTy 32 32 32 true) 5)))
        ≤ allocSizeInBits
            (convertInitializer false false (.intCst (.intTy 32 32 32 true) 5)).typeOf ∧
     allocSizeInBits
         (convertInitializer false false (.intCst (.intTy 32 32 32 true) 5)).typeOf
        = allocSizeInBits (convertType (gccTypeOf (.intCst (.intTy 32 32 32 true) 5)))) :=
  ⟨by decide, claim_C2_size_exact false false _ (by decide)⟩

/-- Claim C3: the ABI alignment (in bits) of the converted constant's type
never exceeds the declared alignment of the expression's GCC type. -/
theorem claim_C3_align_ceiling (be flag : Bool) (e : GccExpr) (h : wfE e = true) :
    8 * abiAlignBytes (convertInitializer be flag e).typeOf ≤ (gccTypeOf e).align :=
  (convertInitializer_wf be flag e h).2.1

theorem claim_C3_witness :
    wfE (.intCst (.intTy 16 16 16 false) 7) = true ∧
    8 * abiAlignBytes
        (convertInitializer true true (.intCst (.intTy 16 16 16 false) 7)).typeOf
      ≤ (gccTypeOf (.intCst (.intTy 16 16 16 false) 7)).align :=
  ⟨by decide, claim_C3_align_ceiling true true _ (by decide)⟩

/-- Claim C9: a constructor with no element entries converts to the
all-default (zero) value of the converted type, for every type kind, without
entering the array or record builders. -/
theorem claim_C9_empty_ctor (be flag : Bool) (ty : GccType) :
    convertInitializer be flag (.ctor ty .nil) = getDefaultValue (convertType ty) :=
  rfl

/-- Claim C7: on a little-endian target the record constructor `{3-bit = 5,
5-bit = 17}` converts (with either value of the default-field flag) to a
struct holding the single byte `5 ||| 17 <<< 3 = 141`. -/
theorem claim_C7_le_bitfields :
    convertInitializer false true c7expr
        = .structC false (.ofList [.intC 8 141]) ∧
    convertInitializer false false c7expr
        = .structC false (.ofList [.intC 8 141]) := by
  constructor
  · rfl
  · rfl

theorem getD_ofList : ∀ (L : List ConstVal) (i : Nat) (d : ConstVal),
    (ConstValList.ofList L).getD i d = L.getD i d
  | [], i, d => by cases i <;> rfl
  | a :: as, 0, d => rfl
  | a :: as, i+1, d => by
    simp only [ConstValList.ofList, ConstValList.getD, List.getD_cons_succ]
    exact getD_ofList as i d

theorem store_int_mod8 {w : Nat} (h8 : w % 8 = 0) : storeSizeInBits (.integer w) = w := by
  simp only [storeSizeInBits, typeInfo, TypeInfo.storeBytes]
  omega

theorem and_compl_low (W m x : Nat) (hx : x < 2 ^ m) (hmW : m ≤ W) :
    x &&& complementW W (getBitsSet m W) = x := by
  apply Nat.eq_of_testBit_eq
  intro j
  rw [Nat.testBit_and, testBit_complementW, testBit_getBitsSet]
  by_cases hj : j < m
  · simp [hj, Nat.lt_of_lt_of_le hj hmW]
  · have : x.testBit j = false := Nat.testBit_eq_false_of_lt
      (lt_of_lt_of_le hx (Nat.pow_le_pow_right (by norm_num) (by omega)))
    simp [this]

theorem and_compl_high (W m x : Nat) (hlow : ∀ j, j < m → x.testBit j = false)
    (hxW : x < 2 ^ W) :
    x &&& complementW W (getBitsSet 0 m) = x := by
  apply Nat.eq_of_testBit_eq
  intro j
  rw [Nat.testBit_and, testBit_complementW, testBit_getBitsSet]
  by_cases hj : j < m
  · simp [hlow j hj]
  · by_cases hjW : j < W
    · simp [hj, hjW]
    · have : x.testBit j = false := Nat.testBit_eq_false_of_lt
        (lt_of_lt_of_le hxW (Nat.pow_le_pow_right (by norm_num) (by omega)))
      simp [this]

theorem or_step_le (v p q : Nat) :
    (v % 2 ^ p) ||| ((v >>> p % 2 ^ q) <<< p) = v % 2 ^ (p + q) := by
  apply Nat.eq_of_testBit_eq
  intro j
  rw [Nat.testBit_or, Nat.testBit_mod_two_pow, Nat.testBit_mod_two_pow,
    Nat.testBit_shiftLeft, Nat.testBit_mod_two_pow, Nat.testBit_shiftRight]
  by_cases h1 : j < p
  · have ha : ¬(p ≤ j) := by omega
    have hb : j < p + q := by omega
    simp [h1, ha, hb]
  · by_cases h2 : j < p + q
    · have hpj : p + (j - p) = j := by omega
      have hc : p ≤ j := by omega
      have hd : j - p < q := by omega
      simp [h1, h2, hc, hd, hpj]
    · have hd : ¬(j - p < q) := by omega
      simp [h1, h2, hd]

theorem or_step_be (x p q : Nat) :
    ((x >>> q % 2 ^ p) <<< q) ||| (x % 2 ^ q) = x % 2 ^ (p + q) := by
  apply Nat.eq_of_testBit_eq
  intro j
  rw [Nat.testBit_or, Nat.testBit_mod_two_pow, Nat.testBit_mod_two_pow,
    Nat.testBit_shiftLeft, Nat.testBit_mod_two_pow, Nat.testBit_shiftRight]
  by_cases h1 : j < q
  · have ha : ¬(q ≤ j) := by omega
    have hb : j < p + q := by omega
    simp [h1, ha, hb]
  · by_cases h2 : j < p + q
    · have hqj : q + (j - q) = j := by omega
      have hc : q ≤ j := by omega
      have hd : j - q < p := by omega
      simp [h1, h2, hc, hd, hqj]
    · have hd : ¬(j - q < p) := by omega
      simp [h1, h2, hd]

theorem viewAsBits_intC (be : Bool) (w v : Nat) (r : SRange) (h8 : w % 8 = 0)
    (hrne : r.empty = false)
    (hmne : (r.Meet ⟨0, (w : Int)⟩).empty = false) :
    viewAsBits be (.intC w v) r = ⟨⟨0, (w : Int)⟩, some (.intC w v)⟩ := by
  have hcc : createBitCast (.intC w v) (.integer w) = .intC w v := rfl
  show viewAsBitsF be (ConstVal.intC w v).typeOf.tsize (ConstVal.intC w v).typeOf
      (ConstVal.intC w v) r = _
  have hty : (ConstVal.intC w v).typeOf = .integer w := rfl
  rw [hty]
  have hts : (LLVMType.integer w).tsize = 1 := rfl
  rw [hts]
  simp only [viewAsBitsF]
  rw [store_int_mod8 h8, hrne, if_neg Bool.false_ne_true, hmne,
    if_neg Bool.false_ne_true]
  rw [hcc]
  cases be
  · rfl
  · rw [if_pos rfl]
    simp only [BitSlice.mk.injEq, SRange.mk.injEq]
    refine ⟨⟨by omega, by trivial⟩, by trivial⟩

theorem getBits_defined (be : Bool) (a b c d : Int) (W v : Nat)
    (hW : W = (b - a).toNat) (hv : v < 2 ^ W)
    (hc : a ≤ c) (hcd : c < d) (hdb : d ≤ b) :
    BitSlice.getBits be ⟨⟨a, b⟩, some (.intC W v)⟩ ⟨c, d⟩
      = .intC (d - c).toNat
          (v >>> (if be then (b - d).toNat else (c - a).toNat) % 2 ^ (d - c).toNat) := by
  by_cases heq : a = c ∧ b = d
  · obtain ⟨rfl, rfl⟩ := heq
    have hreq : SRange.req ⟨a, b⟩ ⟨a, b⟩ = true := by simp [SRange.req]
    simp only [BitSlice.getBits]
    rw [if_pos hreq]
    have h0 : (if be then (b - b).toNat else (a - a).toNat) = 0 := by
      cases be <;> simp <;> omega
    rw [h0, Nat.shiftRight_zero, ← hW, Nat.mod_eq_of_lt hv]
    rfl
  · have hab : a < b := by omega
    have hreq : SRange.req ⟨a, b⟩ ⟨c, d⟩ = false := by
      simp [SRange.req, SRange.empty]
      omega
    have hsne : SRange.empty ⟨a, b⟩ = false := by simp [SRange.empty]; omega
    have hjoin : SRange.Join ⟨a, b⟩ ⟨c, d⟩ = ⟨a, b⟩ := by
      simp only [SRange.Join, SRange.mk.injEq]
      constructor <;> omega
    have hreq2 : SRange.req ⟨a, b⟩ ⟨a, b⟩ = true := by simp [SRange.req]
    have hrne : SRange.empty ⟨c, d⟩ = false := by simp [SRange.empty]; omega
    have hwne : SRange.getWidth ⟨c, d⟩ ≠ W := by
      simp only [SRange.getWidth]
      omega
    simp only [BitSlice.getBits]
    rw [hreq, if_neg Bool.false_ne_true, hsne, if_neg Bool.false_ne_true, hjoin]
    simp only [BitSlice.ExtendRange]
    rw [if_pos hreq2]
    simp only [BitSlice.ReduceRange]
    rw [hreq, if_neg Bool.false_ne_true, hrne, if_neg Bool.false_ne_true]
    cases be
    · rw [if_neg (by simp)]
      by_cases hd1 : (c - a).toNat ≠ 0
      · rw [if_pos ⟨rfl, hd1⟩]
        simp only [createLShr, createTruncOrBitCast]
        rw [if_neg hwne]
        simp only [SRange.getWidth, Option.getD_some]
        rw [if_neg Bool.false_ne_true]
      · rw [if_neg (fun h => hd1 h.2)]
        have h0 : (c - a).toNat = 0 := by omega
        rw [h0]
        simp only [createTruncOrBitCast]
        rw [if_neg hwne]
        simp only [SRange.getWidth, Option.getD_some]
        rw [if_neg Bool.false_ne_true, Nat.shiftRight_zero]
    · by_cases hd1 : (b - d).toNat ≠ 0
      · rw [if_pos ⟨rfl, hd1⟩]
        simp only [createLShr, createTruncOrBitCast]
        rw [if_neg hwne]
        simp only [SRange.getWidth, Option.getD_some]
        rw [if_pos trivial]
      · rw [if_neg (fun h => hd1 h.2), if_neg (by simp)]
        have h0 : (b - d).toNat = 0 := by omega
        rw [h0]
        simp only [createTruncOrBitCast]
        rw [if_neg hwne]
        simp only [SRange.getWidth, Option.getD_some]
        rw [if_pos trivial, Nat.shiftRight_zero]

theorem interpretAsInt_byte (be : Bool) (w v i : Nat) (h8 : w % 8 = 0)
    (hv : v < 2 ^ w) (hi : 8 * i + 8 ≤ w) :
    interpretAsInt be (.intC w v) 8 ((8 * i : Nat) : Int)
      = .intC 8 (v >>> (if be then w - 8 - 8 * i else 8 * i) % 256) := by
  have hvw := viewAsBits_intC be w v
    ⟨((8 * i : Nat) : Int),
     ((8 * i : Nat) : Int) + ((storeSizeInBits (LLVMType.integer 8) : Nat) : Int)⟩ h8
    (by simp [SRange.empty, storeSizeInBits, typeInfo, TypeInfo.storeBytes])
    (by simp [SRange.Meet, SRange.empty, storeSizeInBits, typeInfo,
          TypeInfo.storeBytes]; push_cast; omega)
  simp only [interpretAsInt]
  rw [hvw]
  simp only [BitSlice.Displace, SRange.Displace]
  have hst8 : storeSizeInBits (LLVMType.integer 8) = 8 := rfl
  rw [hst8]
  cases be
  · rw [if_neg Bool.false_ne_true]
    have hgb := getBits_defined false (0 + -((8 * i : Nat) : Int))
      ((w : Int) + -((8 * i : Nat) : Int)) 0 ((8 : Nat) : Int) w v
      (by omega) hv (by omega) (by omega)
      (by omega)
    rw [hgb, if_neg Bool.false_ne_true, if_neg Bool.false_ne_true]
    have e1 : ((0 : Int) - (0 + -((8 * i : Nat) : Int))).toNat = 8 * i := by omega
    have e2 : (((8 : Nat) : Int) - 0).toNat = 8 := by omega
    rw [e1, e2]
    norm_num
  · rw [if_pos rfl]
    have hgb := getBits_defined true (0 + -((8 * i : Nat) : Int))
      ((w : Int) + -((8 * i : Nat) : Int)) (((8 : Nat) : Int) - ((8 : Nat) : Int))
      ((8 : Nat) : Int) w v
      (by omega) hv (by omega) (by omega)
      (by omega)
    rw [hgb, if_pos rfl, if_pos rfl]
    have e1 : ((w : Int) + -((8 * i : Nat) : Int) - ((8 : Nat) : Int)).toNat
        = w - 8 - 8 * i := by omega
    have e2 : (((8 : Nat) : Int) - (((8 : Nat) : Int) - ((8 : Nat) : Int))).toNat = 8 := by omega
    rw [e1, e2]
    norm_num

theorem byte_of_int (be : Bool) (w v i fuel : Nat) (h8 : w % 8 = 0)
    (hv : v < 2 ^ w) (hi : 8 * i + 8 ≤ w) :
    interpretAsTypeF be (fuel + 1) (.integer 8) (.intC w v) ((8 * i : Nat) : Int)
      = .intC 8 (v >>> (if be then w - 8 - 8 * i else 8 * i) % 256) := by
  simp only [interpretAsTypeF]
  by_cases hw : w = 8
  · subst hw
    have hi0 : i = 0 := by omega
    subst hi0
    rw [if_pos (show (ConstVal.intC 8 v).typeOf = LLVMType.integer 8 from rfl)]
    have hsh : (if be = true then 8 - 8 - 8 * 0 else 8 * 0) = 0 := by
      cases be <;> simp
    rw [hsh, Nat.shiftRight_zero, Nat.mod_eq_of_lt (by omega)]
  · rw [if_neg (by simp [ConstVal.typeOf]; omega)]
    exact interpretAsInt_byte be w v i h8 hv hi

theorem viewAsBits_byte (be : Bool) (b fuel : Nat) :
    viewAsBitsF be (fuel + 1) (.integer 8) (.intC 8 b) ⟨0, ((8 : Nat) : Int)⟩
      = ⟨⟨0, ((8 : Nat) : Int)⟩, some (.intC 8 b)⟩ := by
  have hcc : createBitCast (.intC 8 b) (.integer 8) = .intC 8 b := rfl
  simp only [viewAsBitsF]
  rw [if_neg (by simp [SRange.empty])]
  have hst8 : storeSizeInBits (LLVMType.integer 8) = 8 := rfl
  rw [hst8]
  rw [if_neg (by simp [SRange.Meet, SRange.empty])]
  rw [hcc]
  cases be
  · rfl
  · rw [if_pos rfl]
    simp only [BitSlice.mk.injEq, SRange.mk.injEq]
    refine ⟨⟨by omega, by trivial⟩, by trivial⟩

theorem extend_defined (be : Bool) (a b c d : Int) (W v : Nat)
    (hW : W = (b - a).toNat) (hv : v < 2 ^ W) (hab : a < b)
    (hc : c ≤ a) (hbd : b ≤ d) (hne : ¬(a = c ∧ b = d)) :
    BitSlice.ExtendRange be ⟨⟨a, b⟩, some (.intC W v)⟩ ⟨c, d⟩
      = ⟨⟨c, d⟩, some (.intC (d - c).toNat
          (v <<< (if be then (d - b).toNat else (a - c).toNat)))⟩ := by
  have hreq : SRange.req ⟨a, b⟩ ⟨c, d⟩ = false := by
    simp [SRange.req, SRange.empty]
    omega
  have hsne : SRange.empty ⟨a, b⟩ = false := by simp [SRange.empty]; omega
  have hgw : SRange.getWidth ⟨c, d⟩ = (d - c).toNat := rfl
  have hwne : (d - c).toNat ≠ W := by omega
  simp only [BitSlice.ExtendRange]
  rw [hreq, if_neg Bool.false_ne_true, hsne, if_neg Bool.false_ne_true, hgw]
  simp only [createZExtOrBitCast]
  rw [if_neg hwne]
  have hshl : ∀ δ : Nat, W + δ ≤ (d - c).toNat →
      v <<< δ < 2 ^ (d - c).toNat := by
    intro δ hδ
    rw [Nat.shiftLeft_eq]
    calc v * 2 ^ δ < 2 ^ W * 2 ^ δ :=
          mul_lt_mul_of_pos_right hv (Nat.pos_pow_of_pos δ (by norm_num))
      _ = 2 ^ (W + δ) := by rw [pow_add]
      _ ≤ 2 ^ (d - c).toNat := Nat.pow_le_pow_right (by norm_num) hδ
  cases be
  · rw [if_neg (by simp)]
    by_cases hd1 : (a - c).toNat ≠ 0
    · rw [if_pos ⟨rfl, hd1⟩]
      simp only [createShl]
      rw [Nat.mod_eq_of_lt (hshl _ (by omega))]
      rw [if_neg Bool.false_ne_true]
    · rw [if_neg (fun h => hd1 h.2)]
      have h0 : (a - c).toNat = 0 := by omega
      rw [if_neg Bool.false_ne_true, h0, Nat.shiftLeft_zero]
  · by_cases hd1 : (d - b).toNat ≠ 0
    · rw [if_pos ⟨rfl, hd1⟩]
      simp only [createShl]
      rw [Nat.mod_eq_of_lt (hshl _ (by omega))]
      rw [if_pos (by trivial)]
    · rw [if_neg (fun h => hd1 h.2), if_neg (by simp)]
      have h0 : (d - b).toNat = 0 := by omega
      rw [if_pos (by trivial), h0, Nat.shiftLeft_zero]

theorem merge_step_le (p q va bk : Nat) (hp : 0 < p) (hq : 0 < q)
    (hva : va < 2 ^ p) (hbk : bk < 2 ^ q) :
    BitSlice.Merge false ⟨⟨0, (p : Int)⟩, some (.intC p va)⟩
        ⟨⟨(p : Int), (p : Int) + (q : Int)⟩, some (.intC q bk)⟩
      = ⟨⟨0, (p : Int) + (q : Int)⟩, some (.intC (p + q) (va ||| bk <<< p))⟩ := by
  have hbne : SRange.empty ⟨(p : Int), (p : Int) + (q : Int)⟩ = false := by
    simp [SRange.empty]
    omega
  have hane : SRange.empty ⟨0, (p : Int)⟩ = false := by simp [SRange.empty]; omega
  have hjoin : SRange.Join ⟨0, (p : Int)⟩ ⟨(p : Int), (p : Int) + (q : Int)⟩
      = ⟨0, (p : Int) + (q : Int)⟩ := by
    simp only [SRange.Join, SRange.mk.injEq]
    constructor <;> omega
  have hA := extend_defined false 0 (p : Int) 0 ((p : Int) + (q : Int)) p va
    (by omega) hva (by omega) (by omega) (by omega) (by omega)
  have hB := extend_defined false (p : Int) ((p : Int) + (q : Int)) 0
    ((p : Int) + (q : Int)) q bk (by omega) hbk (by omega) (by omega) (by omega)
    (by omega)
  rw [if_neg Bool.false_ne_true] at hA hB
  have hgw : SRange.getWidth ⟨0, (p : Int) + (q : Int)⟩ = p + q := by
    simp [SRange.getWidth]
    omega
  simp only [BitSlice.Merge]
  rw [hbne, if_neg Bool.false_ne_true, hane, if_neg Bool.false_ne_true, hjoin,
    hA, hB, hgw]
  have e1 : ((0 : Int) - 0).toNat = 0 := by omega
  have e2 : ((p : Int) - 0).toNat = p := by omega
  have e3 : ((p : Int) + (q : Int) - (p : Int)).toNat = q := by omega
  have e4 : ((p : Int) + (q : Int) - 0).toNat = p + q := by omega
  rw [e1, e2, e3, e4]
  rw [if_neg Bool.false_ne_true, if_neg Bool.false_ne_true]
  simp only [createAnd, createOr, Option.getD_some]
  have hm1 : va <<< 0 &&& complementW (p + q) (getBitsSet p (p + q)) = va := by
    rw [Nat.shiftLeft_zero]
    exact and_compl_low (p + q) p va hva (by omega)
  have hm2 : bk <<< p &&& complementW (p + q) (getBitsSet 0 p) = bk <<< p := by
    refine and_compl_high (p + q) p (bk <<< p) ?_ ?_
    · intro j hj
      have hje : ¬(p ≤ j) := by omega
      rw [Nat.testBit_shiftLeft]
      simp [hje]
    · rw [Nat.shiftLeft_eq]
      calc bk * 2 ^ p < 2 ^ q * 2 ^ p :=
            mul_lt_mul_of_pos_right hbk (Nat.pos_pow_of_pos p (by norm_num))
        _ = 2 ^ (p + q) := by rw [← pow_add, Nat.add_comm]
  rw [hm1, hm2]

theorem merge_step_be (p q va bk : Nat) (hp : 0 < p) (hq : 0 < q)
    (hva : va < 2 ^ p) (hbk : bk < 2 ^ q) :
    BitSlice.Merge true ⟨⟨0, (p : Int)⟩, some (.intC p va)⟩
        ⟨⟨(p : Int), (p : Int) + (q : Int)⟩, some (.intC q bk)⟩
      = ⟨⟨0, (p : Int) + (q : Int)⟩, some (.intC (p + q) (va <<< q ||| bk))⟩ := by
  have hbne : SRange.empty ⟨(p : Int), (p : Int) + (q : Int)⟩ = false := by
    simp [SRange.empty]
    omega
  have hane : SRange.empty ⟨0, (p : Int)⟩ = false := by simp [SRange.empty]; omega
  have hjoin : SRange.Join ⟨0, (p : Int)⟩ ⟨(p : Int), (p : Int) + (q : Int)⟩
      = ⟨0, (p : Int) + (q : Int)⟩ := by
    simp only [SRange.Join, SRange.mk.injEq]
    constructor <;> omega
  have hA := extend_defined true 0 (p : Int) 0 ((p : Int) + (q : Int)) p va
    (by omega) hva (by omega) (by omega) (by omega) (by omega)
  have hB := extend_defined true (p : Int) ((p : Int) + (q : Int)) 0
    ((p : Int) + (q : Int)) q bk (by omega) hbk (by omega) (by omega) (by omega)
    (by omega)
  rw [if_pos (by trivial)] at hA hB
  have hgw : SRange.getWidth ⟨0, (p : Int) + (q : Int)⟩ = p + q := by
    simp [SRange.getWidth]
    omega
  simp only [BitSlice.Merge]
  rw [hbne, if_neg Bool.false_ne_true, hane, if_neg Bool.false_ne_true, hjoin,
    hA, hB, hgw]
  have e1 : ((p : Int) + (q : Int) - (p : Int)).toNat = q := by omega
  have e2 : ((p : Int) + (q : Int) - 0).toNat = p + q := by omega
  have e3 : ((p : Int) + (q : Int) - ((p : Int) + (q : Int))).toNat = 0 := by omega
  rw [e1, e2, e3]
  rw [if_pos (by trivial), if_pos (by trivial)]
  simp only [createAnd, createOr, Option.getD_some]
  have hm1 : va <<< q &&& complementW (p + q) (getBitsSet 0 q) = va <<< q := by
    refine and_compl_high (p + q) q (va <<< q) ?_ ?_
    · intro j hj
      have hje : ¬(q ≤ j) := by omega
      rw [Nat.testBit_shiftLeft]
      simp [hje]
    · rw [Nat.shiftLeft_eq]
      calc va * 2 ^ q < 2 ^ p * 2 ^ q :=
            mul_lt_mul_of_pos_right hva (Nat.pos_pow_of_pos q (by norm_num))
        _ = 2 ^ (p + q) := by rw [← pow_add]
  have hm2 : bk <<< 0 &&& complementW (p + q) (getBitsSet q (p + q)) = bk := by
    rw [Nat.shiftLeft_zero]
    exact and_compl_low (p + q) q bk hbk (by omega)
  rw [hm1, hm2]

theorem fold_merge_le (v : Nat) :
    ∀ k : Nat, 1 ≤ k →
      (List.range' 0 k).foldl
        (fun bits i => bits.Merge false
          ⟨⟨((8 * i : Nat) : Int), ((8 * i + 8 : Nat) : Int)⟩,
           some (.intC 8 (v >>> (8 * i) % 256))⟩)
        BitSlice.emptySlice
      = ⟨⟨0, ((8 * k : Nat) : Int)⟩, some (.intC (8 * k) (v % 2 ^ (8 * k)))⟩ := by
  intro k
  induction k with
  | zero => intro h; omega
  | succ k ih =>
    intro _
    by_cases hk : k = 0
    · subst hk
      simp only [List.range', List.foldl_cons, List.foldl_nil]
      simp only [BitSlice.Merge, BitSlice.emptySlice]
      rw [if_neg (by simp [SRange.empty]), if_pos (by simp [SRange.empty])]
      simp only [BitSlice.mk.injEq, SRange.mk.injEq]
      norm_num
    · have hk1 : 1 ≤ k := by omega
      have ih2 := ih hk1
      rw [List.range'_concat, List.foldl_append, ih2]
      simp only [List.foldl_cons, List.foldl_nil]
      have hzk : 0 + 1 * k = k := by omega
      rw [hzk]
      have hc8 : ((8 * k + 8 : Nat) : Int) = ((8 * k : Nat) : Int) + ((8 : Nat) : Int) := by
        push_cast
        ring
      rw [hc8]
      have hstep := merge_step_le (8 * k) 8 (v % 2 ^ (8 * k)) (v >>> (8 * k) % 256)
        (by omega) (by omega)
        (Nat.mod_lt _ (Nat.pos_pow_of_pos _ (by norm_num)))
        (Nat.mod_lt _ (by norm_num))
      rw [hstep]
      have h256 : (256 : Nat) = 2 ^ 8 := by norm_num
      rw [h256, or_step_le]
      have hw1 : 8 * (k + 1) = 8 * k + 8 := by ring
      rw [hw1]
      have hc9 : ((8 * k + 8 : Nat) : Int) = ((8 * k : Nat) : Int) + ((8 : Nat) : Int) := by
        push_cast
        ring
      rw [hc9]

theorem fold_merge_be (w v : Nat) (hv : v < 2 ^ w) :
    ∀ k : Nat, 1 ≤ k → 8 * k ≤ w →
      (List.range' 0 k).foldl
        (fun bits i => bits.Merge true
          ⟨⟨((8 * i : Nat) : Int), ((8 * i + 8 : Nat) : Int)⟩,
           some (.intC 8 (v >>> (w - 8 - 8 * i) % 256))⟩)
        BitSlice.emptySlice
      = ⟨⟨0, ((8 * k : Nat) : Int)⟩,
         some (.intC (8 * k) (v >>> (w - 8 * k) % 2 ^ (8 * k)))⟩ := by
  intro k
  induction k with
  | zero => intro h; omega
  | succ k ih =>
    intro _ hkw
    by_cases hk : k = 0
    · subst hk
      simp only [List.range', List.foldl_cons, List.foldl_nil]
      simp only [BitSlice.Merge, BitSlice.emptySlice]
      rw [if_neg (by simp [SRange.empty]), if_pos (by simp [SRange.empty])]
      simp only [BitSlice.mk.injEq, SRange.mk.injEq]
      norm_num
    · have hk1 : 1 ≤ k := by omega
      have ih2 := ih hk1 (by omega)
      rw [List.range'_concat, List.foldl_append, ih2]
      simp only [List.foldl_cons, List.foldl_nil]
      have hzk : 0 + 1 * k = k := by omega
      rw [hzk]
      have hc8 : ((8 * k + 8 : Nat) : Int) = ((8 * k : Nat) : Int) + ((8 : Nat) : Int) := by
        push_cast
        ring
      rw [hc8]
      have hstep := merge_step_be (8 * k) 8 (v >>> (w - 8 * k) % 2 ^ (8 * k))
        (v >>> (w - 8 - 8 * k) % 256) (by omega) (by omega)
        (Nat.mod_lt _ (Nat.pos_pow_of_pos _ (by norm_num)))
        (Nat.mod_lt _ (by norm_num))
      rw [hstep]
      have hx1 : v >>> (w - 8 * k) = (v >>> (w - 8 * (k + 1))) >>> 8 := by
        rw [← Nat.shiftRight_add]
        congr 1
        omega
      have hx2 : w - 8 - 8 * k = w - 8 * (k + 1) := by omega
      rw [hx1, hx2]
      have h256 : (256 : Nat) = 2 ^ 8 := by norm_num
      rw [h256, or_step_be]
      have hw1 : 8 * (k + 1) = 8 * k + 8 := by ring
      rw [hw1]
      have hc9 : ((8 * k + 8 : Nat) : Int) = ((8 * k : Nat) : Int) + ((8 : Nat) : Int) := by
        push_cast
        ring
      rw [hc9]

theorem byte_of_int2 (be : Bool) (w v i : Nat) (h8 : w % 8 = 0)
    (hv : v < 2 ^ w) (hi : 8 * i + 8 ≤ w) :
    (if (ConstVal.intC w v).typeOf = LLVMType.integer 8 then ConstVal.intC w v
     else interpretAsInt be (ConstVal.intC w v) 8 ((8 * i : Nat) : Int))
      = .intC 8 (v >>> (if be then w - 8 - 8 * i else 8 * i) % 256) := by
  by_cases hw : w = 8
  · subst hw
    have hi0 : i = 0 := by omega
    subst hi0
    rw [if_pos (show (ConstVal.intC 8 v).typeOf = LLVMType.integer 8 from rfl)]
    have hsh : (if be = true then 8 - 8 - 8 * 0 else 8 * 0) = 0 := by
      cases be <;> simp
    rw [hsh, Nat.shiftRight_zero, Nat.mod_eq_of_lt (by omega)]
  · rw [if_neg (by simp [ConstVal.typeOf]; omega)]
    exact interpretAsInt_byte be w v i h8 hv hi

theorem int_to_bytes (be : Bool) (u w v : Nat) (hw : w = 8 * u) (hu : 1 ≤ u)
    (hv : v < 2 ^ w) :
    interpretAsType be (.intC w v) (unitType u) 0
      = .arrC (.integer 8) (ConstValList.ofList ((List.range u).map
          (fun i => .intC 8 (v >>> (if be then w - 8 - 8 * i else 8 * i) % 256)))) := by
  have hts : (unitType u).tsize = 2 := rfl
  show interpretAsTypeF be (unitType u).tsize (unitType u) (.intC w v) 0 = _
  rw [hts]
  simp only [interpretAsTypeF, unitType]
  rw [if_neg (by simp [ConstVal.typeOf])]
  congr 1
  congr 1
  simp only [bind_pure_comp, List.map_eq_map, List.map_map]
  apply List.map_congr_left
  intro i hi
  rw [List.mem_range] at hi
  simp only [Function.comp_apply]
  have hoff : (0 : Int) + (i : Int) * ((allocSizeInBits (.integer 8) : Nat) : Int)
      = ((8 * i : Nat) : Int) := by
    have h8 : allocSizeInBits (.integer 8) = 8 := rfl
    rw [h8]
    push_cast
    ring
  rw [hoff]
  exact byte_of_int2 be w v i (by omega) hv (by omega)

theorem getD_map_range {α : Type} (f : Nat → α) (u i : Nat) (hi : i < u) (d : α) :
    (List.map f (List.range u)).getD i d = f i := by
  rw [List.getD_eq_getElem?_getD, List.getElem?_map, List.getElem?_range hi]
  rfl

theorem viewAsBits_bytes (be : Bool) (u w v : Nat) (hw : w = 8 * u) (hu : 1 ≤ u)
    (hv : v < 2 ^ w) :
    viewAsBits be
      (.arrC (.integer 8) (ConstValList.ofList ((List.range u).map
        (fun i => .intC 8 (v >>> (if be then w - 8 - 8 * i else 8 * i) % 256)))))
      ⟨0, (w : Int)⟩
      = ⟨⟨0, (w : Int)⟩, some (.intC w v)⟩ := by
  have hstr : allocSizeInBits (LLVMType.integer 8) = 8 := rfl
  have hty : (ConstVal.arrC (.integer 8) (ConstValList.ofList ((List.range u).map
      (fun i => ConstVal.intC 8
        (v >>> (if be then w - 8 - 8 * i else 8 * i) % 256))))).typeOf
      = .array u (.integer 8) := by
    simp only [ConstVal.typeOf]
    rw [clen_ofList, List.length_map, List.length_range]
  simp only [viewAsBits]
  rw [hty]
  have hts2 : (LLVMType.array u (.integer 8)).tsize = 2 := rfl
  rw [hts2]
  simp only [viewAsBitsF]
  rw [if_neg (by simp [SRange.empty]; omega)]
  have hsa : storeSizeInBits (.array u (.integer 8)) = w := by
    simp [storeSizeInBits, typeInfo, TypeInfo.storeBytes, TypeInfo.allocBytes,
      intAlignBytes, roundUp]
    omega
  rw [hsa]
  have hme : SRange.Meet ⟨0, (w : Int)⟩ ⟨0, (w : Int)⟩ = ⟨0, (w : Int)⟩ := by
    simp [SRange.Meet]
  rw [hme]
  rw [if_neg (by simp [SRange.empty]; omega)]
  have hr1 : ({ first := 0, last := (w : Int) } : SRange).first.toNat
      / allocSizeInBits (LLVMType.integer 8) = 0 := by
    rw [hstr]
    simp
  have hr2 : (({ first := 0, last := (w : Int) } : SRange).last.toNat
      + allocSizeInBits (LLVMType.integer 8) - 1) / allocSizeInBits (LLVMType.integer 8)
      = u := by
    rw [hstr]
    simp
    omega
  rw [hr1, hr2, Nat.sub_zero]
  have htt : (true = true) = True := by simp
  have hbc : ∀ X : Nat, createBitCast (.intC 8 X) (.integer 8) = .intC 8 X :=
    fun X => rfl
  cases be
  · simp only [Bool.false_eq_true, if_false]
    refine Eq.trans (List.foldl_ext _ (fun bits i => bits.Merge false
        ⟨⟨((8 * i : Nat) : Int), ((8 * i + 8 : Nat) : Int)⟩,
         some (.intC 8 (v >>> (8 * i) % 256))⟩) _ ?_) ?_
    · intro bits i hi
      have hiu : i < u := by
        rw [List.mem_range'_1] at hi
        omega
      rw [if_neg (by rw [hstr]; simp [SRange.empty])]
      rw [if_neg (by rw [hstr]; simp [SRange.Meet, SRange.empty, storeSizeInBits,
        typeInfo, TypeInfo.storeBytes])]
      simp only [extractValue]
      rw [getD_ofList, getD_map_range _ _ _ hiu, hbc, hstr]
      simp only [BitSlice.Displace, SRange.Displace]
      congr 1
      simp only [BitSlice.mk.injEq, SRange.mk.injEq]
      refine ⟨⟨by push_cast; ring, by push_cast; ring⟩, by trivial⟩
    · rw [fold_merge_le v u hu]
      subst hw
      rw [Nat.mod_eq_of_lt hv]
  · simp only [htt, if_true]
    refine Eq.trans (List.foldl_ext _ (fun bits i => bits.Merge true
        ⟨⟨((8 * i : Nat) : Int), ((8 * i + 8 : Nat) : Int)⟩,
         some (.intC 8 (v >>> (w - 8 - 8 * i) % 256))⟩) _ ?_) ?_
    · intro bits i hi
      have hiu : i < u := by
        rw [List.mem_range'_1] at hi
        omega
      rw [if_neg (by rw [hstr]; simp [SRange.empty])]
      rw [if_neg (by rw [hstr]; simp [SRange.Meet, SRange.empty, storeSizeInBits,
        typeInfo, TypeInfo.storeBytes])]
      simp only [extractValue]
      rw [getD_ofList, getD_map_range _ _ _ hiu, hbc, hstr]
      simp only [BitSlice.Displace, SRange.Displace]
      have hst8i : storeSizeInBits (LLVMType.integer 8) = 8 := rfl
      rw [hst8i]
      congr 1
      simp only [BitSlice.mk.injEq, SRange.mk.injEq]
      refine ⟨⟨by push_cast; ring, by push_cast; ring⟩, by trivial⟩
    · rw [fold_merge_be w v hv u hu (by omega)]
      have h0 : w - 8 * u = 0 := by omega
      rw [h0, Nat.shiftRight_zero]
      subst hw
      rw [Nat.mod_eq_of_lt hv]

theorem bytes_to_int (be : Bool) (u w v : Nat) (hw : w = 8 * u) (hu : 1 ≤ u)
    (hv : v < 2 ^ w) :
    interpretAsType be
      (.arrC (.integer 8) (ConstValList.ofList ((List.range u).map
        (fun i => .intC 8 (v >>> (if be then w - 8 - 8 * i else 8 * i) % 256)))))
      (.integer w) 0
      = .intC w v := by
  have hts : (LLVMType.integer w).tsize = 1 := rfl
  show interpretAsTypeF be (LLVMType.integer w).tsize _ _ _ = _
  rw [hts]
  simp only [interpretAsTypeF]
  rw [if_neg (by simp [ConstVal.typeOf])]
  simp only [interpretAsInt]
  rw [store_int_mod8 (by omega), zero_add]
  rw [viewAsBits_bytes be u w v hw hu hv]
  simp only [BitSlice.Displace, SRange.Displace]
  have htt : (true = true) = True := by simp
  cases be
  · simp only [Bool.false_eq_true, if_false]
    have hreq : SRange.req ⟨0 + -(0 : Int), (w : Int) + -(0 : Int)⟩ ⟨0, (w : Int)⟩
        = true := by
      simp [SRange.req, SRange.empty]
    simp only [BitSlice.getBits]
    rw [hreq, if_pos rfl]
    rfl
  · simp only [htt, if_true]
    have hreq : SRange.req ⟨0 + -(0 : Int), (w : Int) + -(0 : Int)⟩
        ⟨(w : Int) - (w : Int), (w : Int)⟩ = true := by
      simp [SRange.req, SRange.empty]
    simp only [BitSlice.getBits]
    rw [hreq, if_pos rfl]
    rfl

theorem byte_roundtrip (be : Bool) (u w v : Nat) (hw : w = 8 * u) (hu : 1 ≤ u)
    (hv : v < 2 ^ w) :
    interpretAsType be (interpretAsType be (.intC w v) (unitType u) 0)
        (.integer w) 0
      = .intC w v := by
  rw [int_to_bytes be u w v hw hu hv, bytes_to_int be u w v hw hu hv]

theorem interpretAsType_self (be : Bool) (c : ConstVal) (ty : LLVMType) (sb : Int)
    (h : c.typeOf = ty) : interpretAsType be c ty sb = c := by
  rw [interpretAsType]
  cases hts : ty.tsize with
  | zero => rfl
  | succ n =>
    simp only [interpretAsTypeF]
    rw [if_pos h]

/-- Claim C10 (amended): for a `FieldContents` whose range width is a byte
multiple and whose contents are well formed, `extractContents` returns a
constant whose allocation size is at most the range's width, and every
defined bit of the range is preserved: if the field's bits over the range
read back as a defined integer, the returned constant's bits over the same
range read back as that same integer. -/
theorem claim_C10_extract_defined (be : Bool) (f : FieldContents) (v : Nat)
    (hfc : (match f.C with | none => true | some c => c.cwfB) = true)
    (h8 : f.R.getWidth % bitsPerUnit = 0) :
    allocSizeInBits (f.extractContents be).typeOf ≤ f.R.getWidth ∧
    (f.extractContents be).cwfB = true ∧
    (f.getAsBits be = some (.intC f.R.getWidth v) →
      FieldContents.getAsBits be ⟨f.R, some (f.extractContents be), f.R.first⟩
        = some (.intC f.R.getWidth v)) := by
  obtain ⟨hp1, hp2⟩ := extractContents_wf be f hfc h8
  refine ⟨hp1, hp2, ?_⟩
  intro hget
  have hbpu : bitsPerUnit = 8 := rfl
  by_cases hemp : f.R.empty = true
  · rw [FieldContents.getAsBits, if_pos hemp] at hget
    cases hget
  · rw [Bool.not_eq_true] at hemp
    match hC : f.C with
    | none =>
      rw [FieldContents.getAsBits, hemp, if_neg Bool.false_ne_true, hC] at hget
      cases hget
    | some c0 =>
      rw [FieldContents.getAsBits, hemp, if_neg Bool.false_ne_true, hC] at hget
      rw [Option.some.injEq] at hget
      have hwpos : 0 < f.R.getWidth := by
        rw [SRange.empty_false_iff] at hemp
        simp only [SRange.getWidth]
        omega
      by_cases hsafe : f.isSafe = true
      · -- contents returned directly; the range starts at the constant
        have hext : f.extractContents be = c0 := by
          rw [FieldContents.extractContents, if_pos hsafe, hC]
          rfl
        have hfs : f.Starts = f.R.first := by
          simp only [FieldContents.isSafe, hC, hemp] at hsafe
          split at hsafe
          · cases hsafe
          · next hcond =>
            simp only [Bool.not_false, Bool.true_and, decide_eq_true_eq] at hcond
            omega
        rw [hext]
        rw [FieldContents.getAsBits]
        have hre : (⟨f.R, some c0, f.R.first⟩ : FieldContents).R.empty = false := hemp
        rw [hre, if_neg Bool.false_ne_true]
        rw [hfs] at hget
        rw [← hget]
      · -- contents converted through getAsBits first
        have hv : v < 2 ^ f.R.getWidth := by
          have hok : (LLVMType.integer f.R.getWidth).okT = true := rfl
          have hc0 : c0.cwfB = true := by
            rw [hC] at hfc
            exact hfc
          have := (interpretAsType_wf be c0 (.integer f.R.getWidth)
            (f.R.first - f.Starts) hok hc0).2
          rw [hget] at this
          simp only [ConstVal.cwfB, decide_eq_true_eq] at this
          exact this
        have hext : f.extractContents be
            = interpretAsType be (.intC f.R.getWidth v)
                (unitType (f.R.getWidth / bitsPerUnit)) 0 ∨
            f.extractContents be = .intC f.R.getWidth v := by
          rw [FieldContents.extractContents, if_neg hsafe, hemp,
            if_neg Bool.false_ne_true]
          simp only [FieldContents.getAsBits, hemp, Bool.false_eq_true, if_false,
            hC, hget, Option.getD_some]
          by_cases hsafe2 : (⟨f.R, some (.intC f.R.getWidth v), f.R.first⟩
              : FieldContents).isSafe = true
          · rw [if_pos hsafe2]
            exact Or.inr rfl
          · rw [if_neg hsafe2]
            exact Or.inl rfl
        rcases hext with hext | hext
        · rw [hext]
          rw [FieldContents.getAsBits]
          have hre : (⟨f.R, some (interpretAsType be (.intC f.R.getWidth v)
              (unitType (f.R.getWidth / bitsPerUnit)) 0), f.R.first⟩
              : FieldContents).R.empty = false := hemp
          rw [hre, if_neg Bool.false_ne_true]
          have hss : f.R.first - f.R.first = 0 := by ring
          show some (interpretAsType be _ (.integer f.R.getWidth)
            (f.R.first - f.R.first)) = _
          rw [hss]
          have h8n : f.R.getWidth % 8 = 0 := by
            rw [hbpu] at h8
            exact h8
          rw [byte_roundtrip be (f.R.getWidth / bitsPerUnit) f.R.getWidth v
            (by rw [hbpu]; omega) (by rw [hbpu]; omega) hv]
        · rw [hext]
          rw [FieldContents.getAsBits]
          have hre : (⟨f.R, some (.intC f.R.getWidth v), f.R.first⟩
              : FieldContents).R.empty = false := hemp
          rw [hre, if_neg Bool.false_ne_true]
          show some (interpretAsType be (.intC f.R.getWidth v)
            (.integer f.R.getWidth) (f.R.first - f.R.first)) = _
          rw [interpretAsType_self be (.intC f.R.getWidth v)
            (.integer f.R.getWidth) (f.R.first - f.R.first) rfl]

theorem claim_C10_witness :
    ((match c10F.C with | none => true | some c => c.cwfB) = true) ∧
    c10F.R.getWidth % bitsPerUnit = 0 ∧
    (allocSizeInBits (c10F.extractContents false).typeOf ≤ c10F.R.getWidth ∧
     (c10F.extractContents false).cwfB = true ∧
     (c10F.getAsBits false = some (.intC c10F.R.getWidth 1193046) →
       FieldContents.getAsBits false
           ⟨c10F.R, some (c10F.extractContents false), c10F.R.first⟩
         = some (.intC c10F.R.getWidth 1193046))) :=
  ⟨by decide, by decide,
   claim_C10_extract_defined false c10F 1193046 (by decide) (by decide)⟩

theorem claim_C10_counterexample :
    ((match c10U.C with | none => true | some c => c.cwfB) = true) ∧
    c10U.R.getWidth % bitsPerUnit = 0 ∧
    c10U.getAsBits false = some (.undef (.integer 24)) ∧
    FieldContents.getAsBits false
        ⟨c10U.R, some (c10U.extractContents false), c10U.R.first⟩
      = some (.intC 24 0) := by decide

end Dragonegg
